import Mathlib

/-!
# PlugPort storage engine: formal model and verification

A shallow embedding in Lean 4 of the PlugPort storage engine core
(`packages/server/src/storage/`): sort-order-preserving key encoding
(`key-encoding.ts`), the index manager and document store
(`index-manager.ts`), and the query planner/executor (`query-planner.ts`),
composed with the in-memory ordered KV adapter (`kv-adapter.ts`).

Strings are modelled as `List Char` (JS strings compared by code unit;
all characters involved are scalar values, so code-unit order and
code-point order agree).  JS numbers inside documents are modelled as
integers (`Int`): every stored document comes from JSON and the claims
under verification do not depend on non-integer or overflowing doubles;
the number *key encoding* itself is modelled bit-exactly on 64-bit
IEEE-754 patterns (`encodeNumber` below).
-/

/-- JS string, modelled as its list of characters. -/
abbrev Str := List Char

/-- Convert a Lean string literal into the model's string type. -/
def str (x : String) : Str := x.data

/-- The Unit Separator byte `0x1F` (`IDX_ID_SEP` in `key-encoding.ts`). -/
def usep : Char := '\x1F'

/-! ## Fixed-width lowercase hex rendering

`n.toString(16).padStart(w, '0')` for `n < 16^w`, as used by
`encodeNumber` and `encodeDate`. -/

/-- Lowercase hex digit character for `d < 16` (`0`-`9`, `a`-`f`). -/
def hexChar (d : Nat) : Char := if d < 10 then Char.ofNat (48 + d) else Char.ofNat (87 + d)

/-- Fixed-width base-16 rendering, most significant digit first.
For `n < 16^w` this equals JS `n.toString(16).padStart(w, '0')`. -/
def toHexFixed : Nat → Nat → Str
  | _, 0 => []
  | n, w + 1 => hexChar (n / 16 ^ w) :: toHexFixed (n % 16 ^ w) w

theorem hexChar_lt_hexChar {d₁ d₂ : Nat} (h : d₁ < d₂) (h₂ : d₂ < 16) :
    hexChar d₁ < hexChar d₂ := by
  have key : ∀ a b : Fin 16, a.val < b.val → hexChar a.val < hexChar b.val := by decide
  exact key ⟨d₁, lt_trans h h₂⟩ ⟨d₂, h₂⟩ h

/-- Fixed-width hex is strictly monotone with respect to
lexicographic order on the digit strings. -/
theorem toHexFixed_lex {w m n : Nat} (hmn : m < n) (hn : n < 16 ^ w) :
    List.Lex (· < ·) (toHexFixed m w) (toHexFixed n w) := by
  induction w generalizing m n with
  | zero => simp at hn; omega
  | succ w ih =>
    have h16 : (0:Nat) < 16 ^ w := Nat.pos_pow_of_pos w (by norm_num)
    have hdn : n / 16 ^ w < 16 := by
      have h : n < 16 * 16 ^ w := by
        calc n < 16 ^ (w+1) := hn
        _ = 16 * 16 ^ w := by ring
      exact Nat.div_lt_of_lt_mul (by omega)
    rcases Nat.lt_trichotomy (m / 16 ^ w) (n / 16 ^ w) with hlt | heq | hgt
    · exact List.Lex.rel (hexChar_lt_hexChar hlt hdn)
    · rw [toHexFixed, toHexFixed, heq]
      apply List.Lex.cons
      apply ih
      · have hm := Nat.div_add_mod m (16 ^ w)
        have hn' := Nat.div_add_mod n (16 ^ w)
        rw [heq] at hm
        omega
      · exact Nat.mod_lt _ h16
    · exfalso
      have : m / 16 ^ w ≤ n / 16 ^ w := Nat.div_le_div_right (Nat.le_of_lt hmn)
      omega

/-- Splitting a fixed-width hex rendering at a digit boundary. -/
theorem toHexFixed_append {w₁ w₂ x y : Nat} (hx : x < 16 ^ w₁) (hy : y < 16 ^ w₂) :
    toHexFixed (x * 16 ^ w₂ + y) (w₁ + w₂) = toHexFixed x w₁ ++ toHexFixed y w₂ := by
  induction w₁ generalizing x with
  | zero =>
    have hx0 : x = 0 := by simpa using hx
    simp [hx0, toHexFixed]
  | succ w₁ ih =>
    have hpos : (0:Nat) < 16 ^ w₁ := Nat.pos_pow_of_pos _ (by norm_num)
    have hqr : x = 16 ^ w₁ * (x / 16 ^ w₁) + x % 16 ^ w₁ := (Nat.div_add_mod x (16 ^ w₁)).symm
    have hr : x % 16 ^ w₁ < 16 ^ w₁ := Nat.mod_lt _ hpos
    have hrem : (x % 16 ^ w₁) * 16 ^ w₂ + y < 16 ^ (w₁ + w₂) := by
      have h3 : (x % 16 ^ w₁ + 1) * 16 ^ w₂ ≤ 16 ^ w₁ * 16 ^ w₂ :=
        Nat.mul_le_mul_right _ (by omega)
      have h4 : (x % 16 ^ w₁ + 1) * 16 ^ w₂ = (x % 16 ^ w₁) * 16 ^ w₂ + 16 ^ w₂ := by ring
      have h5 : (16:Nat) ^ w₁ * 16 ^ w₂ = 16 ^ (w₁ + w₂) := (pow_add 16 w₁ w₂).symm
      omega
    have hN : x * 16 ^ w₂ + y
        = ((x % 16 ^ w₁) * 16 ^ w₂ + y) + (x / 16 ^ w₁) * 16 ^ (w₁ + w₂) := by
      conv_lhs => rw [hqr]
      rw [pow_add]
      ring
    have hwsucc : w₁ + 1 + w₂ = (w₁ + w₂) + 1 := by omega
    rw [hwsucc, toHexFixed, toHexFixed, hN]
    have hDpos : (0:Nat) < 16 ^ (w₁ + w₂) := Nat.pos_pow_of_pos _ (by norm_num)
    rw [Nat.add_mul_div_right _ _ hDpos, Nat.div_eq_of_lt hrem,
      Nat.add_mul_mod_self_right, Nat.mod_eq_of_lt hrem, ih hr]
    simp

/-! ## Number key encoding (`encodeNumber` in `key-encoding.ts`)

A finite double is represented by its 64-bit IEEE-754 big-endian bit
pattern `bits < 2^64` (what `buf.writeDoubleBE` produces).  The source
reads the pattern as two 32-bit words `high`/`low`; for `n >= 0` it sets
the top bit of `high` (`high | 0x80000000`), for negative `n` it
complements both words (`(~high) >>> 0`, i.e. `0xFFFFFFFF - high`), and
renders both words as 8 lowercase hex characters each
(`toString(16).padStart(8, '0')`). -/

/-- Exponent field (bits 52..62) of an IEEE-754 double bit pattern. -/
def expField (bits : Nat) : Nat := bits / 2 ^ 52 % 2 ^ 11

/-- Mantissa field (bits 0..51). -/
def mantField (bits : Nat) : Nat := bits % 2 ^ 52

/-- Sign bit (bit 63) of a pattern `bits < 2^64`. -/
def signBit (bits : Nat) : Nat := bits / 2 ^ 63

/-- A pattern denotes a finite double iff its exponent field is not all-ones. -/
def finiteBits (bits : Nat) : Bool := expField bits != 2047

/-- Bit pattern of `+Infinity`. -/
def posInfBits : Nat := 0x7FF0000000000000

/-- Bit pattern of `-Infinity`. -/
def negInfBits : Nat := 0xFFF0000000000000

/-- Magnitude of a finite double, scaled by `2^1074` so that it is a
natural number: subnormals (`e = 0`) denote `m * 2^-1074`, normals
denote `(2^52 + m) * 2^(e - 1075)`. -/
def scaledMag (e m : Nat) : Nat := if e = 0 then m else (2 ^ 52 + m) * 2 ^ (e - 1)

/-- Numeric value of a finite double bit pattern, scaled by `2^1074`
(an exact integer; the scaling is an order isomorphism). -/
def sval (bits : Nat) : Int :=
  (if signBit bits = 1 then -1 else 1) * (scaledMag (expField bits) (mantField bits) : Int)

/-- Exact numeric value of a finite double bit pattern, as a rational. -/
def dval (bits : Nat) : ℚ := (sval bits : ℚ) / 2 ^ 1074

/-- `encodeNumber` of `key-encoding.ts`, on the argument's bit pattern.
The three sentinel branches mirror `Number.isNaN(n)`, `n === Infinity`
and `n === -Infinity`; the `0 ≤ sval bits` test mirrors `n >= 0`
(in JS `-0 >= 0` is true, and `sval` of the `-0` pattern is `0`).
`Nat.lor high 0x80000000` mirrors `(high | 0x80000000) >>> 0` and
`4294967295 - high` mirrors `(~high) >>> 0` for `high < 2^32`. -/
def encodeNumber (bits : Nat) : Str :=
  if expField bits = 2047 && mantField bits != 0 then str "2:N"
  else if bits = posInfBits then str "2:Z"
  else if bits = negInfBits then str "2:A"
  else
    let high := bits / 2 ^ 32
    let low := bits % 2 ^ 32
    if 0 ≤ sval bits then
      '2' :: ':' :: (toHexFixed (Nat.lor high (2 ^ 31)) 8 ++ toHexFixed low 8)
    else
      '2' :: ':' :: (toHexFixed (2 ^ 32 - 1 - high) 8 ++ toHexFixed (2 ^ 32 - 1 - low) 8)

theorem lor_high_bit {h : Nat} (hh : h < 2 ^ 32) :
    Nat.lor h (2 ^ 31) = h % 2 ^ 31 + 2 ^ 31 := by
  apply Nat.eq_of_testBit_eq
  intro i
  have hor : (Nat.lor h (2 ^ 31)).testBit i = (h.testBit i || (2 ^ 31 : Nat).testBit i) :=
    Nat.testBit_or h (2 ^ 31) i
  have hcomm : h % 2 ^ 31 + 2 ^ 31 = 2 ^ 31 + h % 2 ^ 31 := by omega
  rcases Nat.lt_trichotomy i 31 with hi | hi | hi
  · rw [hor, Nat.testBit_two_pow_of_ne (by omega), hcomm,
      Nat.testBit_two_pow_add_gt hi, Nat.testBit_mod_two_pow]
    simp [hi]
  · subst hi
    rw [hor, Nat.testBit_two_pow_self, hcomm, Nat.testBit_two_pow_add_eq,
      Nat.testBit_mod_two_pow]
    simp
  · have h1 : h.testBit i = false := Nat.testBit_lt_two_pow (by
      calc h < 2 ^ 32 := hh
      _ ≤ 2 ^ i := Nat.pow_le_pow_right (by norm_num) (by omega))
    have h2 : (h % 2 ^ 31 + 2 ^ 31).testBit i = false := Nat.testBit_lt_two_pow (by
      have : h % 2 ^ 31 < 2 ^ 31 := Nat.mod_lt _ (by positivity)
      calc h % 2 ^ 31 + 2 ^ 31 < 2 ^ 32 := by omega
      _ ≤ 2 ^ i := Nat.pow_le_pow_right (by norm_num) (by omega))
    rw [hor, Nat.testBit_two_pow_of_ne (by omega), h1, h2]
    simp

/-- The positive/zero branch of `encodeNumber`, for finite patterns:
the emitted hex digits render `bits % 2^63 + 2^63`. -/
theorem encodeNumber_pos {bits : Nat} (hb : bits < 2 ^ 64) (hf : finiteBits bits = true)
    (hpos : 0 ≤ sval bits) :
    encodeNumber bits = '2' :: ':' :: toHexFixed (bits % 2 ^ 63 + 2 ^ 63) 16 := by
  have hexp : expField bits ≠ 2047 := by simpa [finiteBits] using hf
  have hpi : bits ≠ posInfBits := by
    intro h; apply hexp; rw [h]; rfl
  have hni : bits ≠ negInfBits := by
    intro h; apply hexp; rw [h]; rfl
  have hhigh : bits / 2 ^ 32 < 2 ^ 32 := by omega
  have hlow : bits % 2 ^ 32 < 2 ^ 32 := Nat.mod_lt _ (by positivity)
  rw [encodeNumber]
  simp only [hpi, hni, if_false, hpos, if_true]
  have hnan : (expField bits = 2047 && mantField bits != 0) = false := by
    simp [hexp]
  rw [hnan]
  simp only [Bool.false_eq_true, if_false]
  rw [lor_high_bit hhigh]
  have hsplit : toHexFixed ((bits / 2 ^ 32 % 2 ^ 31 + 2 ^ 31) * 16 ^ 8 + bits % 2 ^ 32) (8 + 8)
      = toHexFixed (bits / 2 ^ 32 % 2 ^ 31 + 2 ^ 31) 8 ++ toHexFixed (bits % 2 ^ 32) 8 := by
    apply toHexFixed_append
    · have h : bits / 2 ^ 32 % 2 ^ 31 < 2 ^ 31 := Nat.mod_lt _ (by positivity)
      norm_num <;> omega
    · norm_num <;> omega
  have harg : (bits / 2 ^ 32 % 2 ^ 31 + 2 ^ 31) * 16 ^ 8 + bits % 2 ^ 32
      = bits % 2 ^ 63 + 2 ^ 63 := by
    have hmm : bits % (2 ^ 32 * 2 ^ 31) = bits % 2 ^ 32 + 2 ^ 32 * (bits / 2 ^ 32 % 2 ^ 31) :=
      Nat.mod_mul
    have hp : (2:Nat) ^ 32 * 2 ^ 31 = 2 ^ 63 := by norm_num
    rw [hp] at hmm
    have h168 : (16:Nat) ^ 8 = 2 ^ 32 := by norm_num
    rw [h168]
    omega
  rw [← harg, ← hsplit]

/-- The negative branch of `encodeNumber`, for finite patterns:
the emitted hex digits render the 64-bit complement `2^64 - 1 - bits`. -/
theorem encodeNumber_neg {bits : Nat} (hb : bits < 2 ^ 64) (hf : finiteBits bits = true)
    (hneg : sval bits < 0) :
    encodeNumber bits = '2' :: ':' :: toHexFixed (2 ^ 64 - 1 - bits) 16 := by
  have hexp : expField bits ≠ 2047 := by simpa [finiteBits] using hf
  have hpi : bits ≠ posInfBits := by
    intro h; apply hexp; rw [h]; rfl
  have hni : bits ≠ negInfBits := by
    intro h; apply hexp; rw [h]; rfl
  have hhigh : bits / 2 ^ 32 < 2 ^ 32 := by omega
  have hlow : bits % 2 ^ 32 < 2 ^ 32 := Nat.mod_lt _ (by positivity)
  rw [encodeNumber]
  simp only [hpi, hni, if_false]
  have hnan : (expField bits = 2047 && mantField bits != 0) = false := by
    simp [hexp]
  rw [hnan]
  simp only [Bool.false_eq_true, if_false]
  have hns : ¬ (0 ≤ sval bits) := by omega
  simp only [hns, if_false]
  have hsplit : toHexFixed ((2 ^ 32 - 1 - bits / 2 ^ 32) * 16 ^ 8 + (2 ^ 32 - 1 - bits % 2 ^ 32))
        (8 + 8)
      = toHexFixed (2 ^ 32 - 1 - bits / 2 ^ 32) 8 ++ toHexFixed (2 ^ 32 - 1 - bits % 2 ^ 32) 8 := by
    apply toHexFixed_append
    · norm_num <;> omega
    · norm_num <;> omega
  have harg : (2 ^ 32 - 1 - bits / 2 ^ 32) * 16 ^ 8 + (2 ^ 32 - 1 - bits % 2 ^ 32)
      = 2 ^ 64 - 1 - bits := by
    have h168 : (16:Nat) ^ 8 = 2 ^ 32 := by norm_num
    rw [h168]
    have hd := Nat.div_add_mod bits (2 ^ 32)
    have h1 : (2:Nat) ^ 32 * 2 ^ 32 = 2 ^ 64 := by norm_num
    -- expand: (2^32 - 1 - high) * 2^32 + (2^32 - 1 - low) = 2^64 - 1 - bits
    omega
  rw [← harg, ← hsplit]

/-- The scaled magnitude is strictly monotone in the low 63 bits
`e * 2^52 + m` of the pattern (the glue between subnormal and normal
ranges is what makes the IEEE order-preserving transform work). -/
theorem scaledMag_strictMono {e m e' m' : Nat} (hm : m < 2 ^ 52) (hm' : m' < 2 ^ 52)
    (h : e * 2 ^ 52 + m < e' * 2 ^ 52 + m') : scaledMag e m < scaledMag e' m' := by
  have hee' : e ≤ e' := by
    by_contra hc
    have h1 : e' + 1 ≤ e := by omega
    have := Nat.mul_le_mul_right (2 ^ 52) h1
    omega
  rcases Nat.eq_or_lt_of_le hee' with heq | hlt
  · subst heq
    have hmm : m < m' := by omega
    unfold scaledMag
    by_cases he : e = 0
    · simp [he]; omega
    · rw [if_neg he, if_neg he]
      exact mul_lt_mul_of_pos_right (by omega) (by positivity)
  · -- scaledMag e m < scaledMag (e+1) 0 ≤ scaledMag e' 0 ≤ scaledMag e' m'
    have step1 : scaledMag e m < scaledMag (e + 1) 0 := by
      unfold scaledMag
      rw [if_neg (by omega : ¬ e + 1 = 0)]
      simp only [Nat.add_sub_cancel, Nat.add_zero]
      by_cases he : e = 0
      · rw [if_pos he]
        subst he
        simpa using hm
      · rw [if_neg he]
        have h1 : (2 ^ 52 + m) * 2 ^ (e - 1) < 2 ^ 53 * 2 ^ (e - 1) :=
          mul_lt_mul_of_pos_right (by omega) (by positivity)
        have h3 : (2:Nat) ^ 53 * 2 ^ (e - 1) = 2 ^ 52 * 2 ^ e := by
          rw [← pow_add, ← pow_add]
          congr 1
          omega
        omega
    have step2 : scaledMag (e + 1) 0 ≤ scaledMag e' 0 := by
      unfold scaledMag
      rw [if_neg (by omega : ¬ e + 1 = 0), if_neg (by omega : ¬ e' = 0)]
      simp only [Nat.add_sub_cancel, Nat.add_zero]
      exact Nat.mul_le_mul_left _ (Nat.pow_le_pow_right (by norm_num) (by omega))
    have step3 : scaledMag e' 0 ≤ scaledMag e' m' := by
      unfold scaledMag
      rw [if_neg (by omega : ¬ e' = 0), if_neg (by omega : ¬ e' = 0)]
      exact Nat.mul_le_mul_right _ (by omega)
    omega

/-- Field decomposition: exponent and mantissa are read off the low 63 bits. -/
theorem expField_eq_low (bits : Nat) : expField bits = bits % 2 ^ 63 / 2 ^ 52 := by
  unfold expField
  have h : (2:Nat) ^ 63 = 2 ^ 52 * 2 ^ 11 := by norm_num
  rw [h, Nat.mod_mul_right_div_self]

theorem mantField_eq_low (bits : Nat) : mantField bits = bits % 2 ^ 63 % 2 ^ 52 := by
  unfold mantField
  rw [Nat.mod_mod_of_dvd]
  exact ⟨2 ^ 11, by norm_num⟩

/-- The magnitude of a pattern as a function of its low 63 bits. -/
def magOf (l : Nat) : Nat := scaledMag (l / 2 ^ 52) (l % 2 ^ 52)

theorem sval_eq_sign_mag (bits : Nat) :
    sval bits = (if signBit bits = 1 then -1 else 1) * (magOf (bits % 2 ^ 63) : Int) := by
  unfold sval magOf
  rw [expField_eq_low, mantField_eq_low]

theorem magOf_strictMono {l l' : Nat} (h : l < l') : magOf l < magOf l' := by
  unfold magOf
  apply scaledMag_strictMono (Nat.mod_lt _ (by positivity)) (Nat.mod_lt _ (by positivity))
  have h1 := Nat.div_add_mod l (2 ^ 52)
  have h2 := Nat.div_add_mod l' (2 ^ 52)
  omega

theorem magOf_lt_iff {l l' : Nat} : magOf l < magOf l' ↔ l < l' := by
  constructor
  · intro h
    by_contra hc
    rcases Nat.eq_or_lt_of_le (Nat.le_of_not_lt hc) with heq | hlt
    · rw [heq] at h; omega
    · have := magOf_strictMono hlt; omega
  · exact magOf_strictMono

theorem magOf_zero : magOf 0 = 0 := by unfold magOf scaledMag; simp

/-- `c1`: for every pair of finite doubles `a < b` numerically,
`encodeNumber a` is lexicographically smaller than `encodeNumber b`
(doubles given by their IEEE-754 bit patterns, numeric value by `dval`,
lexicographic comparison by JS code-unit order); and the `-0.0` pattern
`0x8000000000000000` is encoded identically to the `+0.0` pattern `0`. -/
theorem c1_encodeNumber_order :
    (∀ a b : Nat, a < 2 ^ 64 → b < 2 ^ 64 → finiteBits a = true → finiteBits b = true →
      dval a < dval b → List.Lex (· < ·) (encodeNumber a) (encodeNumber b))
    ∧ encodeNumber 0x8000000000000000 = encodeNumber 0 := by
  constructor
  · intro a b ha hb hfa hfb hlt
    have hsv : sval a < sval b := by
      have h2 : (0:ℚ) < 2 ^ 1074 := by positivity
      have := (div_lt_div_right h2).mp hlt
      exact_mod_cast this
    have hsplitA : a % 2 ^ 63 < 2 ^ 63 := Nat.mod_lt _ (by positivity)
    have hsplitB : b % 2 ^ 63 < 2 ^ 63 := Nat.mod_lt _ (by positivity)
    by_cases hA : 0 ≤ sval a
    · -- both ≥ 0 numerically
      have hB : 0 ≤ sval b := by omega
      have hmagA : sval a = (magOf (a % 2 ^ 63) : Int) := by
        rw [sval_eq_sign_mag] at hA ⊢
        by_cases hs : signBit a = 1
        · simp [hs] at hA ⊢
          omega
        · simp [hs]
      have hmagB : sval b = (magOf (b % 2 ^ 63) : Int) := by
        rw [sval_eq_sign_mag] at hB ⊢
        by_cases hs : signBit b = 1
        · simp [hs] at hB ⊢
          omega
        · simp [hs]
      have hmlt : magOf (a % 2 ^ 63) < magOf (b % 2 ^ 63) := by
        rw [hmagA, hmagB] at hsv
        exact_mod_cast hsv
      have hlow : a % 2 ^ 63 < b % 2 ^ 63 := magOf_lt_iff.mp hmlt
      rw [encodeNumber_pos ha hfa hA, encodeNumber_pos hb hfb hB]
      apply List.Lex.cons
      apply List.Lex.cons
      apply toHexFixed_lex (by omega)
      norm_num
      omega
    · -- a is negative
      have hAneg : sval a < 0 := by omega
      have hsignA : signBit a = 1 := by
        rw [sval_eq_sign_mag] at hAneg
        by_cases hs : signBit a = 1
        · exact hs
        · simp [hs] at hAneg
          omega
      have hmagApos : 0 < magOf (a % 2 ^ 63) := by
        rw [sval_eq_sign_mag, hsignA] at hAneg
        simp at hAneg
        exact_mod_cast hAneg
      have haeq : a = 2 ^ 63 + a % 2 ^ 63 := by
        unfold signBit at hsignA
        omega
      rw [encodeNumber_neg ha hfa hAneg]
      by_cases hB : 0 ≤ sval b
      · -- mixed: a < 0 ≤ b
        rw [encodeNumber_pos hb hfb hB]
        apply List.Lex.cons
        apply List.Lex.cons
        apply toHexFixed_lex
        · have hapos : 0 < a % 2 ^ 63 := by
            by_contra hc
            have hz : a % 2 ^ 63 = 0 := by omega
            rw [hz, magOf_zero] at hmagApos
            omega
          omega
        · norm_num
          omega
      · -- both negative
        have hBneg : sval b < 0 := by omega
        have hsignB : signBit b = 1 := by
          rw [sval_eq_sign_mag] at hBneg
          by_cases hs : signBit b = 1
          · exact hs
          · simp [hs] at hBneg
            omega
        have hbeq : b = 2 ^ 63 + b % 2 ^ 63 := by
          unfold signBit at hsignB
          omega
        have hmlt : magOf (b % 2 ^ 63) < magOf (a % 2 ^ 63) := by
          rw [sval_eq_sign_mag, hsignA] at hAneg hsv
          rw [sval_eq_sign_mag, hsignB] at hBneg hsv
          simp at hsv
          exact_mod_cast hsv
        have hlow : b % 2 ^ 63 < a % 2 ^ 63 := magOf_lt_iff.mp hmlt
        rw [encodeNumber_neg hb hfb hBneg]
        apply List.Lex.cons
        apply List.Lex.cons
        apply toHexFixed_lex (by omega)
        norm_num
        omega
  · decide

set_option maxRecDepth 4000 in
theorem dval_lt_one_two : dval 0x3FF0000000000000 < dval 0x4000000000000000 := by
  unfold dval
  rw [div_lt_div_right (by positivity : (0:ℚ) < 2 ^ 1074)]
  exact_mod_cast (by decide : sval 0x3FF0000000000000 < sval 0x4000000000000000)

/-- Witness for `c1_encodeNumber_order` at the patterns of `1.0`
(`0x3FF0000000000000`) and `2.0` (`0x4000000000000000`). -/
theorem c1_encodeNumber_order_witness :
    (0x3FF0000000000000 : Nat) < 2 ^ 64 ∧ (0x4000000000000000 : Nat) < 2 ^ 64
    ∧ finiteBits 0x3FF0000000000000 = true ∧ finiteBits 0x4000000000000000 = true
    ∧ dval 0x3FF0000000000000 < dval 0x4000000000000000
    ∧ List.Lex (· < ·) (encodeNumber 0x3FF0000000000000) (encodeNumber 0x4000000000000000) :=
  ⟨by norm_num, by norm_num, by decide, by decide, dval_lt_one_two,
    c1_encodeNumber_order.1 0x3FF0000000000000 0x4000000000000000
      (by norm_num) (by norm_num) (by decide) (by decide) dval_lt_one_two⟩

/-! ## Values and documents

Documents reaching the store are JSON bodies (`JSON.parse` output): an
ordered record of fields whose values are null, booleans, numbers,
strings, arrays or nested records.  `Date` objects never occur in them
(JSON round-trips turn dates into strings), so the `Date` arm of
`encodeValue` is dead code on the modelled inputs and is omitted.
Numbers are modelled as integers; `intToBits` gives the IEEE-754
pattern of the corresponding double (exact for `|n| < 2^53`). -/

inductive Value where
  | vNull : Value
  | vBool (b : Bool) : Value
  | vNum (n : Int) : Value
  | vStr (s : Str) : Value
  | vArr (xs : List Value) : Value
  | vObj (fs : List (Str × Value)) : Value

mutual

/-- Structural (= `JSON.stringify`) equality test on modelled values. -/
def Value.beq : Value → Value → Bool
  | .vNull, .vNull => true
  | .vBool a, .vBool b => a == b
  | .vNum a, .vNum b => a == b
  | .vStr a, .vStr b => a == b
  | .vArr xs, .vArr ys => Value.beqList xs ys
  | .vObj fs, .vObj gs => Value.beqObj fs gs
  | _, _ => false

def Value.beqList : List Value → List Value → Bool
  | [], [] => true
  | x :: xs, y :: ys => Value.beq x y && Value.beqList xs ys
  | _, _ => false

def Value.beqObj : List (Str × Value) → List (Str × Value) → Bool
  | [], [] => true
  | (k, v) :: xs, (k', v') :: ys => k == k' && Value.beq v v' && Value.beqObj xs ys
  | _, _ => false

end

mutual

theorem Value.beq_iff : ∀ a b : Value, Value.beq a b = true ↔ a = b
  | .vNull, b => by cases b <;> simp [Value.beq]
  | .vBool a, b => by cases b <;> simp [Value.beq]
  | .vNum a, b => by cases b <;> simp [Value.beq]
  | .vStr a, b => by cases b <;> simp [Value.beq]
  | .vArr xs, b => by
    cases b <;> simp [Value.beq]
    exact Value.beqList_iff xs _
  | .vObj fs, b => by
    cases b <;> simp [Value.beq]
    exact Value.beqObj_iff fs _

theorem Value.beqList_iff : ∀ xs ys : List Value, Value.beqList xs ys = true ↔ xs = ys
  | [], ys => by cases ys <;> simp [Value.beqList]
  | x :: xs, ys => by
    cases ys with
    | nil => simp [Value.beqList]
    | cons y ys =>
      simp [Value.beqList, Value.beq_iff x y, Value.beqList_iff xs ys]

theorem Value.beqObj_iff : ∀ xs ys : List (Str × Value), Value.beqObj xs ys = true ↔ xs = ys
  | [], ys => by cases ys <;> simp [Value.beqObj]
  | (k, v) :: xs, ys => by
    cases ys with
    | nil => simp [Value.beqObj]
    | cons y ys =>
      obtain ⟨k', v'⟩ := y
      simp [Value.beqObj, Value.beq_iff v v', Value.beqObj_iff xs ys]
      try tauto

end

instance : DecidableEq Value := fun a b => decidable_of_iff _ (Value.beq_iff a b)

/-- A document / filter / update payload: ordered field record. -/
abbrev Doc := List (Str × Value)

/-- First-occurrence field lookup (JS property read `o[k]`;
`none` models `undefined`). -/
def dGet (d : Doc) (k : Str) : Option Value :=
  match d.find? (fun e => e.1 = k) with
  | some e => some e.2
  | none => none

/-- JS property write `o[k] = v`: updates the existing key in place
(keeping its position) or appends a new one. -/
def dSet (d : Doc) (k : Str) (v : Value) : Doc :=
  match d with
  | [] => [(k, v)]
  | (k', v') :: rest => if k' = k then (k, v) :: rest else (k', v') :: dSet rest k v

/-- JS `delete o[k]`. -/
def dDel (d : Doc) (k : Str) : Doc := d.filter (fun e => ¬ e.1 = k)

/-- Number of digits of `n` in base 2 (`0` for `0`); fuel-structural so
that it reduces by `decide`/`rfl`. -/
def bitLenAux : Nat → Nat → Nat
  | 0, _ => 0
  | fuel + 1, m => if m = 0 then 0 else 1 + bitLenAux fuel (m / 2)

def bitLen (n : Nat) : Nat := bitLenAux n n

/-- IEEE-754 double bit pattern of the JS number `n` (an integer in the
modelled documents).  Exact for `|n| < 2^53`; for larger magnitudes the
mantissa is truncated (the modelled claims never involve such values). -/
def intToBits (n : Int) : Nat :=
  if n = 0 then 0
  else
    let m := n.natAbs
    let k := bitLen m - 1
    let s : Nat := if n < 0 then 1 else 0
    if k ≤ 52 then s * 2 ^ 63 + (k + 1023) * 2 ^ 52 + (m * 2 ^ (52 - k) - 2 ^ 52)
    else s * 2 ^ 63 + (k + 1023) * 2 ^ 52 + (m / 2 ^ (k - 52) - 2 ^ 52)

/-- Decimal rendering of a natural number (fuel-structural). -/
def natToDecAux : Nat → Nat → Str → Str
  | 0, _, acc => acc
  | fuel + 1, m, acc =>
    if m < 10 then Char.ofNat (48 + m) :: acc
    else natToDecAux fuel (m / 10) (Char.ofNat (48 + m % 10) :: acc)

def natToDec (n : Nat) : Str := natToDecAux (n + 1) n []

def intToDec (n : Int) : Str :=
  if n < 0 then '-' :: natToDec n.natAbs else natToDec n.natAbs

/-- JSON escaping of one string character (`JSON.stringify`): quote and
backslash get a backslash; the named control characters get two-character
escapes; other control characters get `\u00XX`. -/
def jsonEscapeChar (c : Char) : Str :=
  if c = '"' then ['\\', '"']
  else if c = '\\' then ['\\', '\\']
  else if c = '\x08' then ['\\', 'b']
  else if c = '\x09' then ['\\', 't']
  else if c = '\x0A' then ['\\', 'n']
  else if c = '\x0C' then ['\\', 'f']
  else if c = '\x0D' then ['\\', 'r']
  else if c.toNat < 32 then ['\\', 'u', '0', '0'] ++ toHexFixed c.toNat 2
  else [c]

/-- Comma-join. -/
def joinComma : List Str → Str
  | [] => []
  | [x] => x
  | x :: rest => x ++ ',' :: joinComma rest

mutual

/-- `JSON.stringify` on modelled values. -/
def jsonValue : Value → Str
  | .vNull => str "null"
  | .vBool true => str "true"
  | .vBool false => str "false"
  | .vNum n => intToDec n
  | .vStr s => '"' :: (s.map jsonEscapeChar).flatten ++ ['"']
  | .vArr xs => '[' :: joinComma (jsonList xs) ++ [']']
  | .vObj fs => '{' :: joinComma (jsonMembers fs) ++ ['}']

def jsonList : List Value → List Str
  | [] => []
  | x :: rest => jsonValue x :: jsonList rest

def jsonMembers : List (Str × Value) → List Str
  | [] => []
  | (k, v) :: rest =>
    ('"' :: (k.map jsonEscapeChar).flatten ++ '"' :: ':' :: jsonValue v) :: jsonMembers rest

end

/-- `JSON.stringify` of a whole document (a JS object). -/
def jsonDoc (d : Doc) : Str := jsonValue (.vObj d)

/-! ## Key encoding (`key-encoding.ts`) -/

/-- Store error: numeric code as carried by `IndexError` /
`DocumentStoreError` (messages are dropped; plain `Error`s without a
code — the over-long index string throw and loop-fuel exhaustion in the
model — are given code 1, `InternalError`). -/
structure StoreErr where
  code : Nat
deriving DecidableEq

def errBadValue : StoreErr := ⟨2⟩
def errDocTooLarge : StoreErr := ⟨10334⟩
def errDupKey : StoreErr := ⟨11000⟩
def errNsInvalid : StoreErr := ⟨73⟩
def errInternal : StoreErr := ⟨1⟩

/-- `doc:{collection}:{_id}`. -/
def encodeDocKey (c id : Str) : Str := str "doc:" ++ c ++ ':' :: id

/-- `doc:{collection}:`. -/
def docPfx (c : Str) : Str := str "doc:" ++ c ++ [':']

/-- `idx:{collection}:{field}:`. -/
def idxPfx (c f : Str) : Str := str "idx:" ++ c ++ ':' :: f ++ [':']

/-- `idx:{collection}:`. -/
def idxCollPfx (c : Str) : Str := str "idx:" ++ c ++ [':']

/-- `meta:collection:{name}`. -/
def metaKey (c : Str) : Str := str "meta:collection:" ++ c

/-- `encodeValue`: sort-order-preserving value encoding.  Strings longer
than 1024 characters are rejected (`throw new Error(...)`, a plain error
without a Mongo code).  Arrays and objects fall back to
`3:` + `JSON.stringify`. -/
def encodeValue : Value → Except StoreErr Str
  | .vNull => .ok (str "0:")
  | .vBool b => .ok ['1', ':', if b then '1' else '0']
  | .vNum n => .ok (encodeNumber (intToBits n))
  | .vStr s => if s.length > 1024 then .error errInternal else .ok ('3' :: ':' :: s)
  | .vArr xs => .ok ('3' :: ':' :: jsonValue (.vArr xs))
  | .vObj fs => .ok ('3' :: ':' :: jsonValue (.vObj fs))

/-- The raw index-entry key layout
`idx:{collection}:{field}:{encodedValue}\x1F{id}`. -/
def idxKeyRaw (c f ev id : Str) : Str := idxPfx c f ++ ev ++ usep :: id

/-- `encodeIdxKey`. -/
def encodeIdxKey (c f : Str) (v : Value) (id : Str) : Except StoreErr Str := do
  let ev ← encodeValue v
  pure (idxKeyRaw c f ev id)

/-- JS `s.indexOf(ch, start)` (`none` for `-1`). -/
def firstIdxP (p : Char → Bool) : Str → Option Nat
  | [] => none
  | c :: rest => if p c then some 0 else (firstIdxP p rest).map (· + 1)

def idxOfFrom (ch : Char) (s : Str) (start : Nat) : Option Nat :=
  (firstIdxP (· = ch) (s.drop start)).map (· + start)

/-- JS `s.lastIndexOf(ch)` (`none` for `-1`). -/
def lastIdxOf (ch : Char) (s : Str) : Option Nat :=
  (firstIdxP (· = ch) s.reverse).map (fun k => s.length - 1 - k)

/-- Decoded index key. -/
structure DecIdx where
  collection : Str
  field : Str
  encodedValue : Str
  id : Str
deriving DecidableEq

/-- `decodeIdxKey`: locate the first three colons, then split the tail at
its last `0x1F` (each failed lookup is an early `return null`). -/
def decodeIdxKey (key : Str) : Option DecIdx := do
  let fc ← idxOfFrom ':' key 0
  if key.take fc ≠ str "idx" then none
  else
    let sc ← idxOfFrom ':' key (fc + 1)
    let tc ← idxOfFrom ':' key (sc + 1)
    let coll := (key.take sc).drop (fc + 1)
    let fieldName := (key.take tc).drop (sc + 1)
    let rest := key.drop (tc + 1)
    let sep ← lastIdxOf usep rest
    pure ⟨coll, fieldName, rest.take sep, rest.drop (sep + 1)⟩

/-- `computeIndexRange` needs the scan-range record. -/
structure KeyRange where
  startKey : Str
  endKey : Str
deriving DecidableEq

/-! ## Index key decode/encode roundtrip (claim C6) -/

theorem drop_len_add {α : Type} (l₁ l₂ : List α) (k : Nat) :
    (l₁ ++ l₂).drop (l₁.length + k) = l₂.drop k := by
  induction l₁ with
  | nil => simp
  | cons x xs ih =>
    have h : (x :: xs).length + k = (xs.length + k) + 1 := by simp; omega
    rw [h, List.cons_append, List.drop_succ_cons, ih]

theorem take_len_add {α : Type} (l₁ l₂ : List α) (k : Nat) :
    (l₁ ++ l₂).take (l₁.length + k) = l₁ ++ l₂.take k := by
  induction l₁ with
  | nil => simp
  | cons x xs ih =>
    have h : (x :: xs).length + k = (xs.length + k) + 1 := by simp; omega
    rw [h, List.cons_append, List.take_succ_cons, ih, List.cons_append]

theorem firstIdxP_eq_none {p : Char → Bool} {l : Str} (h : ∀ x ∈ l, p x = false) :
    firstIdxP p l = none := by
  induction l with
  | nil => rfl
  | cons x xs ih =>
    have hx : p x = false := h x (by simp)
    simp [firstIdxP, hx, ih (fun y hy => h y (by simp [hy]))]

theorem firstIdxP_append_hit {p : Char → Bool} {l₁ : Str} {x : Char} (l₂ : Str)
    (h : ∀ y ∈ l₁, p y = false) (hx : p x = true) :
    firstIdxP p (l₁ ++ x :: l₂) = some l₁.length := by
  induction l₁ with
  | nil => simp [firstIdxP, hx]
  | cons y ys ih =>
    have hy : p y = false := h y (by simp)
    simp [firstIdxP, hy, ih (fun z hz => h z (by simp [hz]))]

/-- Normal form of an index-entry key. -/
theorem idxKeyRaw_eq (c f ev id : Str) :
    idxKeyRaw c f ev id
      = 'i' :: 'd' :: 'x' :: ':' :: (c ++ ':' :: (f ++ ':' :: (ev ++ usep :: id))) := by
  simp [idxKeyRaw, idxPfx, str]

/-- On a well-shaped key with colon-free collection/field segments,
`decodeIdxKey` reduces to splitting the tail at its last `0x1F`. -/
theorem decodeIdxKey_shape (c f t : Str) (hc : ':' ∉ c) (hf : ':' ∉ f) :
    decodeIdxKey ('i' :: 'd' :: 'x' :: ':' :: (c ++ ':' :: (f ++ ':' :: t)))
      = match lastIdxOf usep t with
        | none => none
        | some sep => some ⟨c, f, t.take sep, t.drop (sep + 1)⟩ := by
  have hcf : ∀ y ∈ c, (y = ':' : Bool) = false := by
    intro y hy
    simp
    intro h
    exact hc (h ▸ hy)
  have hff : ∀ y ∈ f, (y = ':' : Bool) = false := by
    intro y hy
    simp
    intro h
    exact hf (h ▸ hy)
  have e1 : idxOfFrom ':' ('i' :: 'd' :: 'x' :: ':' :: (c ++ ':' :: (f ++ ':' :: t))) 0
      = some 3 := rfl
  have e3 : idxOfFrom ':' ('i' :: 'd' :: 'x' :: ':' :: (c ++ ':' :: (f ++ ':' :: t))) (3 + 1)
      = some (c.length + 4) := by
    unfold idxOfFrom
    have hd : ('i' :: 'd' :: 'x' :: ':' :: (c ++ ':' :: (f ++ ':' :: t))).drop (3 + 1)
        = c ++ ':' :: (f ++ ':' :: t) := rfl
    rw [hd, firstIdxP_append_hit _ hcf (by simp)]
    simp
  have e4 : idxOfFrom ':' ('i' :: 'd' :: 'x' :: ':' :: (c ++ ':' :: (f ++ ':' :: t)))
        (c.length + 4 + 1)
      = some (c.length + 4 + 1 + f.length) := by
    unfold idxOfFrom
    have hg : 'i' :: 'd' :: 'x' :: ':' :: (c ++ ':' :: (f ++ ':' :: t))
        = (('i' :: 'd' :: 'x' :: ':' :: c) ++ [':']) ++ (f ++ ':' :: t) := by simp
    have hlen : c.length + 4 + 1 = (('i' :: 'd' :: 'x' :: ':' :: c) ++ [':']).length + 0 := by
      simp <;> omega
    rw [hg, hlen, drop_len_add, List.drop_zero, firstIdxP_append_hit _ hff (by simp)]
    simp <;> omega
  have e5 : (('i' :: 'd' :: 'x' :: ':' :: (c ++ ':' :: (f ++ ':' :: t))).take
        (c.length + 4)).drop (3 + 1) = c := by
    have hg : 'i' :: 'd' :: 'x' :: ':' :: (c ++ ':' :: (f ++ ':' :: t))
        = ('i' :: 'd' :: 'x' :: ':' :: c) ++ (':' :: (f ++ ':' :: t)) := by simp
    have hlen : ('i' :: 'd' :: 'x' :: ':' :: c).length = c.length + 4 := by simp <;> omega
    rw [hg, List.take_left' hlen]
    rfl
  have e6 : (('i' :: 'd' :: 'x' :: ':' :: (c ++ ':' :: (f ++ ':' :: t))).take
        (c.length + 4 + 1 + f.length)).drop (c.length + 4 + 1) = f := by
    have hg : 'i' :: 'd' :: 'x' :: ':' :: (c ++ ':' :: (f ++ ':' :: t))
        = (('i' :: 'd' :: 'x' :: ':' :: c) ++ ':' :: f) ++ (':' :: t) := by simp
    have hlen : (('i' :: 'd' :: 'x' :: ':' :: c) ++ ':' :: f).length
        = c.length + 4 + 1 + f.length := by simp <;> omega
    rw [hg, List.take_left' hlen]
    have hg2 : ('i' :: 'd' :: 'x' :: ':' :: c) ++ ':' :: f
        = (('i' :: 'd' :: 'x' :: ':' :: c) ++ [':']) ++ f := by simp
    have hlen2 : c.length + 4 + 1 = (('i' :: 'd' :: 'x' :: ':' :: c) ++ [':']).length + 0 := by
      simp <;> omega
    rw [hg2, hlen2, drop_len_add, List.drop_zero]
  have e7 : ('i' :: 'd' :: 'x' :: ':' :: (c ++ ':' :: (f ++ ':' :: t))).drop
        (c.length + 4 + 1 + f.length + 1) = t := by
    have hg : 'i' :: 'd' :: 'x' :: ':' :: (c ++ ':' :: (f ++ ':' :: t))
        = (('i' :: 'd' :: 'x' :: ':' :: c) ++ ':' :: f ++ [':']) ++ t := by simp
    have hlen : c.length + 4 + 1 + f.length + 1
        = (('i' :: 'd' :: 'x' :: ':' :: c) ++ ':' :: f ++ [':']).length + 0 := by simp <;> omega
    rw [hg, hlen, drop_len_add, List.drop_zero]
  rw [decodeIdxKey, e1]
  simp only [Option.bind_eq_bind, Option.some_bind]
  rw [if_neg (by simp [str, List.take_succ_cons])]
  rw [e3]
  simp only [Option.some_bind]
  rw [e4]
  simp only [Option.some_bind]
  rw [e5, e6, e7]
  cases lastIdxOf usep t <;> rfl

/-- `c6`: for colon-free collection and field names and `0x1F`-free ids,
`decodeIdxKey` inverts `encodeIdxKey` exactly, recovering the collection,
field, encoded value and id; and a key whose tail after the third colon
contains no `0x1F` byte decodes to nothing. -/
theorem c6_decode_encode_idxKey :
    (∀ (c f : Str) (v : Value) (id ev : Str),
      ':' ∉ c → ':' ∉ f → usep ∉ id → encodeValue v = .ok ev →
      encodeIdxKey c f v id = .ok (idxKeyRaw c f ev id)
      ∧ decodeIdxKey (idxKeyRaw c f ev id) = some ⟨c, f, ev, id⟩)
    ∧ (∀ (c f t : Str), ':' ∉ c → ':' ∉ f → usep ∉ t →
      decodeIdxKey ('i' :: 'd' :: 'x' :: ':' :: (c ++ ':' :: (f ++ ':' :: t))) = none) := by
  constructor
  · intro c f v id ev hc hf hid henc
    constructor
    · simp [encodeIdxKey, henc]
    · rw [idxKeyRaw_eq, decodeIdxKey_shape c f (ev ++ usep :: id) hc hf]
      have hrev : (ev ++ usep :: id).reverse = id.reverse ++ usep :: ev.reverse := by simp
      have hidrev : ∀ y ∈ id.reverse, (y = usep : Bool) = false := by
        intro y hy
        simp
        intro h
        exact hid (h ▸ (List.mem_reverse.mp hy))
      have hlast : lastIdxOf usep (ev ++ usep :: id) = some ev.length := by
        unfold lastIdxOf
        rw [hrev, firstIdxP_append_hit _ hidrev (by simp)]
        simp <;> omega
      rw [hlast]
      dsimp only
      have htake : (ev ++ usep :: id).take ev.length = ev := List.take_left ev _
      have hdrop : (ev ++ usep :: id).drop (ev.length + 1) = id := by
        have hg : ev ++ usep :: id = (ev ++ [usep]) ++ id := by simp
        have hlen : ev.length + 1 = (ev ++ [usep]).length + 0 := by simp
        rw [hg, hlen, drop_len_add, List.drop_zero]
      rw [htake, hdrop]
  · intro c f t hc hf ht
    rw [decodeIdxKey_shape c f t hc hf]
    have htrev : ∀ y ∈ t.reverse, (y = usep : Bool) = false := by
      intro y hy
      simp
      intro h
      exact ht (h ▸ (List.mem_reverse.mp hy))
    have hnone : lastIdxOf usep t = none := by
      unfold lastIdxOf
      rw [firstIdxP_eq_none htrev]
      rfl
    rw [hnone]

/-- Witness for `c6_decode_encode_idxKey`:
collection `users`, field `email`, value `"a@x"`, id `u1`. -/
theorem c6_decode_encode_idxKey_witness :
    ':' ∉ str "users" ∧ ':' ∉ str "email" ∧ usep ∉ str "u1"
    ∧ encodeValue (.vStr (str "a@x")) = .ok (str "3:a@x")
    ∧ decodeIdxKey (idxKeyRaw (str "users") (str "email") (str "3:a@x") (str "u1"))
      = some ⟨str "users", str "email", str "3:a@x", str "u1"⟩ :=
  ⟨by decide, by decide, by decide, rfl,
    (c6_decode_encode_idxKey.1 (str "users") (str "email") (.vStr (str "a@x"))
      (str "u1") (str "3:a@x") (by decide) (by decide) (by decide) rfl).2⟩

/-! ## Query planner (`query-planner.ts`) -/

/-- An index definition `{name, field, unique}`. -/
structure IndexDef where
  name : Str
  field : Str
  unique : Bool
deriving DecidableEq

/-- A filter is a JS object, like a document.  (Named `QFilter`; `Filter`
is taken by Mathlib.) -/
abbrev QFilter := Doc

/-- `computeIndexRange`: scan range for a comparison-operator object.
Property presence (`operator.$eq !== undefined`) is `dGet _ _ = some _`. -/
def computeIndexRange (c f : Str) (ops : Doc) : Except StoreErr KeyRange := do
  let pfx := idxPfx c f
  match dGet ops (str "$eq") with
  | some v =>
    let ev ← encodeValue v
    pure ⟨pfx ++ ev ++ [usep], pfx ++ ev ++ [usep, '\xff']⟩
  | none =>
    let startK ← match dGet ops (str "$gt") with
      | some v => do
        let ev ← encodeValue v
        pure (pfx ++ ev ++ [usep, '\xff'])
      | none => match dGet ops (str "$gte") with
        | some v => do
          let ev ← encodeValue v
          pure (pfx ++ ev ++ [usep])
        | none => pure pfx
    let endK ← match dGet ops (str "$lt") with
      | some v => do
        let ev ← encodeValue v
        pure (pfx ++ ev ++ [usep])
      | none => match dGet ops (str "$lte") with
        | some v => do
          let ev ← encodeValue v
          pure (pfx ++ ev ++ [usep, '\xff'])
        | none => pure (pfx ++ ['\xff'])
    pure ⟨startK, endK⟩

inductive PlanType where
  | collectionScan : PlanType
  | indexScan : PlanType
deriving DecidableEq

/-- A query plan. -/
structure QueryPlan where
  ptype : PlanType
  indexField : Option Str := none
  indexName : Option Str := none
  startKey : Option Str := none
  endKey : Option Str := none
  needsPostFilter : Bool
  estimatedCost : Nat
deriving DecidableEq

/-- Does a field name start with `$`? -/
def isDollar : Str → Bool
  | '$' :: _ => true
  | _ => false

/-- `'$gt' in ops || '$gte' in ops || '$lt' in ops || '$lte' in ops ||
'$eq' in ops`. -/
def hasComparison (ops : Doc) : Bool :=
  ops.any (fun e => e.1 = str "$gt") || ops.any (fun e => e.1 = str "$gte")
  || ops.any (fun e => e.1 = str "$lt") || ops.any (fun e => e.1 = str "$lte")
  || ops.any (fun e => e.1 = str "$eq")

/-- The non-operator fields of the filter other than `field`
(`Object.keys(filter).filter(f => f !== field && !f.startsWith('$'))`). -/
def otherFields (filter : QFilter) (field : Str) : List Str :=
  (filter.map (·.1)).filter (fun f => ¬ f = field && ¬ isDollar f)

/-- A sub-filter of `$and` / `$or` used as a filter: JS
`Object.entries` of an object gives its fields; on the primitives that
could sit in a malformed `$and` array it gives `[]`, so the entry loop
matches nothing and the sub-plan is a collection scan.  (Enumerable
entries of strings/arrays in that degenerate position are not modelled.) -/
def asFilter : Value → QFilter
  | .vObj fs => fs
  | _ => []

mutual

/-- Computable structural size of a value (the auto-generated `sizeOf`
has no executable code for this nested inductive; loops below carry this
size as their termination bound). -/
def vsize : Value → Nat
  | .vNull => 1
  | .vBool _ => 1
  | .vNum _ => 1
  | .vStr _ => 1
  | .vArr xs => 1 + vsizeList xs
  | .vObj fs => 1 + vsizeObj fs

def vsizeList : List Value → Nat
  | [] => 0
  | x :: rest => 1 + vsize x + vsizeList rest

def vsizeObj : List (Str × Value) → Nat
  | [] => 0
  | e :: rest => 1 + vsize e.2 + vsizeObj rest

end

theorem vsize_pos (v : Value) : 0 < vsize v := by
  cases v <;> simp [vsize]

theorem mem_vsizeObj_lt {d : List (Str × Value)} {e : Str × Value} (h : e ∈ d) :
    vsize e.2 < vsizeObj d := by
  induction d with
  | nil => simp at h
  | cons x rest ih =>
    rcases List.mem_cons.mp h with rfl | hm
    · simp [vsizeObj]
      omega
    · have := ih hm
      simp [vsizeObj]
      omega

theorem mem_vsizeList_lt {subs : List Value} {v : Value} (h : v ∈ subs) :
    vsize v < vsizeList subs := by
  induction subs with
  | nil => simp at h
  | cons x rest ih =>
    rcases List.mem_cons.mp h with rfl | hm
    · simp [vsizeList]
      omega
    · have := ih hm
      simp [vsizeList]
      omega

theorem dGet_vsize_lt {d : Doc} {k : Str} {v : Value} (h : dGet d k = some v) :
    vsize v < vsizeObj d := by
  unfold dGet at h
  cases hf : d.find? (fun e => e.1 = k) with
  | none => rw [hf] at h; simp at h
  | some e =>
    rw [hf] at h
    simp at h
    have hmem := List.mem_of_find?_eq_some hf
    have h1 := mem_vsizeObj_lt hmem
    subst h
    omega

theorem asFilter_vsize (v : Value) : vsizeObj (asFilter v) < vsize v := by
  cases v <;> simp [asFilter, vsize, vsizeObj] <;> omega

/-- The entry loop of `planQuery` (`for (const [field, condition] of
Object.entries(filter))` with `continue`s). -/
def planEntries (filter : QFilter) (indexes : List IndexDef) (collection : Str) :
    List (Str × Value) → Except StoreErr (Option QueryPlan)
  | [] => pure none
  | (field, condition) :: rest =>
    if isDollar field then planEntries filter indexes collection rest
    else
      match indexes.find? (fun idx => idx.field = field) with
      | none => planEntries filter indexes collection rest
      | some index =>
        match condition with
        | .vObj ops =>
          if hasComparison ops then do
            let range ← computeIndexRange collection field ops
            pure (some ⟨.indexScan, some field, some index.name, some range.startKey,
              some range.endKey, ¬ (otherFields filter field).isEmpty, 10⟩)
          else planEntries filter indexes collection rest
        | _ => do
          let range ← computeIndexRange collection field [(str "$eq", condition)]
          pure (some ⟨.indexScan, some field, some index.name, some range.startKey,
            some range.endKey, ¬ (otherFields filter field).isEmpty, 1⟩)

/-- Iterate `$and` / `$or` sub-filters with the given recursive planner;
the first sub-plan that is an index scan wins, with `needsPostFilter`
forced `true`. -/
def planSubsWith (recur : Value → Except StoreErr QueryPlan) :
    List Value → Except StoreErr (Option QueryPlan)
  | [] => pure none
  | v :: rest => do
    let plan ← recur v
    if plan.ptype = .indexScan then
      pure (some { plan with needsPostFilter := true })
    else planSubsWith recur rest

/-- The `$or` fallback of `planQuery` (shared tail). -/
def planOrWith (recur : Value → Except StoreErr QueryPlan) (filter : QFilter) :
    Except StoreErr QueryPlan := do
  match dGet filter (str "$or") with
  | some (.vArr subs) =>
    (match ← planSubsWith recur subs with
    | some plan => pure plan
    | none => pure ⟨.collectionScan, none, none, none, none, true, 1000⟩)
  | _ => pure ⟨.collectionScan, none, none, none, none, true, 1000⟩

/-- `planQuery`, fuelled: recursion into `$and` / `$or` sub-filters
consumes one unit of fuel; the sub-filters are strictly smaller, so the
entry point's fuel `vsizeObj filter + 1` never runs out (the `0` branch
is unreachable from `planQuery`).  Fuel-structural recursion keeps the
definition kernel-reducible. -/
def planQueryFuel : Nat → QFilter → List IndexDef → Str → Except StoreErr QueryPlan
  | 0, _, _, _ => .error errInternal
  | fuel + 1, filter, indexes, collection =>
    if filter.isEmpty then
      pure ⟨.collectionScan, none, none, none, none, false, 1000⟩
    else do
      match ← planEntries filter indexes collection filter with
      | some plan => pure plan
      | none =>
        let recur := fun v => planQueryFuel fuel (asFilter v) indexes collection
        match dGet filter (str "$and") with
        | some (.vArr subs) =>
          (match ← planSubsWith recur subs with
          | some plan => pure plan
          | none => planOrWith recur filter)
        | _ => planOrWith recur filter

/-- `planQuery`: walk the filter entries in order; the first entry that
names an indexed field and is a scalar (`$eq` shorthand) or an object
with at least one range operator yields an index scan; otherwise recurse
into `$and` / `$or`, else fall back to a collection scan. -/
def planQuery (filter : QFilter) (indexes : List IndexDef) (collection : Str) :
    Except StoreErr QueryPlan :=
  planQueryFuel (vsizeObj filter + 1) filter indexes collection

/-! ## Claim C4: `needsPostFilter` -/

theorem except_bind_pure_some {α : Type} {e : Except StoreErr α} {g : α → Option QueryPlan}
    {p : QueryPlan} (h : (do let r ← e; pure (g r)) = Except.ok (some p)) :
    ∃ r, e = .ok r ∧ g r = some p := by
  cases e with
  | error s => simp [Except.bind] at h
  | ok a =>
    refine ⟨a, rfl, ?_⟩
    have h2 : Except.ok (g a) = Except.ok (some p) := h
    exact (Except.ok.injEq _ _).mp h2

/-- `c4` counterexample: for the filter `{age: {$gte: 5, $ne: 7}}` with
an index on `age`, `planQuery` selects an index scan for that entry and
its condition carries the non-range operator `$ne`, yet
`needsPostFilter` is `false` — the claimed "or the condition uses a
non-range operator" disjunct does not hold on the code (so the residual
`$ne` is never applied to index-scan results). -/
theorem c4_counterexample :
    (planQuery [(str "age", Value.vObj [(str "$gte", Value.vNum 5), (str "$ne", Value.vNum 7)])]
      [⟨str "age_1", str "age", false⟩] (str "users")).toOption.map QueryPlan.ptype
      = some .indexScan
    ∧ (planQuery [(str "age", Value.vObj [(str "$gte", Value.vNum 5), (str "$ne", Value.vNum 7)])]
      [⟨str "age_1", str "age", false⟩] (str "users")).toOption.map QueryPlan.needsPostFilter
      = some false
    ∧ ([(str "$gte", Value.vNum 5), (str "$ne", Value.vNum 7)].any
        (fun e => e.1 = str "$ne") = true) :=
  ⟨by decide, by decide, by decide⟩

theorem planEntries_needsPostFilter {filter : QFilter} {indexes : List IndexDef}
    {collection : Str} {plan : QueryPlan} :
    ∀ {l : List (Str × Value)},
      planEntries filter indexes collection l = .ok (some plan) →
      plan.ptype = .indexScan
      ∧ ∃ f, plan.indexField = some f
        ∧ (plan.needsPostFilter = true ↔ otherFields filter f ≠ [])
  | [], h => by simp [planEntries, pure, Except.pure] at h
  | (field, condition) :: rest, h => by
    rw [planEntries] at h
    by_cases hd : isDollar field = true
    · rw [if_pos hd] at h
      exact planEntries_needsPostFilter h
    · rw [if_neg hd] at h
      cases hfind : indexes.find? (fun idx => idx.field = field) with
      | none =>
        simp only [hfind] at h
        exact planEntries_needsPostFilter h
      | some index =>
        simp only [hfind] at h
        cases condition with
        | vObj ops =>
          dsimp only at h
          by_cases hcmp : hasComparison ops = true
          · rw [if_pos hcmp] at h
            obtain ⟨range, hr, hg⟩ := except_bind_pure_some h
            simp only [Option.some.injEq] at hg
            subst hg
            refine ⟨rfl, field, rfl, by simp⟩
          · rw [if_neg hcmp] at h
            exact planEntries_needsPostFilter h
        | vNull =>
          obtain ⟨range, hr, hg⟩ := except_bind_pure_some h
          simp only [Option.some.injEq] at hg
          subst hg
          refine ⟨rfl, field, rfl, by simp⟩
        | vBool b =>
          obtain ⟨range, hr, hg⟩ := except_bind_pure_some h
          simp only [Option.some.injEq] at hg
          subst hg
          refine ⟨rfl, field, rfl, by simp⟩
        | vNum n =>
          obtain ⟨range, hr, hg⟩ := except_bind_pure_some h
          simp only [Option.some.injEq] at hg
          subst hg
          refine ⟨rfl, field, rfl, by simp⟩
        | vStr s =>
          obtain ⟨range, hr, hg⟩ := except_bind_pure_some h
          simp only [Option.some.injEq] at hg
          subst hg
          refine ⟨rfl, field, rfl, by simp⟩
        | vArr xs =>
          obtain ⟨range, hr, hg⟩ := except_bind_pure_some h
          simp only [Option.some.injEq] at hg
          subst hg
          refine ⟨rfl, field, rfl, by simp⟩

/-- `c4` amended: when the entry loop of `planQuery` selects an index
scan (the first filter entry naming an indexed field whose condition is
a scalar or carries a range operator), the returned plan has
`needsPostFilter = true` *iff some other non-operator field exists in
the filter* — non-range operators (`$ne`, `$in`, `$nin`, `$exists`) in
the selected entry's condition do not force post-filtering. -/
theorem c4_needsPostFilter_other_fields_only (filter : QFilter) (indexes : List IndexDef)
    (collection : Str) (plan : QueryPlan)
    (h : planEntries filter indexes collection filter = .ok (some plan)) :
    planQuery filter indexes collection = .ok plan
    ∧ plan.ptype = .indexScan
    ∧ ∃ f, plan.indexField = some f
      ∧ (plan.needsPostFilter = true ↔ otherFields filter f ≠ []) := by
  have hne : ¬ filter.isEmpty := by
    intro he
    rw [List.isEmpty_iff.mp he] at h
    simp [planEntries, pure, Except.pure] at h
  refine ⟨?_, planEntries_needsPostFilter h⟩
  rw [planQuery, planQueryFuel, if_neg (by simpa using hne), h]
  rfl

/-! ## Residual filter evaluation (`matchesFilter` in `query-planner.ts`) -/

/-- Split a path on `.` (`path.split('.')`). -/
def splitDot : Str → List Str
  | [] => [[]]
  | x :: rest =>
    match splitDot rest with
    | hd :: tl => if x = '.' then [] :: hd :: tl else (x :: hd) :: tl
    | [] => [[x]]

/-- Parse a non-negative decimal numeral. -/
def parseDigits (s : Str) : Option Nat :=
  if s.isEmpty then none
  else if s.all (fun c => 48 ≤ c.toNat && c.toNat ≤ 57) then
    some (s.foldl (fun acc c => acc * 10 + (c.toNat - 48)) 0)
  else none

/-- JS `Number(x)` coercion, `none` for `NaN`.  String coercion is
modelled for (optionally negated) decimal integer literals — the
integers that inhabit the modelled documents; other strings are `NaN`.
`Number([])` is `0`, `Number([x])` coerces the single element, other
arrays and objects are `NaN`. -/
def toNumber : Value → Option Int
  | .vNull => some 0
  | .vBool b => some (if b then 1 else 0)
  | .vNum n => some n
  | .vStr [] => some 0
  | .vStr ('-' :: rest) => (parseDigits rest).map (fun n => -(n : Int))
  | .vStr s => (parseDigits s).map (fun n => (n : Int))
  | .vArr [] => some 0
  | .vArr [x] => toNumber x
  | .vArr _ => none
  | .vObj _ => none

mutual

/-- JS `String(x)` coercion. -/
def jsToString : Value → Str
  | .vNull => str "null"
  | .vBool true => str "true"
  | .vBool false => str "false"
  | .vNum n => intToDec n
  | .vStr s => s
  | .vArr xs => joinComma (jsToStringArr xs)
  | .vObj _ => str "[object Object]"

/-- Array elements under `String` (`join(',')`): `null` renders empty. -/
def jsToStringArr : List Value → List Str
  | [] => []
  | .vNull :: rest => [] :: jsToStringArr rest
  | x :: rest => jsToString x :: jsToStringArr rest

end

/-- Boolean lexicographic string comparison (JS `<` on strings). -/
def strLtB (a b : Str) : Bool := decide (List.Lex (· < ·) a b)

inductive CmpOp where
  | gt : CmpOp
  | gte : CmpOp
  | lt : CmpOp
  | lte : CmpOp
deriving DecidableEq

/-- `compareValues`: numeric comparison when both sides coerce to
numbers, else string comparison of the JS stringifications. -/
def compareValues (a b : Value) (op : CmpOp) : Bool :=
  match toNumber a, toNumber b with
  | some x, some y =>
    match op with
    | .gt => y < x
    | .gte => y ≤ x
    | .lt => x < y
    | .lte => x ≤ y
  | _, _ =>
    let sa := jsToString a
    let sb := jsToString b
    match op with
    | .gt => strLtB sb sa
    | .gte => ¬ strLtB sa sb
    | .lt => strLtB sa sb
    | .lte => ¬ strLtB sb sa

/-- `getNestedField`: descend a dotted path.  On arrays a decimal path
segment indexes the element (other array properties are not modelled). -/
def getNestedStep : Option Value → Str → Option Value
  | some (.vObj fs), part => dGet fs part
  | some (.vArr xs), part =>
    match parseDigits part with
    | some i => xs.get? i
    | none => none
  | _, _ => none

def getNestedField (d : Doc) (path : Str) : Option Value :=
  ((splitDot path).drop 1).foldl getNestedStep (getNestedStep (some (.vObj d)) ((splitDot path).headD []))

/-- `Object.keys`-style entries used by `deepEquals` when both sides have
`typeof 'object'`: objects give their fields, arrays their indexed
elements. -/
def entriesOf : Value → Option (List (Str × Value))
  | .vObj fs => some fs
  | .vArr xs => some ((List.range xs.length).zip xs |>.map (fun p => (natToDec p.1, p.2)))
  | _ => none

/-- Primitive `===` (references are never equal in the model, so object,
array and function cases are `false`; used as the first test of
`deepEquals`). -/
def primEq : Value → Value → Bool
  | .vNull, .vNull => true
  | .vBool a, .vBool b => a == b
  | .vNum a, .vNum b => a == b
  | .vStr a, .vStr b => a == b
  | _, _ => false

/-- Do two values have the same JS `typeof`? (`null`, arrays and objects
all give `'object'`.) -/
def sameTypeof : Value → Value → Bool
  | .vNull, .vNull => true
  | .vNull, .vArr _ => true
  | .vNull, .vObj _ => true
  | .vArr _, .vNull => true
  | .vObj _, .vNull => true
  | .vBool _, .vBool _ => true
  | .vNum _, .vNum _ => true
  | .vStr _, .vStr _ => true
  | .vArr _, .vArr _ => true
  | .vArr _, .vObj _ => true
  | .vObj _, .vArr _ => true
  | .vObj _, .vObj _ => true
  | _, _ => false

/-- `deepEquals`, fuelled (the recursion descends the first argument, so
`vsize a + 1` fuel always suffices; the `0` branch is unreachable from
`deepEquals`). -/
def deepEqualsFuel : Nat → Value → Value → Bool
  | 0, _, _ => false
  | fuel + 1, a, b =>
    if primEq a b then true
    else if a = .vNull || b = .vNull then false
    else if ¬ sameTypeof a b then false
    else
      match a, b with
      | .vArr xs, .vArr ys =>
        xs.length == ys.length &&
          (xs.zip ys).all (fun p => deepEqualsFuel fuel p.1 p.2)
      | a, b =>
        match entriesOf a, entriesOf b with
        | some ea, some eb =>
          ea.length == eb.length &&
            ea.all (fun e =>
              (eb.any (fun e' => e'.1 = e.1)) &&
                match dGet eb e.1 with
                | some vb => deepEqualsFuel fuel e.2 vb
                | none => deepEqualsFuel fuel e.2 .vNull)
        | _, _ => false

def deepEquals (a b : Value) : Bool := deepEqualsFuel (vsize a + 1) a b

/-- `deepEquals(value, target)` where the document side may be
`undefined` (`none`): `undefined` equals nothing that can appear in a
filter. -/
def deepEqOpt : Option Value → Value → Bool
  | none, _ => false
  | some a, b => deepEquals a b

/-- JS truthiness. -/
def truthy : Value → Bool
  | .vNull => false
  | .vBool b => b
  | .vNum n => n != 0
  | .vStr s => ¬ s.isEmpty
  | .vArr _ => true
  | .vObj _ => true

/-- `matchesComparison`: fold the operator object's entries; unknown
operators are ignored (`switch` without `default`). -/
def matchesComparison (value : Option Value) : List (Str × Value) → Except StoreErr Bool
  | [] => pure true
  | (op, target) :: rest =>
    if op = str "$eq" then
      if ¬ deepEqOpt value target then pure false else matchesComparison value rest
    else if op = str "$ne" then
      if deepEqOpt value target then pure false else matchesComparison value rest
    else if op = str "$gt" then
      match value with
      | none => pure false
      | some .vNull => pure false
      | some v => if ¬ compareValues v target .gt then pure false else matchesComparison value rest
    else if op = str "$gte" then
      match value with
      | none => pure false
      | some .vNull => pure false
      | some v => if ¬ compareValues v target .gte then pure false else matchesComparison value rest
    else if op = str "$lt" then
      match value with
      | none => pure false
      | some .vNull => pure false
      | some v => if ¬ compareValues v target .lt then pure false else matchesComparison value rest
    else if op = str "$lte" then
      match value with
      | none => pure false
      | some .vNull => pure false
      | some v => if ¬ compareValues v target .lte then pure false else matchesComparison value rest
    else if op = str "$in" then
      match target with
      | .vArr ts =>
        if ts.length > 2000 then .error errInternal
        else if ¬ ts.any (fun t => deepEqOpt value t) then pure false
        else matchesComparison value rest
      | _ => matchesComparison value rest
    else if op = str "$nin" then
      match target with
      | .vArr ts =>
        if ts.length > 2000 then .error errInternal
        else if ts.any (fun t => deepEqOpt value t) then pure false
        else matchesComparison value rest
      | _ => matchesComparison value rest
    else if op = str "$exists" then
      if (truthy target) != (value ≠ none : Bool) then pure false
      else matchesComparison value rest
    else matchesComparison value rest

/-- All sub-filters match (short-circuiting, errors propagate in order). -/
def allM (f : Value → Except StoreErr Bool) : List Value → Except StoreErr Bool
  | [] => pure true
  | x :: rest => do
    let b ← f x
    if b then allM f rest else pure false

/-- Some sub-filter matches (short-circuiting). -/
def anyM (f : Value → Except StoreErr Bool) : List Value → Except StoreErr Bool
  | [] => pure false
  | x :: rest => do
    let b ← f x
    if b then pure true else anyM f rest

/-- The entry loop of `matchesFilter`, parameterised by the recursive
matcher used for `$and` / `$or` sub-filters. -/
def matchesEntriesWith (recur : Value → Except StoreErr Bool) (doc : Doc) :
    List (Str × Value) → Except StoreErr Bool
  | [] => pure true
  | (field, condition) :: rest =>
    if field = str "$and" then
      match condition with
      | .vArr subs => do
        let ok ← allM recur subs
        if ok then matchesEntriesWith recur doc rest else pure false
      | _ => matchesEntriesWith recur doc rest
    else if field = str "$or" then
      match condition with
      | .vArr subs =>
        if subs.isEmpty then matchesEntriesWith recur doc rest
        else do
          let any ← anyM recur subs
          if any then matchesEntriesWith recur doc rest else pure false
      | _ => matchesEntriesWith recur doc rest
    else
      match condition with
      | .vObj ops => do
        let m ← matchesComparison (getNestedField doc field) ops
        if m then matchesEntriesWith recur doc rest else pure false
      | _ =>
        if ¬ deepEqOpt (getNestedField doc field) condition then pure false
        else matchesEntriesWith recur doc rest

/-- `matchesFilter`, fuelled like `planQueryFuel`. -/
def matchesFilterFuel : Nat → Doc → QFilter → Except StoreErr Bool
  | 0, _, _ => .error errInternal
  | fuel + 1, doc, filter =>
    if filter.isEmpty then pure true
    else matchesEntriesWith (fun sub => matchesFilterFuel fuel doc (asFilter sub)) doc filter

/-- `matchesFilter`. -/
def matchesFilter (doc : Doc) (filter : QFilter) : Except StoreErr Bool :=
  matchesFilterFuel (vsizeObj filter + 1) doc filter

/-! ## Claim C9: `$or` semantics -/

theorem allM_congr {r₁ r₂ : Value → Except StoreErr Bool}
    {subs : List Value} (h : ∀ v ∈ subs, r₁ v = r₂ v) :
    allM r₁ subs = allM r₂ subs := by
  induction subs with
  | nil => rfl
  | cons x rest ih =>
    have ih' := ih (fun v hv => h v (List.mem_cons_of_mem _ hv))
    rw [allM, allM, h x (by simp)]
    cases r₂ x with
    | error e => rfl
    | ok b =>
      cases b
      · rfl
      · exact ih'

theorem anyM_congr {r₁ r₂ : Value → Except StoreErr Bool}
    {subs : List Value} (h : ∀ v ∈ subs, r₁ v = r₂ v) :
    anyM r₁ subs = anyM r₂ subs := by
  induction subs with
  | nil => rfl
  | cons x rest ih =>
    have ih' := ih (fun v hv => h v (List.mem_cons_of_mem _ hv))
    rw [anyM, anyM, h x (by simp)]
    cases r₂ x with
    | error e => rfl
    | ok b =>
      cases b
      · exact ih'
      · rfl

theorem matchesEntriesWith_cons (r : Value → Except StoreErr Bool) (doc : Doc)
    (field : Str) (condition : Value) (rest : List (Str × Value)) :
    matchesEntriesWith r doc ((field, condition) :: rest) =
      if field = str "$and" then
        match condition with
        | .vArr subs => do
          let ok ← allM r subs
          if ok then matchesEntriesWith r doc rest else pure false
        | _ => matchesEntriesWith r doc rest
      else if field = str "$or" then
        match condition with
        | .vArr subs =>
          if subs.isEmpty then matchesEntriesWith r doc rest
          else do
            let any ← anyM r subs
            if any then matchesEntriesWith r doc rest else pure false
        | _ => matchesEntriesWith r doc rest
      else
        match condition with
        | .vObj ops => do
          let m ← matchesComparison (getNestedField doc field) ops
          if m then matchesEntriesWith r doc rest else pure false
        | _ =>
          if ¬ deepEqOpt (getNestedField doc field) condition then pure false
          else matchesEntriesWith r doc rest := rfl

theorem matchesEntriesWith_congr {r₁ r₂ : Value → Except StoreErr Bool} {doc : Doc} :
    ∀ {l : List (Str × Value)},
      (∀ e ∈ l, ∀ subs, e.2 = Value.vArr subs → ∀ v ∈ subs, r₁ v = r₂ v) →
      matchesEntriesWith r₁ doc l = matchesEntriesWith r₂ doc l
  | [], _ => rfl
  | (field, condition) :: rest, h => by
    have hrest : ∀ e ∈ rest, ∀ subs, e.2 = Value.vArr subs → ∀ v ∈ subs, r₁ v = r₂ v :=
      fun e he subs hs v hv => h e (List.mem_cons_of_mem _ he) subs hs v hv
    have hrec := @matchesEntriesWith_congr r₁ r₂ doc rest hrest
    rw [matchesEntriesWith_cons, matchesEntriesWith_cons]
    by_cases hand : field = str "$and"
    · rw [if_pos hand, if_pos hand]
      cases condition with
      | vArr subs =>
        dsimp only
        have hsubs : ∀ v ∈ subs, r₁ v = r₂ v :=
          fun v hv => h (field, .vArr subs) (by simp) subs rfl v hv
        rw [allM_congr hsubs]
        cases allM r₂ subs with
        | error e => rfl
        | ok b =>
          cases b
          · rfl
          · exact hrec
      | vNull => exact hrec
      | vBool b => exact hrec
      | vNum n => exact hrec
      | vStr s => exact hrec
      | vObj fs => exact hrec
    · rw [if_neg hand, if_neg hand]
      by_cases hor : field = str "$or"
      · rw [if_pos hor, if_pos hor]
        cases condition with
        | vArr subs =>
          dsimp only
          have hsubs : ∀ v ∈ subs, r₁ v = r₂ v :=
            fun v hv => h (field, .vArr subs) (by simp) subs rfl v hv
          by_cases he : subs.isEmpty
          · rw [if_pos he, if_pos he]
            exact hrec
          · rw [if_neg he, if_neg he, anyM_congr hsubs]
            cases anyM r₂ subs with
            | error e => rfl
            | ok b =>
              cases b
              · rfl
              · exact hrec
        | vNull => exact hrec
        | vBool b => exact hrec
        | vNum n => exact hrec
        | vStr s => exact hrec
        | vObj fs => exact hrec
      · rw [if_neg hor, if_neg hor]
        cases condition with
        | vObj ops =>
          dsimp only
          cases matchesComparison (getNestedField doc field) ops with
          | error e => rfl
          | ok b =>
            cases b
            · rfl
            · exact hrec
        | vNull =>
          dsimp only
          by_cases hde : ¬ deepEqOpt (getNestedField doc field) Value.vNull
          · rw [if_pos hde, if_pos hde]
          · rw [if_neg hde, if_neg hde]; exact hrec
        | vBool b =>
          dsimp only
          by_cases hde : ¬ deepEqOpt (getNestedField doc field) (Value.vBool b)
          · rw [if_pos hde, if_pos hde]
          · rw [if_neg hde, if_neg hde]; exact hrec
        | vNum n =>
          dsimp only
          by_cases hde : ¬ deepEqOpt (getNestedField doc field) (Value.vNum n)
          · rw [if_pos hde, if_pos hde]
          · rw [if_neg hde, if_neg hde]; exact hrec
        | vStr s =>
          dsimp only
          by_cases hde : ¬ deepEqOpt (getNestedField doc field) (Value.vStr s)
          · rw [if_pos hde, if_pos hde]
          · rw [if_neg hde, if_neg hde]; exact hrec
        | vArr xs =>
          dsimp only
          by_cases hde : ¬ deepEqOpt (getNestedField doc field) (Value.vArr xs)
          · rw [if_pos hde, if_pos hde]
          · rw [if_neg hde, if_neg hde]; exact hrec

/-- Sub-filter well-bounded size: any element of a `$and`/`$or` array in
the filter gives a strictly smaller sub-filter. -/
theorem subfilter_vsize_lt {l : QFilter} {e : Str × Value} {subs : List Value} {v : Value}
    (he : e ∈ l) (hs : e.2 = Value.vArr subs) (hv : v ∈ subs) :
    vsizeObj (asFilter v) < vsizeObj l := by
  have h1 := mem_vsizeObj_lt he
  rw [hs] at h1
  have h2 := mem_vsizeList_lt hv
  have h3 := asFilter_vsize v
  simp [vsize] at h1
  omega

/-- Fuel is irrelevant above the filter size. -/
theorem matchesFilterFuel_stable :
    ∀ (n : Nat), ∀ (filter : QFilter), vsizeObj filter ≤ n →
      ∀ (doc : Doc) (f₁ f₂ : Nat), vsizeObj filter < f₁ → vsizeObj filter < f₂ →
      matchesFilterFuel f₁ doc filter = matchesFilterFuel f₂ doc filter := by
  intro n
  induction n with
  | zero =>
    intro filter hle doc f₁ f₂ h₁ h₂
    match f₁, f₂ with
    | g₁ + 1, g₂ + 1 =>
      rw [matchesFilterFuel, matchesFilterFuel]
      have hempty : filter.isEmpty := by
        cases filter with
        | nil => rfl
        | cons e rest =>
          exfalso
          have := vsize_pos e.2
          simp [vsizeObj] at hle
          try omega
      rw [if_pos hempty, if_pos hempty]
  | succ n ih =>
    intro filter hle doc f₁ f₂ h₁ h₂
    match f₁, f₂ with
    | g₁ + 1, g₂ + 1 =>
      rw [matchesFilterFuel, matchesFilterFuel]
      by_cases hempty : filter.isEmpty
      · rw [if_pos hempty, if_pos hempty]
      · rw [if_neg hempty, if_neg hempty]
        apply matchesEntriesWith_congr
        intro e he subs hs v hv
        have hlt := subfilter_vsize_lt he hs hv
        have hg : vsizeObj (asFilter v) ≤ n := by omega
        exact ih (asFilter v) hg doc g₁ g₂ (by omega) (by omega)

theorem matchesFilterFuel_eq_matchesFilter {fuel : Nat} {doc : Doc} {filter : QFilter}
    (h : vsizeObj filter < fuel) :
    matchesFilterFuel fuel doc filter = matchesFilter doc filter :=
  matchesFilterFuel_stable (vsizeObj filter) filter (le_refl _) doc fuel
    (vsizeObj filter + 1) h (by omega)

instance {α β : Type} [DecidableEq α] [DecidableEq β] : DecidableEq (Except α β) :=
  fun a b =>
    match a, b with
    | .error x, .error y =>
      if h : x = y then .isTrue (by rw [h])
      else .isFalse (fun hc => h (by injection hc))
    | .ok x, .ok y =>
      if h : x = y then .isTrue (by rw [h])
      else .isFalse (fun hc => h (by injection hc))
    | .error _, .ok _ => .isFalse (fun hc => Except.noConfusion hc)
    | .ok _, .error _ => .isFalse (fun hc => Except.noConfusion hc)

theorem matchesFilterFuel_succ (fuel : Nat) (doc : Doc) (filter : QFilter) :
    matchesFilterFuel (fuel + 1) doc filter
      = if filter.isEmpty then pure true
        else matchesEntriesWith (fun sub => matchesFilterFuel fuel doc (asFilter sub))
          doc filter := rfl

theorem anyM_ok {f : Value → Except StoreErr Bool} :
    ∀ {subs : List Value}, (∀ v ∈ subs, ∃ b, f v = .ok b) →
      anyM f subs = .ok (decide (∃ v ∈ subs, f v = .ok true))
  | [], _ => by simp [anyM, pure, Except.pure]
  | x :: rest, h => by
    obtain ⟨b, hb⟩ := h x (by simp)
    rw [anyM, hb]
    cases b
    · have ih := anyM_ok (fun v hv => h v (List.mem_cons_of_mem _ hv))
      show anyM f rest = _
      rw [ih]
      have hiff : (∃ v ∈ rest, f v = .ok true) ↔ (∃ v ∈ x :: rest, f v = .ok true) := by
        constructor
        · rintro ⟨v, hv, hfv⟩
          exact ⟨v, List.mem_cons_of_mem _ hv, hfv⟩
        · rintro ⟨v, hv, hfv⟩
          rcases List.mem_cons.mp hv with rfl | hv'
          · rw [hb] at hfv
            simp at hfv
          · exact ⟨v, hv', hfv⟩
      rw [decide_eq_decide.mpr hiff]
    · show (pure true : Except StoreErr Bool) = _
      have hd : decide (∃ v ∈ x :: rest, f v = .ok true) = true := by
        simp
        exact Or.inl hb
      rw [hd]
      rfl

/-- `c9` counterexample: a filter whose `$or` array is empty *matches*
every document (here `{x: 1}`), where the claim says it rejects:
`orFilters.length > 0 && !orFilters.some(...)` is false for an empty
array, so the `$or` entry is skipped. -/
theorem c9_counterexample :
    matchesFilter [(str "x", Value.vNum 1)] [(str "$or", Value.vArr [])] = .ok true := by
  rfl

/-- `c9` amended: for a non-empty `$or` array (whose sub-filter
evaluations do not throw), the filter `{$or: [f1, ...]}` matches a
document iff at least one sub-filter matches it; a filter whose `$or`
array is *empty* matches every document (the entry is skipped), rather
than rejecting. -/
theorem c9_or_disjunction (doc : Doc) (subs : List Value) (hne : subs ≠ [])
    (h : ∀ sub ∈ subs, ∃ b, matchesFilter doc (asFilter sub) = .ok b) :
    (matchesFilter doc [(str "$or", Value.vArr subs)] = .ok true
      ↔ ∃ sub ∈ subs, matchesFilter doc (asFilter sub) = .ok true)
    ∧ matchesFilter doc [(str "$or", Value.vArr [])] = .ok true := by
  constructor
  · have hofuel : ∀ sub ∈ subs,
        matchesFilterFuel (2 + vsizeList subs) doc (asFilter sub)
          = matchesFilter doc (asFilter sub) := by
      intro sub hs
      apply matchesFilterFuel_eq_matchesFilter
      have h1 := mem_vsizeList_lt hs
      have h2 := asFilter_vsize sub
      omega
    have hsz : vsizeObj [(str "$or", Value.vArr subs)] + 1 = (2 + vsizeList subs) + 1 := by
      simp [vsizeObj, vsize]
      omega
    have hlhs : matchesFilter doc [(str "$or", Value.vArr subs)]
        = (do
            let any ← anyM (fun sub => matchesFilter doc (asFilter sub)) subs
            if any then (pure true : Except StoreErr Bool) else pure false) := by
      rw [matchesFilter, hsz, matchesFilterFuel_succ, if_neg (by simp),
        matchesEntriesWith_cons, if_neg (by decide), if_pos rfl]
      dsimp only
      rw [if_neg (by simpa using hne), anyM_congr hofuel]
      rfl
    rw [hlhs, anyM_ok h]
    by_cases hE : ∃ sub ∈ subs, matchesFilter doc (asFilter sub) = .ok true
    · have hd : decide (∃ sub ∈ subs, matchesFilter doc (asFilter sub) = .ok true) = true := by
        simpa using hE
      rw [hd]
      exact iff_of_true rfl hE
    · have hd : decide (∃ sub ∈ subs, matchesFilter doc (asFilter sub) = .ok true) = false := by
        simpa using hE
      rw [hd]
      exact iff_of_false (fun hc => Bool.noConfusion (Except.ok.inj hc)) hE
  · rw [matchesFilter]
    rfl

theorem c4_needsPostFilter_other_fields_only_witness :
    planQuery [(str "age", Value.vObj [(str "$gte", Value.vNum 5)]),
        (str "name", Value.vStr (str "x"))]
        [⟨str "age_1", str "age", false⟩] (str "users")
      = .ok ⟨.indexScan, some (str "age"), some (str "age_1"),
          some (str "idx:users:age:2:c014000000000000" ++ [usep]),
          some (str "idx:users:age:" ++ ['\xff']), true, 10⟩
    ∧ (⟨.indexScan, some (str "age"), some (str "age_1"),
          some (str "idx:users:age:2:c014000000000000" ++ [usep]),
          some (str "idx:users:age:" ++ ['\xff']), true, 10⟩ : QueryPlan).ptype = .indexScan
    ∧ ∃ f, (some (str "age") : Option Str) = some f
        ∧ (true = true ↔ otherFields [(str "age", Value.vObj [(str "$gte", Value.vNum 5)]),
            (str "name", Value.vStr (str "x"))] f ≠ []) :=
  c4_needsPostFilter_other_fields_only _ _ _ _ (by decide)

theorem c9_or_disjunction_witness :
    (matchesFilter [(str "x", Value.vNum 1)]
        [(str "$or", Value.vArr [Value.vObj [(str "x", Value.vNum 1)]])] = .ok true
      ↔ ∃ sub ∈ [Value.vObj [(str "x", Value.vNum 1)]],
          matchesFilter [(str "x", Value.vNum 1)] (asFilter sub) = .ok true)
    ∧ matchesFilter [(str "x", Value.vNum 1)] [(str "$or", Value.vArr [])] = .ok true :=
  c9_or_disjunction [(str "x", Value.vNum 1)] [Value.vObj [(str "x", Value.vNum 1)]]
    (by simp)
    (by
      intro sub hs
      rw [List.mem_singleton] at hs
      subst hs
      exact ⟨true, rfl⟩)

/-! ## Claim C10: `sanitizeDocument` -/

/-- The prototype-pollution keys `sanitizeDocument` rejects. -/
def dangerousKey (k : Str) : Bool :=
  k = str "__proto__" || k = str "constructor" || k = str "prototype"

mutual

/-- The key loop of `sanitizeDocument` on an object's entries at call
depth `depth` (the entry depth check has already been done). -/
def sanDocM (depth : Nat) : List (Str × Value) → Except StoreErr Unit
  | [] => pure ()
  | (k, v) :: rest =>
    if dangerousKey k then .error errBadValue
    else do
      sanValM depth v
      sanDocM depth rest

/-- Handling of one entry value: a plain object recurses with the depth
check of the callee; an array iterates its items; everything else is
accepted. -/
def sanValM (depth : Nat) : Value → Except StoreErr Unit
  | .vObj d => if 20 < depth + 1 then .error errDocTooLarge else sanDocM (depth + 1) d
  | .vArr items => sanArrM depth items
  | _ => pure ()

/-- The `for (const item of val)` loop over an array value. -/
def sanArrM (depth : Nat) : List Value → Except StoreErr Unit
  | [] => pure ()
  | item :: rest => do
    sanItemM depth item
    sanArrM depth rest

/-- One array item: objects recurse as documents; a nested array is fed
to `sanitizeDocument` itself (`typeof item === 'object'` is true for
arrays), whose `Object.keys` are the numeric indices — never dangerous —
so each element is handled like an entry value at the incremented
depth. -/
def sanItemM (depth : Nat) : Value → Except StoreErr Unit
  | .vObj d => if 20 < depth + 1 then .error errDocTooLarge else sanDocM (depth + 1) d
  | .vArr elems =>
    if 20 < depth + 1 then .error errDocTooLarge else sanArrAsDocM (depth + 1) elems
  | _ => pure ()

/-- `sanitizeDocument` applied to an array: the keys are indices (never
dangerous), the values are the elements. -/
def sanArrAsDocM (depth : Nat) : List Value → Except StoreErr Unit
  | [] => pure ()
  | v :: rest => do
    sanValM depth v
    sanArrAsDocM depth rest

end

/-- `sanitizeDocument(doc, depth)`: depth check at entry, then the key
loop. -/
def sanitizeDocumentAt (depth : Nat) (doc : Doc) : Except StoreErr Unit :=
  if 20 < depth then .error errDocTooLarge else sanDocM depth doc

/-- `sanitizeDocument(doc)` with the default `depth = 0`. -/
def sanitizeDocument (doc : Doc) : Except StoreErr Unit :=
  sanitizeDocumentAt 0 doc

mutual

/-- Extra call depth `sanitizeDocument` reaches below an object's
entries. -/
def sdepthDoc : List (Str × Value) → Nat
  | [] => 0
  | (_, v) :: rest => max (sdepthVal v) (sdepthDoc rest)

def sdepthVal : Value → Nat
  | .vObj d => 1 + sdepthDoc d
  | .vArr items => sdepthArr items
  | _ => 0

def sdepthArr : List Value → Nat
  | [] => 0
  | item :: rest => max (sdepthItem item) (sdepthArr rest)

def sdepthItem : Value → Nat
  | .vObj d => 1 + sdepthDoc d
  | .vArr elems => 1 + sdepthArrAsDoc elems
  | _ => 0

def sdepthArrAsDoc : List Value → Nat
  | [] => 0
  | v :: rest => max (sdepthVal v) (sdepthArrAsDoc rest)

end

mutual

/-- No entry key anywhere in the object is a dangerous key. -/
def dfDoc : List (Str × Value) → Bool
  | [] => true
  | (k, v) :: rest => !dangerousKey k && dfVal v && dfDoc rest

def dfVal : Value → Bool
  | .vObj d => dfDoc d
  | .vArr items => dfArr items
  | _ => true

def dfArr : List Value → Bool
  | [] => true
  | item :: rest => dfItem item && dfArr rest

def dfItem : Value → Bool
  | .vObj d => dfDoc d
  | .vArr elems => dfArrAsDoc elems
  | _ => true

def dfArrAsDoc : List Value → Bool
  | [] => true
  | v :: rest => dfVal v && dfArrAsDoc rest

end

mutual

theorem sanDocM_eq : ∀ (δ : Nat) (d : List (Str × Value)), δ ≤ 20 → dfDoc d = true →
    sanDocM δ d = if δ + sdepthDoc d ≤ 20 then .ok () else .error errDocTooLarge
  | δ, [], hδ, _ => by
    rw [sanDocM, sdepthDoc, if_pos (by omega)]
    rfl
  | δ, (k, v) :: rest, hδ, hdf => by
    rw [dfDoc] at hdf
    simp only [Bool.and_eq_true, Bool.not_eq_true'] at hdf
    obtain ⟨⟨hk, hv⟩, hrest⟩ := hdf
    rw [sanDocM, sdepthDoc, if_neg (by simp [hk])]
    rw [sanValM_eq δ v hδ hv, sanDocM_eq δ rest hδ hrest]
    by_cases h1 : δ + sdepthVal v ≤ 20
    · rw [if_pos h1]
      by_cases h2 : δ + sdepthDoc rest ≤ 20
      · rw [if_pos h2, if_pos (by omega)]
        rfl
      · rw [if_neg h2, if_neg (by omega)]
        rfl
    · rw [if_neg h1]
      rw [if_neg (show ¬ δ + max (sdepthVal v) (sdepthDoc rest) ≤ 20 by omega)]
      rfl

theorem sanValM_eq : ∀ (δ : Nat) (v : Value), δ ≤ 20 → dfVal v = true →
    sanValM δ v = if δ + sdepthVal v ≤ 20 then .ok () else .error errDocTooLarge
  | δ, .vObj d, hδ, hdf => by
    rw [dfVal] at hdf
    rw [sanValM, sdepthVal]
    by_cases h : δ + 1 ≤ 20
    · rw [if_neg (by omega), sanDocM_eq (δ + 1) d h hdf]
      exact if_congr (by omega) rfl rfl
    · rw [if_pos (by omega), if_neg (by omega)]
  | δ, .vArr items, hδ, hdf => by
    rw [dfVal] at hdf
    rw [sanValM, sdepthVal]
    exact sanArrM_eq δ items hδ hdf
  | δ, .vNull, hδ, _ => by
    have hc : δ + sdepthVal Value.vNull ≤ 20 := by
      show δ + 0 ≤ 20
      omega
    show (pure () : Except StoreErr Unit)
      = if δ + sdepthVal Value.vNull ≤ 20 then .ok () else .error errDocTooLarge
    rw [if_pos hc]
    rfl
  | δ, .vBool b, hδ, _ => by
    have hc : δ + sdepthVal (Value.vBool b) ≤ 20 := by
      show δ + 0 ≤ 20
      omega
    show (pure () : Except StoreErr Unit)
      = if δ + sdepthVal (Value.vBool b) ≤ 20 then .ok () else .error errDocTooLarge
    rw [if_pos hc]
    rfl
  | δ, .vNum n, hδ, _ => by
    have hc : δ + sdepthVal (Value.vNum n) ≤ 20 := by
      show δ + 0 ≤ 20
      omega
    show (pure () : Except StoreErr Unit)
      = if δ + sdepthVal (Value.vNum n) ≤ 20 then .ok () else .error errDocTooLarge
    rw [if_pos hc]
    rfl
  | δ, .vStr s, hδ, _ => by
    have hc : δ + sdepthVal (Value.vStr s) ≤ 20 := by
      show δ + 0 ≤ 20
      omega
    show (pure () : Except StoreErr Unit)
      = if δ + sdepthVal (Value.vStr s) ≤ 20 then .ok () else .error errDocTooLarge
    rw [if_pos hc]
    rfl

theorem sanArrM_eq : ∀ (δ : Nat) (l : List Value), δ ≤ 20 → dfArr l = true →
    sanArrM δ l = if δ + sdepthArr l ≤ 20 then .ok () else .error errDocTooLarge
  | δ, [], hδ, _ => by
    rw [sanArrM, sdepthArr, if_pos (by omega)]
    rfl
  | δ, item :: rest, hδ, hdf => by
    rw [dfArr] at hdf
    simp only [Bool.and_eq_true] at hdf
    obtain ⟨hi, hrest⟩ := hdf
    rw [sanArrM, sdepthArr]
    rw [sanItemM_eq δ item hδ hi, sanArrM_eq δ rest hδ hrest]
    by_cases h1 : δ + sdepthItem item ≤ 20
    · rw [if_pos h1]
      by_cases h2 : δ + sdepthArr rest ≤ 20
      · rw [if_pos h2, if_pos (by omega)]
        rfl
      · rw [if_neg h2, if_neg (by omega)]
        rfl
    · rw [if_neg h1]
      rw [if_neg (show ¬ δ + max (sdepthItem item) (sdepthArr rest) ≤ 20 by omega)]
      rfl

theorem sanItemM_eq : ∀ (δ : Nat) (v : Value), δ ≤ 20 → dfItem v = true →
    sanItemM δ v = if δ + sdepthItem v ≤ 20 then .ok () else .error errDocTooLarge
  | δ, .vObj d, hδ, hdf => by
    rw [dfItem] at hdf
    rw [sanItemM, sdepthItem]
    by_cases h : δ + 1 ≤ 20
    · rw [if_neg (by omega), sanDocM_eq (δ + 1) d h hdf]
      exact if_congr (by omega) rfl rfl
    · rw [if_pos (by omega), if_neg (by omega)]
  | δ, .vArr elems, hδ, hdf => by
    rw [dfItem] at hdf
    rw [sanItemM, sdepthItem]
    by_cases h : δ + 1 ≤ 20
    · rw [if_neg (by omega), sanArrAsDocM_eq (δ + 1) elems h hdf]
      exact if_congr (by omega) rfl rfl
    · rw [if_pos (by omega), if_neg (by omega)]
  | δ, .vNull, hδ, _ => by
    have hc : δ + sdepthItem Value.vNull ≤ 20 := by
      show δ + 0 ≤ 20
      omega
    show (pure () : Except StoreErr Unit)
      = if δ + sdepthItem Value.vNull ≤ 20 then .ok () else .error errDocTooLarge
    rw [if_pos hc]
    rfl
  | δ, .vBool b, hδ, _ => by
    have hc : δ + sdepthItem (Value.vBool b) ≤ 20 := by
      show δ + 0 ≤ 20
      omega
    show (pure () : Except StoreErr Unit)
      = if δ + sdepthItem (Value.vBool b) ≤ 20 then .ok () else .error errDocTooLarge
    rw [if_pos hc]
    rfl
  | δ, .vNum n, hδ, _ => by
    have hc : δ + sdepthItem (Value.vNum n) ≤ 20 := by
      show δ + 0 ≤ 20
      omega
    show (pure () : Except StoreErr Unit)
      = if δ + sdepthItem (Value.vNum n) ≤ 20 then .ok () else .error errDocTooLarge
    rw [if_pos hc]
    rfl
  | δ, .vStr s, hδ, _ => by
    have hc : δ + sdepthItem (Value.vStr s) ≤ 20 := by
      show δ + 0 ≤ 20
      omega
    show (pure () : Except StoreErr Unit)
      = if δ + sdepthItem (Value.vStr s) ≤ 20 then .ok () else .error errDocTooLarge
    rw [if_pos hc]
    rfl

theorem sanArrAsDocM_eq : ∀ (δ : Nat) (l : List Value), δ ≤ 20 → dfArrAsDoc l = true →
    sanArrAsDocM δ l = if δ + sdepthArrAsDoc l ≤ 20 then .ok () else .error errDocTooLarge
  | δ, [], hδ, _ => by
    rw [sanArrAsDocM, sdepthArrAsDoc, if_pos (by omega)]
    rfl
  | δ, v :: rest, hδ, hdf => by
    rw [dfArrAsDoc] at hdf
    simp only [Bool.and_eq_true] at hdf
    obtain ⟨hv, hrest⟩ := hdf
    rw [sanArrAsDocM, sdepthArrAsDoc]
    rw [sanValM_eq δ v hδ hv, sanArrAsDocM_eq δ rest hδ hrest]
    by_cases h1 : δ + sdepthVal v ≤ 20
    · rw [if_pos h1]
      by_cases h2 : δ + sdepthArrAsDoc rest ≤ 20
      · rw [if_pos h2, if_pos (by omega)]
        rfl
      · rw [if_neg h2, if_neg (by omega)]
        rfl
    · rw [if_neg h1]
      rw [if_neg (show ¬ δ + max (sdepthVal v) (sdepthArrAsDoc rest) ≤ 20 by omega)]
      rfl

end

/-- A chain of `n` nested single-field objects, for depth examples. -/
def nestObj : Nat → Value
  | 0 => Value.vNum 1
  | n + 1 => Value.vObj [(str "a", nestObj n)]

/-- `c10` counterexample: a document that is nested deeper than 20 but
also carries the dangerous key `__proto__` in its first entry fails with
`BadValue` (code 2), not `DocumentTooLarge` (code 10334): the key loop
rejects the dangerous key before the traversal ever reaches depth 21. -/
theorem c10_counterexample :
    20 < sdepthDoc [(str "__proto__", Value.vNum 1), (str "b", nestObj 25)]
    ∧ sanitizeDocument [(str "__proto__", Value.vNum 1), (str "b", nestObj 25)]
        = .error errBadValue
    ∧ errBadValue.code = 2 ∧ errBadValue.code ≠ 10334 :=
  ⟨by decide, rfl, rfl, by decide⟩

/-- `c10` amended: for documents free of the dangerous keys
(`__proto__`, `constructor`, `prototype`), `sanitizeDocument` succeeds
exactly when the nesting depth is at most 20 and otherwise fails with
`DocumentTooLarge` (code 10334, not 2); without that danger-free
hypothesis a dangerous key found before the deep subtree yields code 2
even on a document nested deeper than 20. -/
theorem c10_sanitize_depth (doc : Doc) (h : dfDoc doc = true) :
    sanitizeDocument doc
      = (if sdepthDoc doc ≤ 20 then .ok () else .error errDocTooLarge)
    ∧ errDocTooLarge.code = 10334 ∧ errBadValue.code = 2 := by
  refine ⟨?_, rfl, rfl⟩
  rw [sanitizeDocument, sanitizeDocumentAt, if_neg (by omega)]
  have := sanDocM_eq 0 doc (by omega) h
  simpa using this

theorem c10_sanitize_depth_witness :
    (dfDoc [(str "a", nestObj 21)] = true
      ∧ (sanitizeDocument [(str "a", nestObj 21)]
          = (if sdepthDoc [(str "a", nestObj 21)] ≤ 20 then .ok () else .error errDocTooLarge)
        ∧ errDocTooLarge.code = 10334 ∧ errBadValue.code = 2))
    ∧ ¬ sdepthDoc [(str "a", nestObj 21)] ≤ 20
    ∧ dfDoc [(str "d", nestObj 3)] = true
    ∧ sdepthDoc [(str "d", nestObj 3)] ≤ 20 :=
  ⟨⟨by decide, c10_sanitize_depth [(str "a", nestObj 21)] (by decide)⟩,
    by decide, by decide, by decide⟩

/-! ## The key-value substrate (`kv-adapter.ts`, `InMemoryKVStore`)

Stored buffers are kept in parsed form: a document row holds the
document (`JSON.parse` of the stored `JSON.stringify` text), an index
row holds the marker `'1'`, a metadata row holds the collection
metadata.  The `options` field of the metadata (a creation timestamp
and schema version) is read by nothing and omitted. -/

structure Metadata where
  name : Str
  indexes : List IndexDef
  documentCount : Nat
deriving DecidableEq

inductive Val where
  | docV : Doc → Val
  | oneV : Val
  | metaV : Metadata → Val
deriving DecidableEq

abbrev KV := List (Str × Val)

def kvGet : KV → Str → Option Val
  | [], _ => none
  | (k, v) :: rest, key => if k = key then some v else kvGet rest key

/-- `Map.set`: replace in place, else append (insertion order). -/
def kvPut : KV → Str → Val → KV
  | [], key, v => [(key, v)]
  | (k, w) :: rest, key, v =>
    if k = key then (k, v) :: rest else (k, w) :: kvPut rest key v

def kvDelete : KV → Str → KV
  | [], _ => []
  | (k, w) :: rest, key => if k = key then rest else (k, w) :: kvDelete rest key

def strLeB (a b : Str) : Bool := !(strLtB b a)

def insertSorted (k : Str) : List Str → List Str
  | [] => [k]
  | x :: xs => if strLeB k x then k :: x :: xs else x :: insertSorted k xs

/-- `Array.from(keys).sort()` (JS default sort on strings is
code-unit-lexicographic). -/
def sortKeys : List Str → List Str
  | [] => []
  | k :: ks => insertSorted k (sortKeys ks)

/-- `prefix.slice(0, -1) + String.fromCharCode(last + 1)`. -/
def prefixEnd : Str → Str
  | [] => []
  | [c] => [Char.ofNat (c.toNat + 1)]
  | c :: rest => c :: prefixEnd rest

structure ScanOpts where
  pfx : Option Str
  startKey : Option Str
  endKey : Option Str
  limit : Option Nat

/-- The adapter slices the sorted key array on
`[max(prefix, startKey), min(prefixEnd, endKey))` by binary search; on a
sorted array of distinct keys that slice holds exactly the keys that are
`≥` each lower bound and `<` each upper bound. -/
def inScanRange (o : ScanOpts) (k : Str) : Bool :=
  (match o.pfx with
    | some p => strLeB p k && strLtB k (prefixEnd p)
    | none => true)
  && (match o.startKey with | some s => strLeB s k | none => true)
  && (match o.endKey with | some e => strLtB k e | none => true)

/-- `scan` (forward; no modelled call site passes `reverse`). -/
def kvScan (S : KV) (o : ScanOpts) : List (Str × Val) :=
  let keys := (sortKeys (S.map Prod.fst)).filter (inScanRange o)
  let keys := match o.limit with | some l => keys.take l | none => keys
  keys.filterMap (fun k => (kvGet S k).map (fun v => (k, v)))

def kvPutList (S : KV) (l : List (Str × Val)) : KV :=
  l.foldl (fun s kv => kvPut s kv.1 kv.2) S

def kvDelList (S : KV) (l : List Str) : KV :=
  l.foldl kvDelete S

/-! ## `IndexManager` (`index-manager.ts`) -/

/-- The throw loop over the (≤ 2) scanned entries of `checkUnique`:
with `excludeSelf`, the current document's own entry is skipped. -/
def checkUniqueLoop (excludeSelf : Bool) (curId : Str) :
    List (Str × Val) → Except StoreErr Unit
  | [] => .ok ()
  | (k, _) :: rest =>
    if excludeSelf then
      match decodeIdxKey k with
      | some d =>
        if d.id = curId then checkUniqueLoop excludeSelf curId rest
        else .error errDupKey
      | none => .error errDupKey
    else .error errDupKey

def checkUnique (S : KV) (c : Str) (idx : IndexDef) (v : Value) (curId : Str)
    (excludeSelf : Bool) : Except StoreErr Unit := do
  let ev ← encodeValue v
  let pfx := idxPfx c idx.field ++ ev ++ [usep]
  checkUniqueLoop excludeSelf curId (kvScan S ⟨some pfx, none, none, some 2⟩)

/-- Phase 1 of `onInsert`: pre-flight unique checks and the `puts`
array, in index order. -/
def onInsertPhase1 (S : KV) (c : Str) (doc : Doc) (docId : Str) :
    List IndexDef → Except StoreErr (List (Str × Val))
  | [] => .ok []
  | idx :: rest =>
    match dGet doc idx.field with
    | none => onInsertPhase1 S c doc docId rest
    | some v =>
      if v = Value.vNull then onInsertPhase1 S c doc docId rest
      else do
        if idx.unique then checkUnique S c idx v docId false else pure ()
        let key ← encodeIdxKey c idx.field v docId
        let puts ← onInsertPhase1 S c doc docId rest
        pure ((key, Val.oneV) :: puts)

/-- `onInsert`: phase 1 throws before any mutation; phase 2 executes the
puts. -/
def onInsert (S : KV) (c : Str) (indexes : List IndexDef) (doc : Doc)
    (docId : Str) : Except StoreErr KV := do
  let puts ← onInsertPhase1 S c doc docId indexes
  pure (kvPutList S puts)

def jsonOpt : Option Value → Option Str
  | none => none
  | some v => some (jsonValue v)

/-- The old-value delete entry of one index in `onUpdate` phase 1. -/
def updDelPart (c : Str) (oldDoc : Doc) (docId : Str) (idx : IndexDef) :
    Except StoreErr (List Str) :=
  match dGet oldDoc idx.field with
  | some v =>
    if v = Value.vNull then pure []
    else do
      let k ← encodeIdxKey c idx.field v docId
      pure [k]
  | none => pure []

/-- The new-value put entry of one index in `onUpdate` phase 1 (with the
self-excluding unique check). -/
def updPutPart (S : KV) (c : Str) (newDoc : Doc) (docId : Str) (idx : IndexDef) :
    Except StoreErr (List (Str × Val)) :=
  match dGet newDoc idx.field with
  | some v =>
    if v = Value.vNull then pure []
    else do
      if idx.unique then checkUnique S c idx v docId true else pure ()
      let k ← encodeIdxKey c idx.field v docId
      pure [(k, Val.oneV)]
  | none => pure []

/-- Phase 1 of `onUpdate`: per index, skip if the two values have equal
`JSON.stringify` text, else collect the old entry delete and (after a
unique check excluding self) the new entry put. -/
def onUpdatePhase1 (S : KV) (c : Str) (oldDoc newDoc : Doc) (docId : Str) :
    List IndexDef → Except StoreErr (List Str × List (Str × Val))
  | [] => .ok ([], [])
  | idx :: rest =>
    if jsonOpt (dGet oldDoc idx.field) = jsonOpt (dGet newDoc idx.field) then
      onUpdatePhase1 S c oldDoc newDoc docId rest
    else do
      let dels ← updDelPart c oldDoc docId idx
      let puts ← updPutPart S c newDoc docId idx
      let (ds, ps) ← onUpdatePhase1 S c oldDoc newDoc docId rest
      pure (dels ++ ds, puts ++ ps)

/-- `onUpdate`: phase 2 executes the deletes, then the puts. -/
def onUpdate (S : KV) (c : Str) (indexes : List IndexDef) (oldDoc newDoc : Doc)
    (docId : Str) : Except StoreErr KV := do
  let (dels, puts) ← onUpdatePhase1 S c oldDoc newDoc docId indexes
  pure (kvPutList (kvDelList S dels) puts)

/-- `onDelete` deletes entry by entry; an `encodeValue` throw mid-loop
leaves the earlier deletes applied, so the state is always returned. -/
def onDelete (S : KV) (c : Str) (indexes : List IndexDef) (doc : Doc)
    (docId : Str) : KV × Except StoreErr Unit :=
  match indexes with
  | [] => (S, .ok ())
  | idx :: rest =>
    match dGet doc idx.field with
    | none => onDelete S c rest doc docId
    | some v =>
      if v = Value.vNull then onDelete S c rest doc docId
      else
        match encodeIdxKey c idx.field v docId with
        | .error e => (S, .error e)
        | .ok k => onDelete (kvDelete S k) c rest doc docId

/-- `doc._id` used where JS coerces it into a string (template literals
and `===` comparisons against decoded ids). -/
def docIdOf (d : Doc) : Str :=
  match dGet d (str "_id") with
  | some v => jsToString v
  | none => str "undefined"

/-- One scanned chunk of the retroactive index build in
`IndexManager.createIndex`: `seen` maps encoded values to ids for the
unique pre-check.  Puts before a mid-chunk duplicate throw stay
applied, so the state is always returned. -/
def buildIdxInner (c f : Str) (unique : Bool) :
    List (Str × Val) → KV → List (Str × Str) → KV × Except StoreErr (List (Str × Str))
  | [], S, seen => (S, .ok seen)
  | (_, v) :: rest, S, seen =>
    match v with
    | .docV doc =>
      match dGet doc f with
      | none => buildIdxInner c f unique rest S seen
      | some value =>
        if value = Value.vNull then buildIdxInner c f unique rest S seen
        else
          match encodeValue value with
          | .error e => (S, .error e)
          | .ok encoded =>
            if unique && ((seen.find? (fun p => p.1 = encoded)).isSome) then
              (S, .error errDupKey)
            else
              let seen' := if unique then seen ++ [(encoded, docIdOf doc)] else seen
              let key := idxKeyRaw c f encoded (docIdOf doc)
              buildIdxInner c f unique rest (kvPut S key Val.oneV) seen'
    | _ => (S, .error errInternal)

/-- The chunked scan loop of the index build (`BATCH_LIMIT = 5000`). -/
def buildIdxLoop (c f : Str) (unique : Bool) :
    Nat → KV → Option Str → List (Str × Str) → KV × Except StoreErr Unit
  | 0, S, _, _ => (S, .error errInternal)
  | fuel + 1, S, lastKey, seen =>
    let entries := kvScan S ⟨some (docPfx c), lastKey.map (· ++ ['\x00']), none, some 5000⟩
    if entries.isEmpty then (S, .ok ())
    else
      match buildIdxInner c f unique entries S seen with
      | (S', .error e) => (S', .error e)
      | (S', .ok seen') =>
        if entries.length < 5000 then (S', .ok ())
        else buildIdxLoop c f unique fuel S' ((entries.map Prod.fst).getLast?) seen'

/-- `IndexManager.createIndex`: return the existing definition if one
covers the field, else build the index retroactively over the stored
documents. -/
def imCreateIndex (S : KV) (meta : Metadata) (f : Str) (unique : Bool) :
    KV × Except StoreErr IndexDef :=
  match meta.indexes.find? (fun idx => idx.field = f) with
  | some existing => (S, .ok existing)
  | none =>
    match buildIdxLoop meta.name f unique (S.length + 1) S none [] with
    | (S', .error e) => (S', .error e)
    | (S', .ok ()) => (S', .ok ⟨f ++ str "_1", f, unique⟩)

/-! ## `DocumentStore` (`index-manager.ts`) -/

/-- The characters of JS `\s` that can occur in the modelled names. -/
def isWsChar (ch : Char) : Bool :=
  ch = ' ' || ch = '\t' || ch = '\n' || ch = '\r' || ch = '\x0b' || ch = '\x0c'
    || ch = ' ' || ch = '﻿'

/-- `COLLECTION_NAME_BLOCKLIST = /[:\/\\\x00]|^\s*$|\.\.|\.\.|^system\./` -/
def isSubstr (needle : Str) : Str → Bool
  | [] => needle.isEmpty
  | c :: rest => needle.isPrefixOf (c :: rest) || isSubstr needle rest

def colBlocked (c : Str) : Bool :=
  c.any (fun ch => ch = ':' || ch = '/' || ch = '\\' || ch = '\x00')
  || c.all isWsChar
  || isSubstr (str "..") c
  || (str "system.").isPrefixOf c

/-- `validateCollectionName` (all rejections carry `InvalidNamespace`,
code 73). -/
def validateCollectionName (c : Str) : Except StoreErr Unit :=
  if c.length = 0 then .error errNsInvalid
  else if 120 < c.length then .error errNsInvalid
  else if colBlocked c then .error errNsInvalid
  else .ok ()

/-- `uuidv4()` modelled as a deterministic injective id supply drawn
from a counter threaded through the store state; no verified property
depends on the id format. -/
def genId (seed : Nat) : Str := str "id-" ++ natToDec seed

/-- The whole store state: the KV map and the id-supply counter. -/
structure St where
  kv : KV
  seed : Nat
deriving DecidableEq

/-- JS falsiness of `doc._id` in `doc._id || this.generateId()`. -/
def jsFalsyOpt : Option Value → Bool
  | none => true
  | some .vNull => true
  | some (.vBool b) => !b
  | some (.vNum n) => n = 0
  | some (.vStr s) => s.isEmpty
  | some _ => false

def getOrCreateCollection (S : KV) (c : Str) : KV × Except StoreErr Metadata :=
  match validateCollectionName c with
  | .error e => (S, .error e)
  | .ok () =>
    match kvGet S (metaKey c) with
    | some (.metaV m) => (S, .ok m)
    | some _ => (S, .error errInternal)
    | none =>
      let m : Metadata := ⟨c, [⟨str "_id_", str "_id", true⟩], 0⟩
      (kvPut S (metaKey c) (.metaV m), .ok m)

def getCollection (S : KV) (c : Str) : Except StoreErr (Option Metadata) :=
  match kvGet S (metaKey c) with
  | some (.metaV m) => .ok (some m)
  | some _ => .error errInternal
  | none => .ok none

def maxDocumentSize : Nat := 1048576

structure InsertResult where
  insertedId : Option Str
  insertedIds : Option (List Str)
  insertedCount : Nat
deriving DecidableEq

/-- `metadata.documentCount += insertedIds.length; saveMetadata` —
executed on the throw paths only when at least one chunk completed. -/
def commitCountIfAny (S : KV) (meta : Metadata) (insertedSoFar : List Str) : KV :=
  if 0 < insertedSoFar.length then
    kvPut S (metaKey meta.name)
      (.metaV { meta with documentCount := meta.documentCount + insertedSoFar.length })
  else S

/-- The per-document loop of one insert chunk (the store has no
`batchWrite`, so each document row is put immediately). -/
def insChunkLoop (c : Str) (meta : Metadata) (insertedSoFar : List Str) :
    List Doc → KV → Nat → List Str → (KV × Nat) × Except StoreErr (List Str)
  | [], S, seed, chunkIds => ((S, seed), .ok chunkIds)
  | doc :: rest, S, seed, chunkIds =>
    let idVal := dGet doc (str "_id")
    let gen := jsFalsyOpt idVal
    let docWithId := if gen then dSet doc (str "_id") (.vStr (genId seed)) else doc
    let seed' := if gen then seed + 1 else seed
    if maxDocumentSize < (jsonDoc docWithId).length then
      ((commitCountIfAny S meta insertedSoFar, seed'), .error errDocTooLarge)
    else
      let docId := docIdOf docWithId
      match onInsert S c meta.indexes docWithId docId with
      | .error e => ((commitCountIfAny S meta insertedSoFar, seed'), .error e)
      | .ok S1 =>
        let S2 := kvPut S1 (encodeDocKey c docId) (.docV docWithId)
        insChunkLoop c meta insertedSoFar rest S2 seed' (chunkIds ++ [docId])

/-- The 5000-document chunking loop of `_insertInternal`:
`insertedIds` is extended only after a chunk completes. -/
def insChunks (c : Str) (meta : Metadata) :
    Nat → List Doc → KV → Nat → List Str → (KV × Nat) × Except StoreErr (List Str)
  | 0, _, S, seed, _ => ((S, seed), .error errInternal)
  | fuel + 1, docs, S, seed, insertedIds =>
    if docs.isEmpty then ((S, seed), .ok insertedIds)
    else
      match insChunkLoop c meta insertedIds (docs.take 5000) S seed [] with
      | ((S', seed'), .error e) => ((S', seed'), .error e)
      | ((S', seed'), .ok chunkIds) =>
        insChunks c meta fuel (docs.drop 5000) S' seed' (insertedIds ++ chunkIds)

def insertInternal (st : St) (c : Str) (docs : List Doc) :
    St × Except StoreErr InsertResult :=
  match getOrCreateCollection st.kv c with
  | (S, .error e) => (⟨S, st.seed⟩, .error e)
  | (S, .ok meta) =>
    match insChunks c meta (docs.length + 1) docs S st.seed [] with
    | ((S', seed'), .error e) => (⟨S', seed'⟩, .error e)
    | ((S', seed'), .ok insertedIds) =>
      let S'' := kvPut S' (metaKey meta.name)
        (.metaV { meta with documentCount := meta.documentCount + insertedIds.length })
      (⟨S'', seed'⟩, .ok
        ⟨if insertedIds.length = 1 then insertedIds.head? else none,
          if 1 < insertedIds.length then some insertedIds else none,
          insertedIds.length⟩)

def sanitizeList : List Doc → Except StoreErr Unit
  | [] => .ok ()
  | d :: rest => do
    sanitizeDocument d
    sanitizeList rest

def dsInsert (st : St) (c : Str) (docs : List Doc) :
    St × Except StoreErr InsertResult :=
  match validateCollectionName c with
  | .error e => (st, .error e)
  | .ok () =>
    match sanitizeList docs with
    | .error e => (st, .error e)
    | .ok () => insertInternal st c docs

/-! ## `executeQuery` (`query-planner.ts`)

Modelled for the update/delete call sites: no sort, skip or projection,
and an explicit positive limit, hence `maxNeeded = limit`. -/

/-- The per-entry loop of one index-scan chunk: advance `lastKey` past
the entry, decode it, fetch the document row, post-filter if required,
and stop once `maxNeeded` documents are collected. -/
def exeIdxInner (kv : KV) (c : Str) (filter : QFilter) (npf : Bool) (maxNeeded : Nat) :
    List (Str × Val) → Str → List Doc → Except StoreErr (List Doc × Str)
  | [], lastKey, docs => .ok (docs, lastKey)
  | (k, _) :: rest, _, docs =>
    let lastKey := k ++ ['\x00']
    match decodeIdxKey k with
    | none => exeIdxInner kv c filter npf maxNeeded rest lastKey docs
    | some dec =>
      match kvGet kv (encodeDocKey c dec.id) with
      | none => exeIdxInner kv c filter npf maxNeeded rest lastKey docs
      | some (.docV doc) => do
        let keep ← if npf then matchesFilter doc filter else pure true
        if keep then
          let docs' := docs ++ [doc]
          if maxNeeded ≤ docs'.length then .ok (docs', lastKey)
          else exeIdxInner kv c filter npf maxNeeded rest lastKey docs'
        else exeIdxInner kv c filter npf maxNeeded rest lastKey docs
      | some _ => .error errInternal

/-- The chunked index-scan loop (`BATCH_LIMIT = 5000`). -/
def exeIdxLoop (kv : KV) (c : Str) (filter : QFilter) (npf : Bool) (endKey : Str)
    (maxNeeded : Nat) : Nat → Str → List Doc → Except StoreErr (List Doc)
  | 0, _, _ => .error errInternal
  | fuel + 1, lastKey, docs =>
    let entries := kvScan kv ⟨none, some lastKey, some endKey, some 5000⟩
    if entries.isEmpty then .ok docs
    else do
      let (docs', lastKey') ← exeIdxInner kv c filter npf maxNeeded entries lastKey docs
      if maxNeeded ≤ docs'.length then .ok docs'
      else if entries.length < 5000 then .ok docs'
      else exeIdxLoop kv c filter npf endKey maxNeeded fuel lastKey' docs'

/-- The per-entry loop of one collection-scan chunk. -/
def exeCollInner (filter : QFilter) (npf : Bool) (maxNeeded : Nat) :
    List (Str × Val) → Option Str → List Doc → Except StoreErr (List Doc × Option Str)
  | [], lastKey, docs => .ok (docs, lastKey)
  | (k, v) :: rest, _, docs =>
    let lastKey := some k
    match v with
    | .docV doc => do
      let keep ← if npf then matchesFilter doc filter else pure true
      if keep then
        let docs' := docs ++ [doc]
        if maxNeeded ≤ docs'.length then .ok (docs', lastKey)
        else exeCollInner filter npf maxNeeded rest lastKey docs'
      else exeCollInner filter npf maxNeeded rest lastKey docs
    | _ => .error errInternal

/-- The chunked collection-scan loop. -/
def exeCollLoop (kv : KV) (c : Str) (filter : QFilter) (npf : Bool)
    (maxNeeded : Nat) : Nat → Option Str → List Doc → Except StoreErr (List Doc)
  | 0, _, _ => .error errInternal
  | fuel + 1, lastKey, docs =>
    let entries := kvScan kv ⟨some (docPfx c), lastKey.map (· ++ ['\x00']), none, some 5000⟩
    if entries.isEmpty then .ok docs
    else do
      let (docs', lastKey') ← exeCollInner filter npf maxNeeded entries lastKey docs
      if maxNeeded ≤ docs'.length then .ok docs'
      else if entries.length < 5000 then .ok docs'
      else exeCollLoop kv c filter npf maxNeeded fuel lastKey' docs'

def executeQuery (kv : KV) (plan : QueryPlan) (c : Str) (filter : QFilter)
    (limit : Nat) : Except StoreErr (List Doc) := do
  let fuel := kv.length + 1
  let docs ←
    match plan.startKey, plan.endKey with
    | some sk, some ek =>
      if plan.ptype = PlanType.indexScan && !sk.isEmpty && !ek.isEmpty then
        exeIdxLoop kv c filter plan.needsPostFilter ek limit fuel sk []
      else exeCollLoop kv c filter plan.needsPostFilter limit fuel none []
    | _, _ => exeCollLoop kv c filter plan.needsPostFilter limit fuel none []
  pure (docs.take limit)

/-! ## Updates and deletes (`DocumentStore`) -/

structure UpdateOps where
  set : Option Doc
  inc : Option Doc
  unset : Option Doc

structure UpdateResult where
  matchedCount : Nat
  modifiedCount : Nat
  upsertedId : Option Str
deriving DecidableEq

def sanitizeUpd (u : UpdateOps) : Except StoreErr Unit := do
  match u.set with | some s => sanitizeDocument s | none => pure ()
  match u.inc with | some i => sanitizeDocument i | none => pure ()
  match u.unset with | some x => sanitizeDocument x | none => pure ()

def applySet (d : Doc) : Option Doc → Doc
  | none => d
  | some s => s.foldl (fun acc kv => dSet acc kv.1 kv.2) d

/-- `currentNum + amount`: the current value defaults to `0` when not a
number; a string amount concatenates; other non-numeric amounts give
`NaN`, which `JSON.stringify` serializes as `null`. -/
def incApply (cur : Option Value) (amount : Value) : Value :=
  let curN : Int := match cur with | some (.vNum n) => n | _ => 0
  match amount with
  | .vNum a => .vNum (curN + a)
  | .vStr s => .vStr (intToDec curN ++ s)
  | _ => .vNull

def applyInc (d : Doc) : Option Doc → Doc
  | none => d
  | some i => i.foldl (fun acc kv => dSet acc kv.1 (incApply (dGet acc kv.1) kv.2)) d

def applyUnset (d : Doc) : Option Doc → Doc
  | none => d
  | some u => u.foldl (fun acc kv => dDel acc kv.1) d

/-- `stripOperators`: drop `$`-keys and operator-object values. -/
def stripOperators (filter : QFilter) : Doc :=
  filter.foldl
    (fun acc kv =>
      if isDollar kv.1 then acc
      else
        match kv.2 with
        | .vObj fs => if fs.any (fun p => isDollar p.1) then acc else dSet acc kv.1 kv.2
        | _ => dSet acc kv.1 kv.2)
    []

/-- The upsert base document: the stripped filter, overlaid with `$set`,
then with the raw `$inc` amounts. -/
def upsertBase (filter : QFilter) (u : UpdateOps) : Doc :=
  let base := applySet (stripOperators filter) u.set
  match u.inc with
  | none => base
  | some i => i.foldl (fun acc kv => dSet acc kv.1 kv.2) base

/-- `insertResult.insertedId || null`. -/
def orNull : Option Str → Option Str
  | some s => if s.isEmpty then none else some s
  | none => none

def dsUpdateOne (st : St) (c : Str) (filter : QFilter) (u : UpdateOps)
    (upsert : Bool) : St × Except StoreErr UpdateResult :=
  match validateCollectionName c with
  | .error e => (st, .error e)
  | .ok () =>
  match sanitizeDocument filter with
  | .error e => (st, .error e)
  | .ok () =>
  match sanitizeUpd u with
  | .error e => (st, .error e)
  | .ok () =>
  match getOrCreateCollection st.kv c with
  | (S, .error e) => (⟨S, st.seed⟩, .error e)
  | (S, .ok meta) =>
  match planQuery filter meta.indexes c with
  | .error e => (⟨S, st.seed⟩, .error e)
  | .ok plan =>
  match executeQuery S plan c filter 1 with
  | .error e => (⟨S, st.seed⟩, .error e)
  | .ok [] =>
    if upsert then
      match insertInternal ⟨S, st.seed⟩ c [upsertBase filter u] with
      | (st', .error e) => (st', .error e)
      | (st', .ok ir) => (st', .ok ⟨0, 0, orNull ir.insertedId⟩)
    else (⟨S, st.seed⟩, .ok ⟨0, 0, none⟩)
  | .ok (doc :: _) =>
    let newDoc := applyUnset (applyInc (applySet doc u.set) u.inc) u.unset
    let docId := docIdOf doc
    match onUpdate S c meta.indexes doc newDoc docId with
    | .error e => (⟨S, st.seed⟩, .error e)
    | .ok S1 =>
      let S2 := kvPut S1 (encodeDocKey c docId) (.docV newDoc)
      (⟨S2, st.seed⟩, .ok ⟨1, 1, none⟩)

def dsDeleteOne (st : St) (c : Str) (filter : QFilter) :
    St × Except StoreErr Nat :=
  match validateCollectionName c with
  | .error e => (st, .error e)
  | .ok () =>
  match sanitizeDocument filter with
  | .error e => (st, .error e)
  | .ok () =>
  match getCollection st.kv c with
  | .error e => (st, .error e)
  | .ok none => (st, .ok 0)
  | .ok (some meta) =>
  match planQuery filter meta.indexes c with
  | .error e => (st, .error e)
  | .ok plan =>
  match executeQuery st.kv plan c filter 1 with
  | .error e => (st, .error e)
  | .ok [] => (st, .ok 0)
  | .ok (doc :: _) =>
    let docId := docIdOf doc
    match onDelete st.kv c meta.indexes doc docId with
    | (S1, .error e) => (⟨S1, st.seed⟩, .error e)
    | (S1, .ok ()) =>
      let S2 := kvDelete S1 (encodeDocKey c docId)
      let S3 := kvPut S2 (metaKey meta.name)
        (.metaV { meta with documentCount := meta.documentCount - 1 })
      (⟨S3, st.seed⟩, .ok 1)

/-- The per-document deletes of one `deleteMany` batch. -/
def delDocs (c : Str) (meta : Metadata) :
    List Doc → KV → KV × Except StoreErr Nat
  | [], S => (S, .ok 0)
  | doc :: rest, S =>
    let docId := docIdOf doc
    match onDelete S c meta.indexes doc docId with
    | (S1, .error e) => (S1, .error e)
    | (S1, .ok ()) =>
      let S2 := kvDelete S1 (encodeDocKey c docId)
      match delDocs c meta rest S2 with
      | (S3, .error e) => (S3, .error e)
      | (S3, .ok n) => (S3, .ok (n + 1))

/-- The re-query loop of `deleteMany` (`BATCH_LIMIT = 5000`). -/
def delManyLoop (c : Str) (meta : Metadata) (filter : QFilter) :
    Nat → KV → Nat → KV × Except StoreErr Nat
  | 0, S, _ => (S, .error errInternal)
  | fuel + 1, S, total =>
    match planQuery filter meta.indexes c with
    | .error e => (S, .error e)
    | .ok plan =>
      match executeQuery S plan c filter 5000 with
      | .error e => (S, .error e)
      | .ok docs =>
        if docs.isEmpty then (S, .ok total)
        else
          match delDocs c meta docs S with
          | (S', .error e) => (S', .error e)
          | (S', .ok n) =>
            if docs.length < 5000 then (S', .ok (total + n))
            else delManyLoop c meta filter fuel S' (total + n)

def dsDeleteMany (st : St) (c : Str) (filter : QFilter) :
    St × Except StoreErr Nat :=
  match validateCollectionName c with
  | .error e => (st, .error e)
  | .ok () =>
  match sanitizeDocument filter with
  | .error e => (st, .error e)
  | .ok () =>
  match getCollection st.kv c with
  | .error e => (st, .error e)
  | .ok none => (st, .ok 0)
  | .ok (some meta) =>
    match delManyLoop c meta filter (st.kv.length + 1) st.kv 0 with
    | (S, .error e) => (⟨S, st.seed⟩, .error e)
    | (S, .ok total) =>
      let S' := kvPut S (metaKey meta.name)
        (.metaV { meta with documentCount := meta.documentCount - total })
      (⟨S', st.seed⟩, .ok total)

def dsCreateIndex (st : St) (c f : Str) (unique : Bool) :
    St × Except StoreErr Str :=
  match validateCollectionName c with
  | .error e => (st, .error e)
  | .ok () =>
  match getOrCreateCollection st.kv c with
  | (S, .error e) => (⟨S, st.seed⟩, .error e)
  | (S, .ok meta) =>
    match meta.indexes.find? (fun idx => idx.field = f) with
    | some existing => (⟨S, st.seed⟩, .ok existing.name)
    | none =>
      match imCreateIndex S meta f unique with
      | (S', .error e) => (⟨S', st.seed⟩, .error e)
      | (S', .ok indexDef) =>
        let meta' := { meta with indexes := meta.indexes ++ [indexDef] }
        let S'' := kvPut S' (metaKey meta'.name) (.metaV meta')
        (⟨S'', st.seed⟩, .ok indexDef.name)

/-! ## Toolkit: evaluating scans and map operations symbolically -/

theorem decode_idxKeyRaw (c f ev id : Str) (hc : ':' ∉ c) (hf : ':' ∉ f)
    (hid : usep ∉ id) :
    decodeIdxKey (idxKeyRaw c f ev id) = some ⟨c, f, ev, id⟩ := by
  rw [idxKeyRaw_eq, decodeIdxKey_shape c f (ev ++ usep :: id) hc hf]
  have hrev : (ev ++ usep :: id).reverse = id.reverse ++ usep :: ev.reverse := by simp
  have hidrev : ∀ y ∈ id.reverse, (y = usep : Bool) = false := by
    intro y hy
    simp
    intro h
    exact hid (h ▸ (List.mem_reverse.mp hy))
  have hlast : lastIdxOf usep (ev ++ usep :: id) = some ev.length := by
    unfold lastIdxOf
    rw [hrev, firstIdxP_append_hit _ hidrev (by simp)]
    simp <;> omega
  rw [hlast]
  dsimp only
  have htake : (ev ++ usep :: id).take ev.length = ev := List.take_left ev _
  have hdrop : (ev ++ usep :: id).drop (ev.length + 1) = id := by
    have hg : ev ++ usep :: id = (ev ++ [usep]) ++ id := by simp
    have hlen : ev.length + 1 = (ev ++ [usep]).length + 0 := by simp
    rw [hg, hlen, drop_len_add, List.drop_zero]
  rw [htake, hdrop]

theorem mem_insertSorted {k x : Str} {l : List Str} :
    x ∈ insertSorted k l ↔ x = k ∨ x ∈ l := by
  induction l with
  | nil => simp [insertSorted]
  | cons y ys ih =>
    rw [insertSorted]
    by_cases h : strLeB k y = true
    · simp [h]
    · simp only [if_neg h, List.mem_cons, ih]
      tauto

theorem mem_sortKeys {x : Str} {l : List Str} : x ∈ sortKeys l ↔ x ∈ l := by
  induction l with
  | nil => simp [sortKeys]
  | cons y ys ih =>
    rw [sortKeys, mem_insertSorted, ih]
    simp

theorem lex_cons_cons {a b : Char} {l m : Str} :
    List.Lex (· < ·) (a :: l) (b :: m) ↔ a < b ∨ (a = b ∧ List.Lex (· < ·) l m) := by
  constructor
  · intro h
    cases h with
    | rel h => exact Or.inl h
    | cons h => exact Or.inr ⟨rfl, h⟩
  · rintro (h | ⟨rfl, h⟩)
    · exact List.Lex.rel h
    · exact List.Lex.cons h

theorem lex_nil_right {l : Str} : ¬ List.Lex (· < ·) l ([] : Str) := by
  intro h
  cases h

theorem char_lt_iff {a b : Char} : a < b ↔ a.toNat < b.toNat := Iff.rfl

theorem char_eq_iff {a b : Char} : a = b ↔ a.toNat = b.toNat := by
  constructor
  · intro h
    rw [h]
  · intro h
    exact Char.ext (UInt32.ext h)

theorem toNat_ofNat_lt {n : Nat} (h : n < 55296) : (Char.ofNat n).toNat = n := by
  have hv : n.isValidChar := Or.inl h
  simp [Char.ofNat, hv, Char.ofNatAux, Char.toNat]
  rfl


theorem strLtB_iff {a b : Str} : strLtB a b = true ↔ List.Lex (· < ·) a b := by
  simp [strLtB]

theorem strLeB_iff {a b : Str} : strLeB a b = true ↔ ¬ List.Lex (· < ·) b a := by
  simp [strLeB, strLtB]

/-- The last character of a prospective scan prefix admits a successor
code unit (true of every key prefix the store builds: they end in `:`,
`\x1F` or a `\x00` pagination byte). -/
def lastOk (p : Str) : Bool :=
  match p.getLast? with
  | some c => decide (c.toNat + 1 < 55296)
  | none => false

/-- On a sorted array of distinct keys, membership of the binary-search
slice `[prefix, prefixEnd)` is exactly the prefix relation. -/
theorem range_iff_pfx : ∀ (p k : Str), lastOk p = true →
    ((strLeB p k && strLtB k (prefixEnd p)) = true ↔ p <+: k)
  | [], _, h => by simp [lastOk] at h
  | [c], k, h => by
    have hc : c.toNat + 1 < 55296 := by simpa [lastOk] using h
    have hofn : (Char.ofNat (c.toNat + 1)).toNat = c.toNat + 1 := toNat_ofNat_lt hc
    cases k with
    | nil =>
      have h1 : strLeB [c] [] = false := by
        have : strLtB [] [c] = true := strLtB_iff.mpr List.Lex.nil
        simp [strLeB, this]
      simp [h1]
    | cons e k' =>
      rw [Bool.and_eq_true, strLeB_iff, strLtB_iff]
      show _ ↔ [c] <+: e :: k'
      rw [List.cons_prefix_cons]
      constructor
      · rintro ⟨hle, hlt⟩
        rcases lex_cons_cons.mp hlt with h1 | ⟨h1, h2⟩
        · have he : e.toNat < c.toNat + 1 := by
            have h2 := char_lt_iff.mp h1
            rw [hofn] at h2
            exact h2
          have hne : ¬ e.toNat < c.toNat := by
            intro hlt2
            exact hle (List.Lex.rel (char_lt_iff.mpr hlt2))
          exact ⟨(char_eq_iff.mpr (by omega)).symm, List.nil_prefix⟩
        · exact absurd h2 lex_nil_right
      · rintro ⟨rfl, -⟩
        constructor
        · intro hl
          rcases lex_cons_cons.mp hl with h1 | ⟨-, h2⟩
          · exact absurd h1 (lt_irrefl _)
          · exact absurd h2 lex_nil_right
        · exact List.Lex.rel (char_lt_iff.mpr (by rw [hofn]; omega))
  | c :: c2 :: rest, k, h => by
    have htail : lastOk (c2 :: rest) = true := by
      rw [lastOk] at h ⊢
      rwa [List.getLast?_cons_cons] at h
    have hpe : prefixEnd (c :: c2 :: rest) = c :: prefixEnd (c2 :: rest) := rfl
    cases k with
    | nil =>
      have h1 : strLeB (c :: c2 :: rest) [] = false := by
        have : strLtB [] (c :: c2 :: rest) = true := strLtB_iff.mpr List.Lex.nil
        simp [strLeB, this]
      simp [h1]
    | cons e k' =>
      rw [Bool.and_eq_true, strLeB_iff, strLtB_iff, hpe]
      show _ ↔ (c :: c2 :: rest) <+: e :: k'
      rw [List.cons_prefix_cons]
      by_cases hec : e = c
      · subst hec
        have ih := range_iff_pfx (c2 :: rest) k' htail
        rw [Bool.and_eq_true, strLeB_iff, strLtB_iff] at ih
        constructor
        · rintro ⟨hle, hlt⟩
          refine ⟨rfl, ih.mp ⟨?_, ?_⟩⟩
          · intro hl
            exact hle (List.Lex.cons hl)
          · rcases lex_cons_cons.mp hlt with h1 | ⟨-, h2⟩
            · exact absurd h1 (lt_irrefl _)
            · exact h2
        · rintro ⟨-, hpre⟩
          obtain ⟨hle, hlt⟩ := ih.mpr hpre
          refine ⟨?_, lex_cons_cons.mpr (Or.inr ⟨rfl, hlt⟩)⟩
          intro hl
          rcases lex_cons_cons.mp hl with h1 | ⟨-, h2⟩
          · exact absurd h1 (lt_irrefl _)
          · exact hle h2
      · constructor
        · rintro ⟨hle, hlt⟩
          rcases Nat.lt_trichotomy e.toNat c.toNat with h1 | h1 | h1
          · exact absurd (List.Lex.rel (char_lt_iff.mpr h1)) hle
          · exact absurd (char_eq_iff.mpr h1) hec
          · rcases lex_cons_cons.mp hlt with h2 | ⟨h2, -⟩
            · have := char_lt_iff.mp h2
              omega
            · exact absurd h2 hec
        · rintro ⟨h1, -⟩
          exact absurd h1.symm hec

theorem inScanRange_pfx {p k : Str} {L : Option Nat} :
    inScanRange ⟨some p, none, none, L⟩ k
      = (strLeB p k && strLtB k (prefixEnd p)) := by
  simp [inScanRange]

theorem kvGet_some_of_mem : ∀ {S : KV} {k : Str}, k ∈ S.map Prod.fst →
    ∃ v, kvGet S k = some v
  | [], _, h => by simp at h
  | (k', v') :: rest, k, h => by
    by_cases he : k' = k
    · exact ⟨v', by rw [kvGet, if_pos he]⟩
    · rw [kvGet, if_neg he]
      apply kvGet_some_of_mem
      rw [List.map_cons] at h
      rcases List.mem_cons.mp h with h1 | h1
      · exact absurd h1.symm he
      · exact h1

theorem kvScan_pfx_eq_nil {S : KV} {p : Str} (hp : lastOk p = true) (L : Option Nat)
    (h : ∀ e ∈ S, ¬ p <+: e.1) : kvScan S ⟨some p, none, none, L⟩ = [] := by
  rw [kvScan]
  have hfil : (sortKeys (S.map Prod.fst)).filter (inScanRange ⟨some p, none, none, L⟩)
      = [] := by
    rw [List.filter_eq_nil_iff]
    intro k hk
    rw [inScanRange_pfx]
    intro hrange
    obtain ⟨e, he, rfl⟩ := List.mem_map.mp (mem_sortKeys.mp hk)
    exact h e he ((range_iff_pfx p e.1 hp).mp hrange)
  rw [hfil]
  cases L <;> simp

instance : Nonempty Val := ⟨Val.oneV⟩

theorem kvScan_pfx_ne_nil {S : KV} {p : Str} (hp : lastOk p = true) {L : Nat}
    (hL : 0 < L) {e : Str × Val} (he : e ∈ S) (hpre : p <+: e.1) :
    kvScan S ⟨some p, none, none, some L⟩ ≠ [] := by
  rw [kvScan]
  have hmem : e.1 ∈ (sortKeys (S.map Prod.fst)).filter
      (inScanRange ⟨some p, none, none, some L⟩) :=
    List.mem_filter.mpr ⟨mem_sortKeys.mpr (List.mem_map.mpr ⟨e, he, rfl⟩),
      by rw [inScanRange_pfx]; exact (range_iff_pfx p e.1 hp).mpr hpre⟩
  set l := (sortKeys (S.map Prod.fst)).filter (inScanRange ⟨some p, none, none, some L⟩)
    with hl
  have hsub : l.take L ≠ [] := by
    intro hnil
    rcases List.take_eq_nil_iff.mp hnil with h0 | h0
    · omega
    · rw [h0] at hmem
      simp at hmem
  match hlt : l.take L with
  | [] => exact absurd hlt hsub
  | k0 :: rest =>
    have hk0 : k0 ∈ S.map Prod.fst := by
      have : k0 ∈ l.take L := by rw [hlt]; simp
      have h2 := List.mem_filter.mp (List.mem_of_mem_take this)
      exact mem_sortKeys.mp h2.1
    obtain ⟨v, hv⟩ := kvGet_some_of_mem hk0
    dsimp only
    rw [hlt, List.filterMap_cons, hv]
    simp

theorem kvGet_put_self {S : KV} {k : Str} {v : Val} :
    kvGet (kvPut S k v) k = some v := by
  induction S with
  | nil => simp [kvPut, kvGet]
  | cons e rest ih =>
    rw [kvPut]
    by_cases he : e.1 = k
    · rw [if_pos he, kvGet, if_pos he]
    · rw [if_neg he, kvGet, if_neg he]
      exact ih

theorem kvGet_put_ne {S : KV} {k k' : Str} {v : Val} (h : k ≠ k') :
    kvGet (kvPut S k v) k' = kvGet S k' := by
  induction S with
  | nil => simp [kvPut, kvGet, h]
  | cons e rest ih =>
    rw [kvPut]
    by_cases he : e.1 = k
    · rw [if_pos he, kvGet, kvGet]
      rw [he]
      rw [if_neg h, if_neg h]
    · rw [if_neg he, kvGet, kvGet]
      by_cases he' : e.1 = k'
      · rw [if_pos he', if_pos he']
      · rw [if_neg he', if_neg he']
        exact ih

theorem kvPut_fresh : ∀ {S : KV} {k : Str} {v : Val}, (∀ e ∈ S, e.1 ≠ k) →
    kvPut S k v = S ++ [(k, v)]
  | [], _, _, _ => rfl
  | e :: rest, k, v, h => by
    rw [kvPut, if_neg (h e (by simp)), List.cons_append]
    rw [kvPut_fresh (fun x hx => h x (by simp [hx]))]

theorem mem_kvPut : ∀ {S : KV} {k : Str} {v : Val} {e : Str × Val},
    e ∈ kvPut S k v → e ∈ S ∨ e = (k, v)
  | [], _, _, _, h => by
    rw [kvPut] at h
    simp at h
    exact Or.inr h
  | x :: rest, k, v, e, h => by
    rw [kvPut] at h
    by_cases hx : x.1 = k
    · rw [if_pos hx] at h
      rcases List.mem_cons.mp h with h | h
      · right
        rw [h, ← hx]
      · left
        simp [h]
    · rw [if_neg hx] at h
      rcases List.mem_cons.mp h with h | h
      · left
        simp [h]
      · rcases mem_kvPut h with h | h
        · left
          simp [h]
        · right
          exact h

/-- Keys that continue after a separator-free segment closed by the
separator agree on the segment: the backbone of index-key prefix
disjointness. -/
theorem sep_prefix_eq {ch : Char} : ∀ (a : Str) {b s t : Str}, ch ∉ a → ch ∉ b →
    ((a ++ ch :: s) <+: (b ++ ch :: t)) → a = b ∧ s <+: t
  | [], b, s, t, _, hb, hpre => by
    cases b with
    | nil =>
      rw [List.nil_append, List.nil_append, List.cons_prefix_cons] at hpre
      exact ⟨rfl, hpre.2⟩
    | cons x b' =>
      rw [List.nil_append, List.cons_append, List.cons_prefix_cons] at hpre
      exfalso
      apply hb
      rw [hpre.1]
      exact List.mem_cons_self x b'
  | y :: a', b, s, t, ha, hb, hpre => by
    cases b with
    | nil =>
      rw [List.cons_append, List.nil_append, List.cons_prefix_cons] at hpre
      exfalso
      apply ha
      rw [← hpre.1]
      exact List.mem_cons_self y a'
    | cons x b' =>
      rw [List.cons_append, List.cons_append, List.cons_prefix_cons] at hpre
      have ih := sep_prefix_eq a' (fun hm => ha (List.mem_cons_of_mem _ hm))
        (fun hm => hb (List.mem_cons_of_mem _ hm)) hpre.2
      exact ⟨by rw [hpre.1, ih.1], ih.2⟩

theorem not_prefix_head {a b : Char} {s t : Str} (h : a ≠ b) :
    ¬ (a :: s) <+: (b :: t) := by
  rw [List.cons_prefix_cons]
  rintro ⟨h1, -⟩
  exact h h1

theorem lastOk_concat {l : Str} {a : Char} (h : a.toNat + 1 < 55296) :
    lastOk (l ++ [a]) = true := by
  rw [lastOk, List.getLast?_concat]
  simpa

theorem lastOk_docPfx (c : Str) : lastOk (docPfx c) = true :=
  lastOk_concat (by decide)

theorem planQuery_nil (indexes : List IndexDef) (c : Str) :
    planQuery [] indexes c
      = .ok ⟨.collectionScan, none, none, none, none, false, 1000⟩ := rfl

/-- When the store holds no document row of the collection, any query
whose plan carries no `startKey` (in particular a collection scan)
returns no documents. -/
theorem executeQuery_no_docs {kv : KV} {plan : QueryPlan} {c : Str}
    {filter : QFilter} {limit : Nat} (hsk : plan.startKey = none)
    (hdocs : ∀ e ∈ kv, ¬ (docPfx c) <+: e.1) :
    executeQuery kv plan c filter limit = .ok [] := by
  unfold executeQuery
  rw [hsk]
  dsimp only
  rw [exeCollLoop]
  rw [show (Option.map (· ++ ['\x00']) (none : Option Str)) = none from rfl]
  rw [kvScan_pfx_eq_nil (lastOk_docPfx c) _ hdocs]
  simp

/-- `c5`: inserting `[{_id:"a"}, {_id:"a"}]` into a fresh store stops
with `DuplicateKey` (11000) at the second document.  The first document
remains stored (its row and index entry exist), but the persisted
`documentCount` stays `0` — not `1 = k-1` — because `insertedIds` is
extended only after a whole 5000-document chunk completes, so the
mid-chunk error path adds nothing to the count. -/
theorem c5_insert_count_on_duplicate :
    (dsInsert ⟨[], 0⟩ (str "users")
      [[(str "_id", Value.vStr (str "a"))], [(str "_id", Value.vStr (str "a"))]]).2
        = .error errDupKey
    ∧ errDupKey.code = 11000
    ∧ kvGet (dsInsert ⟨[], 0⟩ (str "users")
        [[(str "_id", Value.vStr (str "a"))], [(str "_id", Value.vStr (str "a"))]]).1.kv
        (encodeDocKey (str "users") (str "a"))
        = some (.docV [(str "_id", Value.vStr (str "a"))])
    ∧ kvGet (dsInsert ⟨[], 0⟩ (str "users")
        [[(str "_id", Value.vStr (str "a"))], [(str "_id", Value.vStr (str "a"))]]).1.kv
        (metaKey (str "users"))
        = some (.metaV ⟨str "users", [⟨str "_id_", str "_id", true⟩], 0⟩) := by
  refine ⟨by decide, rfl, by decide, by decide⟩

/-- `c7` counterexample: `updateOne` without upsert on a collection that
has no metadata row returns `{matchedCount: 0, modifiedCount: 0}` but
*creates* the metadata row (it calls `getOrCreateCollection`), so the
store state does not stay unchanged. -/
theorem c7_counterexample :
    (dsUpdateOne ⟨[], 0⟩ (str "users") [(str "x", Value.vNum 1)]
      ⟨some [(str "y", Value.vNum 2)], none, none⟩ false).2 = .ok ⟨0, 0, none⟩
    ∧ kvGet (dsUpdateOne ⟨[], 0⟩ (str "users") [(str "x", Value.vNum 1)]
        ⟨some [(str "y", Value.vNum 2)], none, none⟩ false).1.kv
        (metaKey (str "users"))
        = some (.metaV ⟨str "users", [⟨str "_id_", str "_id", true⟩], 0⟩) := by
  refine ⟨by decide, by decide⟩

/-- `c7` amended: `updateOne` without upsert on a collection that has no
metadata row (and no document rows) returns matched 0 / modified 0, and
the one and only state change is the freshly auto-created metadata row
(name, the `_id_` unique index, `documentCount 0`). -/
theorem c7_updateOne_creates_metadata (S : KV) (seed : Nat) (c : Str) (u : UpdateOps)
    (hval : validateCollectionName c = .ok ())
    (hsan : sanitizeUpd u = .ok ())
    (hmeta : kvGet S (metaKey c) = none)
    (hdocs : ∀ e ∈ S, ¬ (docPfx c) <+: e.1) :
    dsUpdateOne ⟨S, seed⟩ c [] u false
      = (⟨kvPut S (metaKey c)
            (.metaV ⟨c, [⟨str "_id_", str "_id", true⟩], 0⟩), seed⟩,
          .ok ⟨0, 0, none⟩) := by
  have hg : getOrCreateCollection S c
      = (kvPut S (metaKey c) (.metaV ⟨c, [⟨str "_id_", str "_id", true⟩], 0⟩),
          .ok ⟨c, [⟨str "_id_", str "_id", true⟩], 0⟩) := by
    unfold getOrCreateCollection
    rw [hval, hmeta]
  have hdocs' : ∀ e ∈ kvPut S (metaKey c)
      (Val.metaV ⟨c, [⟨str "_id_", str "_id", true⟩], 0⟩), ¬ (docPfx c) <+: e.1 := by
    intro e he
    rcases mem_kvPut he with he | he
    · exact hdocs e he
    · rw [he]
      show ¬ (docPfx c) <+: metaKey c
      rw [show docPfx c = 'd' :: (str "oc:" ++ c ++ [':']) from rfl,
        show metaKey c = 'm' :: (str "eta:collection:" ++ c) from rfl]
      exact not_prefix_head (by decide)
  have hexe := @executeQuery_no_docs (kvPut S (metaKey c)
      (Val.metaV ⟨c, [⟨str "_id_", str "_id", true⟩], 0⟩))
    ⟨.collectionScan, none, none, none, none, false, 1000⟩
    c [] 1 rfl hdocs'
  unfold dsUpdateOne
  rw [hval]
  dsimp only
  rw [show sanitizeDocument ([] : Doc) = .ok () from rfl]
  dsimp only
  rw [hsan]
  dsimp only
  rw [hg]
  dsimp only
  rw [planQuery_nil]
  dsimp only
  rw [hexe]
  rfl

theorem c7_updateOne_creates_metadata_witness :
    dsUpdateOne ⟨[], 0⟩ (str "users") []
      ⟨some [(str "y", Value.vNum 2)], none, none⟩ false
      = (⟨kvPut [] (metaKey (str "users"))
            (.metaV ⟨str "users", [⟨str "_id_", str "_id", true⟩], 0⟩), 0⟩,
          .ok ⟨0, 0, none⟩) :=
  c7_updateOne_creates_metadata [] 0 (str "users")
    ⟨some [(str "y", Value.vNum 2)], none, none⟩
    (by decide) (by decide) rfl (by simp)

/-- `c8` counterexample: after inserting `{_id:"a", x:1}`, the update
`updateOne({_id:"a"}, {$set:{x:1}})` leaves the stored document
byte-for-byte unchanged, yet reports `modifiedCount = 1` (the claim
demands `modifiedCount = 0` here). -/
theorem c8_counterexample :
    (dsUpdateOne
      (dsInsert ⟨[], 0⟩ (str "users")
        [[(str "_id", Value.vStr (str "a")), (str "x", Value.vNum 1)]]).1
      (str "users") [(str "_id", Value.vStr (str "a"))]
      ⟨some [(str "x", Value.vNum 1)], none, none⟩ false).2 = .ok ⟨1, 1, none⟩
    ∧ kvGet (dsInsert ⟨[], 0⟩ (str "users")
        [[(str "_id", Value.vStr (str "a")), (str "x", Value.vNum 1)]]).1.kv
        (encodeDocKey (str "users") (str "a"))
        = some (.docV [(str "_id", Value.vStr (str "a")), (str "x", Value.vNum 1)])
    ∧ kvGet (dsUpdateOne
        (dsInsert ⟨[], 0⟩ (str "users")
          [[(str "_id", Value.vStr (str "a")), (str "x", Value.vNum 1)]]).1
        (str "users") [(str "_id", Value.vStr (str "a"))]
        ⟨some [(str "x", Value.vNum 1)], none, none⟩ false).1.kv
        (encodeDocKey (str "users") (str "a"))
        = some (.docV [(str "_id", Value.vStr (str "a")), (str "x", Value.vNum 1)]) := by
  refine ⟨by decide, by decide, by decide⟩

/-- `c8` amended: whenever `updateOne` succeeds it reports
`modifiedCount = matchedCount` (`1/1` on any match — even a no-op
update — and `0/0` otherwise); it never reports `matchedCount = 1,
modifiedCount = 0`. -/
theorem c8_updateOne_modified_eq_matched (st : St) (c : Str) (filter : QFilter)
    (u : UpdateOps) (upsert : Bool) (st' : St) (r : UpdateResult)
    (h : dsUpdateOne st c filter u upsert = (st', .ok r)) :
    r.modifiedCount = r.matchedCount ∧ r.matchedCount ≤ 1 := by
  unfold dsUpdateOne at h
  repeat' (first | split at h | dsimp only at h)
  all_goals
    first
    | (injection h with h1 h2; exact Except.noConfusion h2)
    | (injection h with h1 h2; injection h2 with h3; rw [← h3]; refine ⟨rfl, ?_⟩;
        dsimp only; omega)

theorem c8_updateOne_modified_eq_matched_witness :
    (⟨1, 1, none⟩ : UpdateResult).modifiedCount
        = (⟨1, 1, none⟩ : UpdateResult).matchedCount
    ∧ (⟨1, 1, none⟩ : UpdateResult).matchedCount ≤ 1 :=
  c8_updateOne_modified_eq_matched
    (dsInsert ⟨[], 0⟩ (str "users")
      [[(str "_id", Value.vStr (str "a")), (str "x", Value.vNum 1)]]).1
    (str "users") [(str "_id", Value.vStr (str "a"))]
    ⟨some [(str "x", Value.vNum 1)], none, none⟩ false
    (dsUpdateOne
      (dsInsert ⟨[], 0⟩ (str "users")
        [[(str "_id", Value.vStr (str "a")), (str "x", Value.vNum 1)]]).1
      (str "users") [(str "_id", Value.vStr (str "a"))]
      ⟨some [(str "x", Value.vNum 1)], none, none⟩ false).1
    ⟨1, 1, none⟩
    (Prod.ext_iff.mpr ⟨rfl, by decide⟩)

/-! ## Claim C2: index-row maintenance -/

/-- The index rows of index `(c, f)` that belong to document `id`:
keys under the index prefix whose decoded id is `id`. -/
def idxRowsFor (S : KV) (c f id : Str) : List Str :=
  (S.map Prod.fst).filter
    (fun k => (idxPfx c f).isPrefixOf k && ((decodeIdxKey k).map DecIdx.id = some id))

/-- The index rows document `d` stored under `docId` *should* have for
index field `f`: exactly one when `d` has a non-null encodable value at
`f`, none otherwise. -/
def rowSpec (c : Str) (d : Doc) (docId : Str) (f : Str) : List Str :=
  match dGet d f with
  | none => []
  | some v =>
    if v = .vNull then []
    else
      match encodeValue v with
      | .ok ev => [idxKeyRaw c f ev docId]
      | .error _ => []

/-- `c2` counterexample: insert `{_id:"a", f:1}`, then
`updateOne({_id:"a"}, {$set:{_id:"b"}})`, then
`updateOne({f:1}, {$set:{f:2}})`.  All three mutations succeed, and the
final store has a document row whose `_id` is `"b"` (non-null, and the
collection has the unique `_id_` index) with *no* `_id_` index row for
it: `$set` on `_id` rewrites the document body but keeps the old row
key and old index id, and the follow-up update then stores a second row
under the new id without any index maintenance for `_id`. -/
theorem c2_counterexample :
    (dsUpdateOne
      (dsUpdateOne
        (dsInsert ⟨[], 0⟩ (str "users")
          [[(str "_id", Value.vStr (str "a")), (str "f", Value.vNum 1)]]).1
        (str "users") [(str "_id", Value.vStr (str "a"))]
        ⟨some [(str "_id", Value.vStr (str "b"))], none, none⟩ false).1
      (str "users") [(str "f", Value.vNum 1)]
      ⟨some [(str "f", Value.vNum 2)], none, none⟩ false).2 = .ok ⟨1, 1, none⟩
    ∧ kvGet (dsUpdateOne
        (dsUpdateOne
          (dsInsert ⟨[], 0⟩ (str "users")
            [[(str "_id", Value.vStr (str "a")), (str "f", Value.vNum 1)]]).1
          (str "users") [(str "_id", Value.vStr (str "a"))]
          ⟨some [(str "_id", Value.vStr (str "b"))], none, none⟩ false).1
        (str "users") [(str "f", Value.vNum 1)]
        ⟨some [(str "f", Value.vNum 2)], none, none⟩ false).1.kv
        (encodeDocKey (str "users") (str "b"))
        = some (.docV [(str "_id", Value.vStr (str "b")), (str "f", Value.vNum 2)])
    ∧ dGet [(str "_id", Value.vStr (str "b")), (str "f", Value.vNum 2)] (str "_id")
        = some (.vStr (str "b"))
    ∧ kvGet (dsUpdateOne
        (dsUpdateOne
          (dsInsert ⟨[], 0⟩ (str "users")
            [[(str "_id", Value.vStr (str "a")), (str "f", Value.vNum 1)]]).1
          (str "users") [(str "_id", Value.vStr (str "a"))]
          ⟨some [(str "_id", Value.vStr (str "b"))], none, none⟩ false).1
        (str "users") [(str "f", Value.vNum 1)]
        ⟨some [(str "f", Value.vNum 2)], none, none⟩ false).1.kv
        (metaKey (str "users"))
        = some (.metaV ⟨str "users", [⟨str "_id_", str "_id", true⟩], 1⟩)
    ∧ idxRowsFor (dsUpdateOne
        (dsUpdateOne
          (dsInsert ⟨[], 0⟩ (str "users")
            [[(str "_id", Value.vStr (str "a")), (str "f", Value.vNum 1)]]).1
          (str "users") [(str "_id", Value.vStr (str "a"))]
          ⟨some [(str "_id", Value.vStr (str "b"))], none, none⟩ false).1
        (str "users") [(str "f", Value.vNum 1)]
        ⟨some [(str "f", Value.vNum 2)], none, none⟩ false).1.kv
        (str "users") (str "_id") (str "b") = [] := by
  refine ⟨by decide, by decide, by decide, by decide, by decide⟩

theorem filter_singleton_of_nodup {α : Type} {l : List α} {p : α → Bool} {k : α}
    (hnd : l.Nodup) (hch : ∀ x ∈ l, (p x = true ↔ x = k)) (hk : k ∈ l) :
    l.filter p = [k] := by
  induction l with
  | nil => simp at hk
  | cons x rest ih =>
    obtain ⟨hx, hndr⟩ := List.nodup_cons.mp hnd
    by_cases hxk : x = k
    · subst hxk
      rw [List.filter_cons_of_pos ((hch x (by simp)).mpr rfl)]
      have hrest : rest.filter p = [] := by
        rw [List.filter_eq_nil_iff]
        intro y hy hpy
        exact hx ((hch y (by simp [hy])).mp hpy ▸ hy)
      rw [hrest]
    · have hpx : ¬ p x = true := fun hp => hxk ((hch x (by simp)).mp hp)
      rw [List.filter_cons_of_neg (by simpa using hpx)]
      rcases List.mem_cons.mp hk with h | h
      · exact absurd h.symm hxk
      · exact ih hndr (fun y hy => hch y (by simp [hy])) h

theorem keys_kvPut_mem {S : KV} {k : Str} {v : Val} {q : Str} :
    q ∈ (kvPut S k v).map Prod.fst ↔ q ∈ S.map Prod.fst ∨ q = k := by
  induction S with
  | nil => simp [kvPut]
  | cons e rest ih =>
    rw [kvPut]
    by_cases he : e.1 = k
    · rw [if_pos he]
      subst he
      constructor
      · exact fun h => Or.inl h
      · rintro (h | rfl)
        · exact h
        · rw [List.map_cons]
          exact List.mem_cons_self _ _
    · rw [if_neg he]
      rw [List.map_cons, List.map_cons, List.mem_cons, List.mem_cons, ih]
      tauto

theorem nodup_keys_kvPut {S : KV} {k : Str} {v : Val}
    (h : (S.map Prod.fst).Nodup) : ((kvPut S k v).map Prod.fst).Nodup := by
  induction S with
  | nil => simp [kvPut]
  | cons e rest ih =>
    obtain ⟨he, hr⟩ := by
      rw [List.map_cons] at h
      exact List.nodup_cons.mp h
    rw [kvPut]
    by_cases hek : e.1 = k
    · rw [if_pos hek, List.map_cons]
      exact List.nodup_cons.mpr ⟨he, hr⟩
    · rw [if_neg hek, List.map_cons]
      refine List.nodup_cons.mpr ⟨?_, ih hr⟩
      intro hmem
      rcases keys_kvPut_mem.mp hmem with h1 | h1
      · exact he h1
      · exact hek h1

theorem keys_kvDelete_sub {S : KV} {k0 q : Str} :
    q ∈ (kvDelete S k0).map Prod.fst → q ∈ S.map Prod.fst := by
  induction S with
  | nil => simp [kvDelete]
  | cons e rest ih =>
    rw [kvDelete]
    by_cases he : e.1 = k0
    · rw [if_pos he]
      intro h
      simp [h]
    · rw [if_neg he, List.map_cons, List.map_cons]
      intro h
      rcases List.mem_cons.mp h with h | h
      · simp [h]
      · simp [ih h]

theorem keys_kvDelete_mem {S : KV} {k0 q : Str} (hnd : (S.map Prod.fst).Nodup) :
    q ∈ (kvDelete S k0).map Prod.fst ↔ q ∈ S.map Prod.fst ∧ q ≠ k0 := by
  induction S with
  | nil => simp [kvDelete]
  | cons e rest ih =>
    obtain ⟨he, hr⟩ := by
      rw [List.map_cons] at hnd
      exact List.nodup_cons.mp hnd
    rw [kvDelete]
    by_cases hek : e.1 = k0
    · rw [if_pos hek]
      subst hek
      constructor
      · intro h
        refine ⟨?_, fun hq => he (hq ▸ h)⟩
        rw [List.map_cons]
        exact List.mem_cons_of_mem _ h
      · rintro ⟨h1, h2⟩
        rw [List.map_cons] at h1
        rcases List.mem_cons.mp h1 with h | h
        · exact absurd h h2
        · exact h
    · rw [if_neg hek, List.map_cons, List.map_cons]
      constructor
      · intro h
        rcases List.mem_cons.mp h with h | h
        · exact ⟨List.mem_cons.mpr (Or.inl h), h ▸ hek⟩
        · obtain ⟨h1, h2⟩ := (ih hr).mp h
          exact ⟨List.mem_cons.mpr (Or.inr h1), h2⟩
      · rintro ⟨h1, h2⟩
        rcases List.mem_cons.mp h1 with h | h
        · exact List.mem_cons.mpr (Or.inl h)
        · exact List.mem_cons.mpr (Or.inr ((ih hr).mpr ⟨h, h2⟩))

theorem nodup_keys_kvDelete {S : KV} {k0 : Str}
    (h : (S.map Prod.fst).Nodup) : ((kvDelete S k0).map Prod.fst).Nodup := by
  induction S with
  | nil => simp [kvDelete]
  | cons e rest ih =>
    obtain ⟨he, hr⟩ := by
      rw [List.map_cons] at h
      exact List.nodup_cons.mp h
    rw [kvDelete]
    by_cases hek : e.1 = k0
    · rw [if_pos hek]
      exact hr
    · rw [if_neg hek, List.map_cons]
      exact List.nodup_cons.mpr ⟨fun hm => he (keys_kvDelete_sub hm), ih hr⟩

theorem keys_kvPutList_mem {l : List (Str × Val)} :
    ∀ {S : KV} {q : Str},
      q ∈ (kvPutList S l).map Prod.fst ↔ q ∈ S.map Prod.fst ∨ q ∈ l.map Prod.fst := by
  induction l with
  | nil => simp [kvPutList]
  | cons e rest ih =>
    intro S q
    show q ∈ (kvPutList (kvPut S e.1 e.2) rest).map Prod.fst ↔ _
    rw [ih, keys_kvPut_mem]
    simp
    tauto

theorem nodup_keys_kvPutList {l : List (Str × Val)} :
    ∀ {S : KV}, (S.map Prod.fst).Nodup → ((kvPutList S l).map Prod.fst).Nodup := by
  induction l with
  | nil => exact fun h => h
  | cons e rest ih =>
    intro S h
    exact ih (nodup_keys_kvPut h)

theorem keys_kvDelList_mem {l : List Str} :
    ∀ {S : KV} {q : Str}, (S.map Prod.fst).Nodup →
      (q ∈ (kvDelList S l).map Prod.fst ↔ q ∈ S.map Prod.fst ∧ q ∉ l) := by
  induction l with
  | nil => simp [kvDelList]
  | cons k0 rest ih =>
    intro S q hnd
    show q ∈ (kvDelList (kvDelete S k0) rest).map Prod.fst ↔ _
    rw [ih (nodup_keys_kvDelete hnd), keys_kvDelete_mem hnd]
    simp
    tauto

theorem nodup_keys_kvDelList {l : List Str} :
    ∀ {S : KV}, (S.map Prod.fst).Nodup → ((kvDelList S l).map Prod.fst).Nodup := by
  induction l with
  | nil => exact fun h => h
  | cons k0 rest ih =>
    intro S h
    exact ih (nodup_keys_kvDelete h)

theorem idxPfx_eq_app (c f : Str) :
    idxPfx c f = (str "idx:" ++ c ++ [':']) ++ (f ++ ':' :: ([] : Str)) := by
  simp [idxPfx]

theorem idxKeyRaw_eq_app (c f ev id : Str) :
    idxKeyRaw c f ev id
      = (str "idx:" ++ c ++ [':']) ++ (f ++ ':' :: (ev ++ usep :: id)) := by
  simp [idxKeyRaw, idxPfx]

theorem idxPfx_prefix_key_iff {c f f' ev id : Str} (hf : ':' ∉ f) (hf' : ':' ∉ f') :
    (idxPfx c f <+: idxKeyRaw c f' ev id) ↔ f = f' := by
  rw [idxPfx_eq_app, idxKeyRaw_eq_app, List.prefix_append_right_inj]
  constructor
  · intro h
    exact (sep_prefix_eq f hf hf' h).1
  · rintro rfl
    rw [List.prefix_append_right_inj, List.cons_prefix_cons]
    exact ⟨rfl, List.nil_prefix⟩

theorem rowPred_idxKeyRaw {c f f' ev id docId : Str} (hc : ':' ∉ c) (hf : ':' ∉ f)
    (hf' : ':' ∉ f') (hid : usep ∉ id) :
    (((idxPfx c f).isPrefixOf (idxKeyRaw c f' ev id)
        && ((decodeIdxKey (idxKeyRaw c f' ev id)).map DecIdx.id = some docId)) = true)
      ↔ (f = f' ∧ id = docId) := by
  rw [Bool.and_eq_true, List.isPrefixOf_iff_prefix, idxPfx_prefix_key_iff hf hf',
    decode_idxKeyRaw c f' ev id hc hf' hid]
  simp

/-- What `onInsert` phase 1 contributes for one index. -/
def insPutOf (c : Str) (doc : Doc) (docId : Str) (i : IndexDef) : Option (Str × Val) :=
  match dGet doc i.field with
  | none => none
  | some v =>
    if v = Value.vNull then none
    else
      match encodeValue v with
      | .ok ev => some (idxKeyRaw c i.field ev docId, Val.oneV)
      | .error _ => none

theorem onInsertTail {S : KV} {c : Str} {doc : Doc} {docId : Str} {i : IndexDef}
    {rest : List IndexDef} {v : Value} {puts : List (Str × Val)}
    (h : (do
        let key ← encodeIdxKey c i.field v docId
        let puts' ← onInsertPhase1 S c doc docId rest
        pure ((key, Val.oneV) :: puts')) = Except.ok puts) :
    ∃ ev puts', encodeValue v = .ok ev ∧ onInsertPhase1 S c doc docId rest = .ok puts'
      ∧ puts = (idxKeyRaw c i.field ev docId, Val.oneV) :: puts' := by
  cases henc : encodeValue v with
  | error e =>
    rw [show encodeIdxKey c i.field v docId = .error e from by
      rw [encodeIdxKey, henc]; rfl] at h
    simp only [bind, Except.bind] at h
    exact Except.noConfusion h
  | ok ev =>
    rw [show encodeIdxKey c i.field v docId = .ok (idxKeyRaw c i.field ev docId) from by
      rw [encodeIdxKey, henc]; rfl] at h
    cases hrec : onInsertPhase1 S c doc docId rest with
    | error e =>
      rw [hrec] at h
      simp only [bind, Except.bind] at h
      exact Except.noConfusion h
    | ok puts' =>
      rw [hrec] at h
      have h3 : Except.ok ((idxKeyRaw c i.field ev docId, Val.oneV) :: puts')
          = Except.ok puts := h
      injection h3 with h4
      exact ⟨ev, puts', rfl, rfl, h4.symm⟩

theorem onInsertPhase1_eq {S : KV} {c : Str} {doc : Doc} {docId : Str} :
    ∀ {indexes : List IndexDef} {puts : List (Str × Val)},
      onInsertPhase1 S c doc docId indexes = .ok puts →
      puts = indexes.filterMap (insPutOf c doc docId)
  | [], puts, h => by
    injection h with h1
    rw [← h1]
    rfl
  | i :: rest, puts, h => by
    rw [onInsertPhase1] at h
    rw [List.filterMap_cons]
    cases hv : dGet doc i.field with
    | none =>
      rw [hv] at h
      rw [show insPutOf c doc docId i = none from by rw [insPutOf, hv]]
      exact onInsertPhase1_eq h
    | some v =>
      rw [hv] at h
      dsimp only at h
      by_cases hnull : v = Value.vNull
      · rw [if_pos hnull] at h
        rw [show insPutOf c doc docId i = none from by
          simp [insPutOf, hv, hnull]]
        exact onInsertPhase1_eq h
      · rw [if_neg hnull] at h
        have h2 : (do
            let key ← encodeIdxKey c i.field v docId
            let puts' ← onInsertPhase1 S c doc docId rest
            pure ((key, Val.oneV) :: puts')) = Except.ok puts := by
          by_cases hu : i.unique = true
          · rw [if_pos hu] at h
            cases hcu : checkUnique S c i v docId false with
            | error e =>
              rw [hcu] at h
              simp only [bind, Except.bind] at h
              exact Except.noConfusion h
            | ok u =>
              rw [hcu] at h
              exact h
          · rw [if_neg hu] at h
            exact h
        obtain ⟨ev, puts', henc, hrec, hput⟩ := onInsertTail h2
        rw [hput,
          show insPutOf c doc docId i = some (idxKeyRaw c i.field ev docId, Val.oneV)
            from by simp [insPutOf, hv, hnull, henc]]
        rw [onInsertPhase1_eq hrec]

/-- What `onDelete` (and the delete half of `onUpdate`) removes for one
index. -/
def delKeyOf (c : Str) (doc : Doc) (docId : Str) (i : IndexDef) : Option Str :=
  match dGet doc i.field with
  | none => none
  | some v =>
    if v = Value.vNull then none
    else
      match encodeValue v with
      | .ok ev => some (idxKeyRaw c i.field ev docId)
      | .error _ => none

theorem onDelete_ok_eq {c : Str} {doc : Doc} {docId : Str} :
    ∀ {indexes : List IndexDef} {S S' : KV},
      onDelete S c indexes doc docId = (S', .ok ()) →
      S' = kvDelList S (indexes.filterMap (delKeyOf c doc docId))
  | [], S, S', h => by
    injection h with h1 h2
    rw [← h1]
    rfl
  | i :: rest, S, S', h => by
    rw [onDelete] at h
    rw [List.filterMap_cons]
    cases hv : dGet doc i.field with
    | none =>
      rw [hv] at h
      rw [show delKeyOf c doc docId i = none from by rw [delKeyOf, hv]]
      exact onDelete_ok_eq h
    | some v =>
      rw [hv] at h
      dsimp only at h
      by_cases hnull : v = Value.vNull
      · rw [if_pos hnull] at h
        rw [show delKeyOf c doc docId i = none from by simp [delKeyOf, hv, hnull]]
        exact onDelete_ok_eq h
      · rw [if_neg hnull] at h
        cases henc : encodeValue v with
        | error e =>
          rw [show encodeIdxKey c i.field v docId = .error e from by
            rw [encodeIdxKey, henc]; rfl] at h
          injection h with h1 h2
          exact Except.noConfusion h2
        | ok ev =>
          rw [show encodeIdxKey c i.field v docId = .ok (idxKeyRaw c i.field ev docId)
            from by rw [encodeIdxKey, henc]; rfl] at h
          rw [show delKeyOf c doc docId i = some (idxKeyRaw c i.field ev docId) from by
            simp [delKeyOf, hv, hnull, henc]]
          exact onDelete_ok_eq h

def updDelOf (c : Str) (oldDoc newDoc : Doc) (docId : Str) (i : IndexDef) : Option Str :=
  if jsonOpt (dGet oldDoc i.field) = jsonOpt (dGet newDoc i.field) then none
  else delKeyOf c oldDoc docId i

def updPutOf (c : Str) (oldDoc newDoc : Doc) (docId : Str) (i : IndexDef) :
    Option (Str × Val) :=
  if jsonOpt (dGet oldDoc i.field) = jsonOpt (dGet newDoc i.field) then none
  else insPutOf c newDoc docId i

theorem updDelPart_spec {c : Str} {oldDoc : Doc} {docId : Str} {i : IndexDef}
    {l : List Str} (h : updDelPart c oldDoc docId i = .ok l) :
    l = (delKeyOf c oldDoc docId i).toList := by
  rw [updDelPart] at h
  cases hv : dGet oldDoc i.field with
  | none =>
    rw [hv] at h
    injection h with h1
    rw [← h1]
    rw [show delKeyOf c oldDoc docId i = none from by rw [delKeyOf, hv]]
    rfl
  | some v =>
    rw [hv] at h
    dsimp only at h
    by_cases hnull : v = Value.vNull
    · rw [if_pos hnull] at h
      injection h with h1
      rw [← h1, show delKeyOf c oldDoc docId i = none from by
        simp [delKeyOf, hv, hnull]]
      rfl
    · rw [if_neg hnull] at h
      cases henc : encodeValue v with
      | error e =>
        rw [show encodeIdxKey c i.field v docId = .error e from by
          rw [encodeIdxKey, henc]; rfl] at h
        simp only [bind, Except.bind] at h
        exact Except.noConfusion h
      | ok ev =>
        rw [show encodeIdxKey c i.field v docId = .ok (idxKeyRaw c i.field ev docId)
          from by rw [encodeIdxKey, henc]; rfl] at h
        have h3 : Except.ok [idxKeyRaw c i.field ev docId] = Except.ok l := h
        injection h3 with h1
        rw [← h1, show delKeyOf c oldDoc docId i = some (idxKeyRaw c i.field ev docId)
          from by simp [delKeyOf, hv, hnull, henc]]
        rfl

theorem updPutPart_spec {S : KV} {c : Str} {newDoc : Doc} {docId : Str} {i : IndexDef}
    {l : List (Str × Val)} (h : updPutPart S c newDoc docId i = .ok l) :
    l = (insPutOf c newDoc docId i).toList := by
  rw [updPutPart] at h
  cases hv : dGet newDoc i.field with
  | none =>
    rw [hv] at h
    injection h with h1
    rw [← h1]
    rw [show insPutOf c newDoc docId i = none from by rw [insPutOf, hv]]
    rfl
  | some v =>
    rw [hv] at h
    dsimp only at h
    by_cases hnull : v = Value.vNull
    · rw [if_pos hnull] at h
      injection h with h1
      rw [← h1, show insPutOf c newDoc docId i = none from by
        simp [insPutOf, hv, hnull]]
      rfl
    · rw [if_neg hnull] at h
      have h2 : (do
          let k ← encodeIdxKey c i.field v docId
          pure [(k, Val.oneV)]) = Except.ok l := by
        by_cases hu : i.unique = true
        · rw [if_pos hu] at h
          cases hcu : checkUnique S c i v docId true with
          | error e =>
            rw [hcu] at h
            simp only [bind, Except.bind] at h
            exact Except.noConfusion h
          | ok u =>
            rw [hcu] at h
            exact h
        · rw [if_neg hu] at h
          exact h
      cases henc : encodeValue v with
      | error e =>
        rw [show encodeIdxKey c i.field v docId = .error e from by
          rw [encodeIdxKey, henc]; rfl] at h2
        simp only [bind, Except.bind] at h2
        exact Except.noConfusion h2
      | ok ev =>
        rw [show encodeIdxKey c i.field v docId = .ok (idxKeyRaw c i.field ev docId)
          from by rw [encodeIdxKey, henc]; rfl] at h2
        have h3 : Except.ok [(idxKeyRaw c i.field ev docId, Val.oneV)] = Except.ok l := h2
        injection h3 with h1
        rw [← h1, show insPutOf c newDoc docId i
            = some (idxKeyRaw c i.field ev docId, Val.oneV)
          from by simp [insPutOf, hv, hnull, henc]]
        rfl

theorem onUpdateTail {S : KV} {c : Str} {oldDoc newDoc : Doc} {docId : Str}
    {rest : List IndexDef} {dels : List Str} {puts : List (Str × Val)}
    {l₁ : List Str} {l₂ : List (Str × Val)}
    (h : (do
        let (ds, ps) ← onUpdatePhase1 S c oldDoc newDoc docId rest
        pure (l₁ ++ ds, l₂ ++ ps)) = Except.ok (dels, puts)) :
    ∃ ds ps, onUpdatePhase1 S c oldDoc newDoc docId rest = .ok (ds, ps)
      ∧ dels = l₁ ++ ds ∧ puts = l₂ ++ ps := by
  cases hrec : onUpdatePhase1 S c oldDoc newDoc docId rest with
  | error e =>
    rw [hrec] at h
    simp only [bind, Except.bind] at h
    exact Except.noConfusion h
  | ok r =>
    rw [hrec] at h
    have h3 : Except.ok (l₁ ++ r.1, l₂ ++ r.2) = Except.ok (dels, puts) := h
    injection h3 with h4
    injection h4 with h5 h6
    exact ⟨r.1, r.2, rfl, h5.symm, h6.symm⟩

theorem onUpdatePhase1_eq {S : KV} {c : Str} {oldDoc newDoc : Doc} {docId : Str} :
    ∀ {indexes : List IndexDef} {dels : List Str} {puts : List (Str × Val)},
      onUpdatePhase1 S c oldDoc newDoc docId indexes = .ok (dels, puts) →
      dels = indexes.filterMap (updDelOf c oldDoc newDoc docId)
      ∧ puts = indexes.filterMap (updPutOf c oldDoc newDoc docId)
  | [], dels, puts, h => by
    injection h with h1
    injection h1 with h2 h3
    rw [← h2, ← h3]
    exact ⟨rfl, rfl⟩
  | i :: rest, dels, puts, h => by
    rw [onUpdatePhase1] at h
    rw [List.filterMap_cons, List.filterMap_cons]
    by_cases hskip : jsonOpt (dGet oldDoc i.field) = jsonOpt (dGet newDoc i.field)
    · rw [if_pos hskip] at h
      obtain ⟨h1, h2⟩ := onUpdatePhase1_eq h
      rw [show updDelOf c oldDoc newDoc docId i = none from by rw [updDelOf, if_pos hskip],
        show updPutOf c oldDoc newDoc docId i = none from by rw [updPutOf, if_pos hskip]]
      exact ⟨h1, h2⟩
    · rw [if_neg hskip] at h
      rw [show updDelOf c oldDoc newDoc docId i = delKeyOf c oldDoc docId i from by
        rw [updDelOf, if_neg hskip]]
      rw [show updPutOf c oldDoc newDoc docId i = insPutOf c newDoc docId i from by
        rw [updPutOf, if_neg hskip]]
      cases hd : updDelPart c oldDoc docId i with
      | error e =>
        rw [hd] at h
        simp only [bind, Except.bind] at h
        exact Except.noConfusion h
      | ok l₁ =>
        rw [hd] at h
        cases hp : updPutPart S c newDoc docId i with
        | error e =>
          rw [hp] at h
          simp only [bind, Except.bind] at h
          exact Except.noConfusion h
        | ok l₂ =>
          rw [hp] at h
          obtain ⟨ds, ps, hrec, h1, h2⟩ := onUpdateTail h
          obtain ⟨ih1, ih2⟩ := onUpdatePhase1_eq hrec
          constructor
          · rw [h1, ih1, updDelPart_spec hd]
            cases delKeyOf c oldDoc docId i <;> rfl
          · rw [h2, ih2, updPutPart_spec hp]
            cases insPutOf c newDoc docId i <;> rfl

theorem insPutOf_unpack {c : Str} {doc : Doc} {docId : Str} {i : IndexDef}
    {p : Str × Val} (h : insPutOf c doc docId i = some p) :
    ∃ v ev, dGet doc i.field = some v ∧ v ≠ Value.vNull ∧ encodeValue v = .ok ev
      ∧ p = (idxKeyRaw c i.field ev docId, Val.oneV) := by
  rw [insPutOf] at h
  cases hv : dGet doc i.field with
  | none =>
    rw [hv] at h
    exact Option.noConfusion h
  | some v =>
    rw [hv] at h
    dsimp only at h
    by_cases hnull : v = Value.vNull
    · rw [if_pos hnull] at h
      exact Option.noConfusion h
    · rw [if_neg hnull] at h
      cases henc : encodeValue v with
      | error e =>
        rw [henc] at h
        exact Option.noConfusion h
      | ok ev =>
        rw [henc] at h
        injection h with h1
        exact ⟨v, ev, rfl, hnull, henc, h1.symm⟩

theorem delKeyOf_unpack {c : Str} {doc : Doc} {docId : Str} {i : IndexDef}
    {k : Str} (h : delKeyOf c doc docId i = some k) :
    ∃ v ev, dGet doc i.field = some v ∧ v ≠ Value.vNull ∧ encodeValue v = .ok ev
      ∧ k = idxKeyRaw c i.field ev docId := by
  rw [delKeyOf] at h
  cases hv : dGet doc i.field with
  | none =>
    rw [hv] at h
    exact Option.noConfusion h
  | some v =>
    rw [hv] at h
    dsimp only at h
    by_cases hnull : v = Value.vNull
    · rw [if_pos hnull] at h
      exact Option.noConfusion h
    · rw [if_neg hnull] at h
      cases henc : encodeValue v with
      | error e =>
        rw [henc] at h
        exact Option.noConfusion h
      | ok ev =>
        rw [henc] at h
        injection h with h1
        exact ⟨v, ev, rfl, hnull, henc, h1.symm⟩

theorem insPut_fst (c : Str) (doc : Doc) (docId : Str) (i : IndexDef) :
    (insPutOf c doc docId i).map Prod.fst = delKeyOf c doc docId i := by
  rw [insPutOf, delKeyOf]
  cases hv : dGet doc i.field with
  | none => rfl
  | some v =>
    dsimp only
    by_cases hnull : v = Value.vNull
    · rw [if_pos hnull, if_pos hnull]
      rfl
    · rw [if_neg hnull, if_neg hnull]
      cases henc : encodeValue v <;> rfl

theorem rowSpec_eq_delKey (c : Str) (doc : Doc) (docId : Str) (i : IndexDef) :
    rowSpec c doc docId i.field = (delKeyOf c doc docId i).toList := by
  rw [rowSpec, delKeyOf]
  cases hv : dGet doc i.field with
  | none => rfl
  | some v =>
    dsimp only
    by_cases hnull : v = Value.vNull
    · rw [if_pos hnull, if_pos hnull]
      rfl
    · rw [if_neg hnull, if_neg hnull]
      cases henc : encodeValue v <;> rfl

/-- Master lemma: when the row predicate on the keys of a state is
characterized by an optional single key that is present when expected,
the row list is exactly that option. -/
theorem idxRowsFor_eq {S'' : KV} {c f docId : Str} {spec : Option Str}
    (hnd : (S''.map Prod.fst).Nodup)
    (hch : ∀ k ∈ S''.map Prod.fst,
      ((((idxPfx c f).isPrefixOf k
          && ((decodeIdxKey k).map DecIdx.id = some docId)) = true)
        ↔ spec = some k))
    (hmem : ∀ k, spec = some k → k ∈ S''.map Prod.fst) :
    idxRowsFor S'' c f docId = spec.toList := by
  cases hspec : spec with
  | none =>
    rw [idxRowsFor, show (none : Option Str).toList = [] from rfl,
      List.filter_eq_nil_iff]
    intro k hk hp
    rw [hspec] at hch
    exact Option.noConfusion ((hch k hk).mp hp)
  | some key =>
    rw [idxRowsFor, show (some key).toList = [key] from rfl]
    rw [hspec] at hch hmem
    refine filter_singleton_of_nodup hnd ?_ (hmem key rfl)
    intro k hk
    rw [hch k hk]
    constructor
    · intro h
      injection h with h1
      exact h1.symm
    · rintro rfl
      rfl

theorem onInsert_rows {S : KV} {c : Str} {indexes : List IndexDef} {doc : Doc}
    {docId : Str} {S' : KV}
    (hc : ':' ∉ c) (hid : usep ∉ docId)
    (hfs : ∀ i ∈ indexes, ':' ∉ i.field)
    (hnd : (indexes.map IndexDef.field).Nodup)
    (hkeys : (S.map Prod.fst).Nodup)
    (h : onInsert S c indexes doc docId = .ok S')
    (hfresh : ∀ i ∈ indexes, idxRowsFor S c i.field docId = [])
    {i : IndexDef} (hi : i ∈ indexes) :
    idxRowsFor S' c i.field docId = rowSpec c doc docId i.field := by
  rw [onInsert] at h
  cases hph : onInsertPhase1 S c doc docId indexes with
  | error e =>
    rw [hph] at h
    simp only [bind, Except.bind] at h
    exact Except.noConfusion h
  | ok puts =>
    rw [hph] at h
    have hS' : S' = kvPutList S puts := by
      have h2 : Except.ok (kvPutList S puts) = Except.ok S' := h
      injection h2 with h3
      exact h3.symm
    subst hS'
    have hputs := onInsertPhase1_eq hph
    subst hputs
    rw [rowSpec_eq_delKey]
    apply idxRowsFor_eq (nodup_keys_kvPutList hkeys)
    · intro k hk
      rw [keys_kvPutList_mem] at hk
      constructor
      · intro hp
        rcases hk with hk | hk
        · exfalso
          have hmem : k ∈ idxRowsFor S c i.field docId := List.mem_filter.mpr ⟨hk, hp⟩
          rw [hfresh i hi] at hmem
          simp at hmem
        · obtain ⟨p, hpmem, rfl⟩ := List.mem_map.mp hk
          obtain ⟨j, hj, hins⟩ := List.mem_filterMap.mp hpmem
          obtain ⟨v, ev, hv, hnull, henc, rfl⟩ := insPutOf_unpack hins
          have hfj := (rowPred_idxKeyRaw hc (hfs i hi) (hfs j hj) hid).mp hp
          have hij : i = j := List.inj_on_of_nodup_map hnd hi hj hfj.1
          subst hij
          simp [delKeyOf, hv, hnull, henc]
      · intro hspec
        obtain ⟨v, ev, hv, hnull, henc, rfl⟩ := delKeyOf_unpack hspec
        exact (rowPred_idxKeyRaw hc (hfs i hi) (hfs i hi) hid).mpr ⟨rfl, rfl⟩
    · intro k hk
      obtain ⟨v, ev, hv, hnull, henc, rfl⟩ := delKeyOf_unpack hk
      rw [keys_kvPutList_mem]
      right
      refine List.mem_map.mpr ⟨(idxKeyRaw c i.field ev docId, Val.oneV), ?_, rfl⟩
      exact List.mem_filterMap.mpr ⟨i, hi, by simp [insPutOf, hv, hnull, henc]⟩

theorem onDelete_rows {S : KV} {c : Str} {indexes : List IndexDef} {doc : Doc}
    {docId : Str} {S' : KV}
    (hkeys : (S.map Prod.fst).Nodup)
    (h : onDelete S c indexes doc docId = (S', .ok ()))
    (hold : ∀ i ∈ indexes, idxRowsFor S c i.field docId = rowSpec c doc docId i.field)
    {i : IndexDef} (hi : i ∈ indexes) :
    idxRowsFor S' c i.field docId = [] := by
  rw [onDelete_ok_eq h, idxRowsFor, List.filter_eq_nil_iff]
  intro k hk hp
  rw [keys_kvDelList_mem hkeys] at hk
  obtain ⟨hkS, hknot⟩ := hk
  have hmem : k ∈ idxRowsFor S c i.field docId := List.mem_filter.mpr ⟨hkS, hp⟩
  rw [hold i hi, rowSpec_eq_delKey] at hmem
  cases hdk : delKeyOf c doc docId i with
  | none =>
    rw [hdk] at hmem
    simp at hmem
  | some key =>
    rw [hdk] at hmem
    simp at hmem
    subst hmem
    exact hknot (List.mem_filterMap.mpr ⟨i, hi, hdk⟩)

theorem onUpdate_rows {S : KV} {c : Str} {indexes : List IndexDef}
    {oldDoc newDoc : Doc} {docId : Str} {S' : KV}
    (hc : ':' ∉ c) (hid : usep ∉ docId)
    (hfs : ∀ i ∈ indexes, ':' ∉ i.field)
    (hnd : (indexes.map IndexDef.field).Nodup)
    (hkeys : (S.map Prod.fst).Nodup)
    (h : onUpdate S c indexes oldDoc newDoc docId = .ok S')
    (hold : ∀ i ∈ indexes, idxRowsFor S c i.field docId = rowSpec c oldDoc docId i.field)
    {i : IndexDef} (hi : i ∈ indexes) :
    idxRowsFor S' c i.field docId
      = if jsonOpt (dGet oldDoc i.field) = jsonOpt (dGet newDoc i.field)
        then rowSpec c oldDoc docId i.field
        else rowSpec c newDoc docId i.field := by
  rw [onUpdate] at h
  cases hph : onUpdatePhase1 S c oldDoc newDoc docId indexes with
  | error e =>
    rw [hph] at h
    simp only [bind, Except.bind] at h
    exact Except.noConfusion h
  | ok dp =>
    obtain ⟨dels, puts⟩ := dp
    rw [hph] at h
    have hS' : S' = kvPutList (kvDelList S dels) puts := by
      have h2 : Except.ok (kvPutList (kvDelList S dels) puts) = Except.ok S' := h
      injection h2 with h3
      exact h3.symm
    subst hS'
    obtain ⟨hd, hp⟩ := onUpdatePhase1_eq hph
    subst hd
    subst hp
    by_cases hskip : jsonOpt (dGet oldDoc i.field) = jsonOpt (dGet newDoc i.field)
    · rw [if_pos hskip, rowSpec_eq_delKey]
      apply idxRowsFor_eq (nodup_keys_kvPutList (nodup_keys_kvDelList hkeys))
      · intro k hk
        rw [keys_kvPutList_mem] at hk
        constructor
        · intro hpred
          rcases hk with hk | hk
          · rw [keys_kvDelList_mem hkeys] at hk
            obtain ⟨hkS, hkd⟩ := hk
            have hmem : k ∈ idxRowsFor S c i.field docId :=
              List.mem_filter.mpr ⟨hkS, hpred⟩
            rw [hold i hi, rowSpec_eq_delKey] at hmem
            cases hdk : delKeyOf c oldDoc docId i with
            | none =>
              rw [hdk] at hmem
              simp at hmem
            | some key =>
              rw [hdk] at hmem
              simp at hmem
              subst hmem
              rfl
          · obtain ⟨p, hpmem, rfl⟩ := List.mem_map.mp hk
            obtain ⟨j, hj, hupd⟩ := List.mem_filterMap.mp hpmem
            rw [updPutOf] at hupd
            by_cases hskj : jsonOpt (dGet oldDoc j.field) = jsonOpt (dGet newDoc j.field)
            · rw [if_pos hskj] at hupd
              exact Option.noConfusion hupd
            · rw [if_neg hskj] at hupd
              obtain ⟨v, ev, hv, hnull, henc, rfl⟩ := insPutOf_unpack hupd
              have hfj := (rowPred_idxKeyRaw hc (hfs i hi) (hfs j hj) hid).mp hpred
              have hij : i = j := List.inj_on_of_nodup_map hnd hi hj hfj.1
              exact absurd (hij ▸ hskip) hskj
        · intro hspec
          obtain ⟨v, ev, hv, hnull, henc, rfl⟩ := delKeyOf_unpack hspec
          exact (rowPred_idxKeyRaw hc (hfs i hi) (hfs i hi) hid).mpr ⟨rfl, rfl⟩
      · intro k hk
        rw [keys_kvPutList_mem]
        left
        rw [keys_kvDelList_mem hkeys]
        constructor
        · have hmem : k ∈ idxRowsFor S c i.field docId := by
            rw [hold i hi, rowSpec_eq_delKey, hk]
            simp
          exact (List.mem_filter.mp hmem).1
        · intro hkd
          obtain ⟨j, hj, hdj⟩ := List.mem_filterMap.mp hkd
          rw [updDelOf] at hdj
          by_cases hskj : jsonOpt (dGet oldDoc j.field) = jsonOpt (dGet newDoc j.field)
          · rw [if_pos hskj] at hdj
            exact Option.noConfusion hdj
          · rw [if_neg hskj] at hdj
            obtain ⟨v, ev, hv, hnull, henc, hkey⟩ := delKeyOf_unpack hdj
            obtain ⟨v', ev', hv', hnull', henc', hkey'⟩ := delKeyOf_unpack hk
            have hpfx : idxPfx c j.field <+: idxKeyRaw c i.field ev' docId := by
              rw [← hkey', hkey]
              exact ⟨ev ++ usep :: docId, by rw [idxKeyRaw]; simp⟩
            have hfj : j.field = i.field :=
              (idxPfx_prefix_key_iff (hfs j hj) (hfs i hi)).mp hpfx
            have hij : j = i := List.inj_on_of_nodup_map hnd hj hi hfj
            subst hij
            exact hskj hskip
    · rw [if_neg hskip, rowSpec_eq_delKey]
      apply idxRowsFor_eq (nodup_keys_kvPutList (nodup_keys_kvDelList hkeys))
      · intro k hk
        rw [keys_kvPutList_mem] at hk
        constructor
        · intro hpred
          rcases hk with hk | hk
          · exfalso
            rw [keys_kvDelList_mem hkeys] at hk
            obtain ⟨hkS, hkd⟩ := hk
            have hmem : k ∈ idxRowsFor S c i.field docId :=
              List.mem_filter.mpr ⟨hkS, hpred⟩
            rw [hold i hi, rowSpec_eq_delKey] at hmem
            cases hdk : delKeyOf c oldDoc docId i with
            | none =>
              rw [hdk] at hmem
              simp at hmem
            | some key =>
              rw [hdk] at hmem
              simp at hmem
              subst hmem
              refine hkd (List.mem_filterMap.mpr ⟨i, hi, ?_⟩)
              rw [updDelOf, if_neg hskip]
              exact hdk
          · obtain ⟨p, hpmem, rfl⟩ := List.mem_map.mp hk
            obtain ⟨j, hj, hupd⟩ := List.mem_filterMap.mp hpmem
            rw [updPutOf] at hupd
            by_cases hskj : jsonOpt (dGet oldDoc j.field) = jsonOpt (dGet newDoc j.field)
            · rw [if_pos hskj] at hupd
              exact Option.noConfusion hupd
            · rw [if_neg hskj] at hupd
              obtain ⟨v, ev, hv, hnull, henc, rfl⟩ := insPutOf_unpack hupd
              have hfj := (rowPred_idxKeyRaw hc (hfs i hi) (hfs j hj) hid).mp hpred
              have hij : i = j := List.inj_on_of_nodup_map hnd hi hj hfj.1
              subst hij
              rw [← insPut_fst, hupd]
              rfl
        · intro hspec
          obtain ⟨v, ev, hv, hnull, henc, rfl⟩ := delKeyOf_unpack hspec
          exact (rowPred_idxKeyRaw hc (hfs i hi) (hfs i hi) hid).mpr ⟨rfl, rfl⟩
      · intro k hk
        rw [keys_kvPutList_mem]
        right
        rw [← insPut_fst] at hk
        obtain ⟨p, hp2, hp1⟩ := Option.map_eq_some'.mp hk
        refine List.mem_map.mpr ⟨p, ?_, hp1⟩
        refine List.mem_filterMap.mpr ⟨i, hi, ?_⟩
        rw [updPutOf, if_neg hskip]
        exact hp2

/-- `c2` amended: the *per-document* index maintenance of the
`IndexManager` is correct — under well-formed keys (colon-free
collection and field names, `0x1F`-free id, distinct index fields,
duplicate-free store keys): `onInsert` leaves, for every index, exactly
one index row for the inserted document when its value at the indexed
field is present, non-null and encodable and none otherwise; `onUpdate`
replaces the old value's row by the new value's row (or leaves the rows
unchanged when both values have equal JSON text); `onDelete` removes
the document's rows.  The claimed *store-wide* invariant over whole
mutations nevertheless fails, because `updateOne` can `$set` the `_id`
while the document stays stored under its old row key and old index id
(see the counterexample). -/
theorem c2_index_maintenance (S : KV) (c : Str) (indexes : List IndexDef)
    (docId : Str)
    (hc : ':' ∉ c) (hid : usep ∉ docId)
    (hfs : ∀ i ∈ indexes, ':' ∉ i.field)
    (hnd : (indexes.map IndexDef.field).Nodup)
    (hkeys : (S.map Prod.fst).Nodup) :
    (∀ (doc : Doc) (S' : KV), onInsert S c indexes doc docId = .ok S' →
      (∀ i ∈ indexes, idxRowsFor S c i.field docId = []) →
      ∀ i ∈ indexes, idxRowsFor S' c i.field docId = rowSpec c doc docId i.field)
    ∧ (∀ (oldDoc newDoc : Doc) (S' : KV),
        onUpdate S c indexes oldDoc newDoc docId = .ok S' →
        (∀ i ∈ indexes, idxRowsFor S c i.field docId = rowSpec c oldDoc docId i.field) →
        ∀ i ∈ indexes, idxRowsFor S' c i.field docId
          = if jsonOpt (dGet oldDoc i.field) = jsonOpt (dGet newDoc i.field)
            then rowSpec c oldDoc docId i.field
            else rowSpec c newDoc docId i.field)
    ∧ (∀ (doc : Doc) (S' : KV), onDelete S c indexes doc docId = (S', .ok ()) →
        (∀ i ∈ indexes, idxRowsFor S c i.field docId = rowSpec c doc docId i.field) →
        ∀ i ∈ indexes, idxRowsFor S' c i.field docId = []) :=
  ⟨fun _ _ h hfresh _ hi => onInsert_rows hc hid hfs hnd hkeys h hfresh hi,
    fun _ _ _ h hold _ hi => onUpdate_rows hc hid hfs hnd hkeys h hold hi,
    fun _ _ h hold _ hi => onDelete_rows hkeys h hold hi⟩

theorem c2_index_maintenance_witness :
    idxRowsFor [(idxKeyRaw (str "users") (str "_id") (str "3:a") (str "a"), Val.oneV)]
        (str "users") (str "_id") (str "a")
      = rowSpec (str "users") [(str "_id", Value.vStr (str "a"))] (str "a") (str "_id") :=
  (c2_index_maintenance [] (str "users") [⟨str "_id_", str "_id", true⟩] (str "a")
      (by decide) (by decide) (by decide) (by decide) (by decide)).1
    [(str "_id", Value.vStr (str "a"))]
    [(idxKeyRaw (str "users") (str "_id") (str "3:a") (str "a"), Val.oneV)]
    (by decide) (by decide)
    ⟨str "_id_", str "_id", true⟩ (by decide)

/-! ## Claim C3: unique-index duplicate rejection -/

theorem cons_ne_cons_head {a b : Char} {s t : Str} (h : a ≠ b) : a :: s ≠ b :: t := by
  intro hc
  injection hc with h1 _
  exact h h1

theorem metaKey_head (c : Str) : metaKey c = 'm' :: (str "eta:collection:" ++ c) := rfl

theorem encodeDocKey_head (c id : Str) :
    encodeDocKey c id = 'd' :: (str "oc:" ++ c ++ ':' :: id) := rfl

theorem docPfx_head (c : Str) : docPfx c = 'd' :: (str "oc:" ++ c ++ [':']) := rfl

theorem idxKeyRaw_head (c f ev id : Str) :
    idxKeyRaw c f ev id = 'i' :: ('d' :: 'x' :: ':' :: (c ++ ':' :: (f ++ ':' :: (ev ++ usep :: id)))) := by
  rw [idxKeyRaw_eq]

theorem idxPfx_head (c f : Str) :
    idxPfx c f = 'i' :: (str "dx:" ++ c ++ ':' :: f ++ [':']) := rfl

theorem isEmpty_false_of_ne_nil {l : Str} (h : l ≠ []) : l.isEmpty = false := by
  cases l with
  | nil => exact absurd rfl h
  | cons a t => rfl

theorem encodeValue_vStr {s : Str} (h : s.length ≤ 1024) :
    encodeValue (.vStr s) = .ok ('3' :: ':' :: s) := by
  rw [encodeValue, if_neg (by omega)]

theorem checkUnique_ok {S : KV} {c : Str} {idx : IndexDef} {v : Value} {curId : Str}
    {es : Bool} {ev : Str} (hev : encodeValue v = .ok ev)
    (hscan : kvScan S ⟨some (idxPfx c idx.field ++ ev ++ [usep]), none, none, some 2⟩
      = []) :
    checkUnique S c idx v curId es = .ok () := by
  rw [checkUnique, hev]
  show checkUniqueLoop es curId (kvScan S _) = _
  rw [hscan]
  rfl

theorem checkUnique_err {S : KV} {c : Str} {idx : IndexDef} {v : Value} {curId : Str}
    {ev : Str} (hev : encodeValue v = .ok ev)
    (hscan : kvScan S ⟨some (idxPfx c idx.field ++ ev ++ [usep]), none, none, some 2⟩
      ≠ []) :
    checkUnique S c idx v curId false = .error errDupKey := by
  rw [checkUnique, hev]
  show checkUniqueLoop false curId (kvScan S _) = _
  cases hs : kvScan S ⟨some (idxPfx c idx.field ++ ev ++ [usep]), none, none, some 2⟩ with
  | nil => exact absurd hs hscan
  | cons e l =>
    obtain ⟨k, v'⟩ := e
    rfl

theorem idxPfx_app_not_prefix_key {c a b ev id : Str} (ha : ':' ∉ a) (hb : ':' ∉ b)
    (hab : a ≠ b) (X : Str) :
    ¬ (idxPfx c a ++ X) <+: idxKeyRaw c b ev id := by
  intro h
  exact hab ((idxPfx_prefix_key_iff ha hb).mp ((List.prefix_append _ X).trans h))

theorem idpfx_id_disjoint {c id1 id2 : Str} (h12 : id2 ≠ id1)
    (hu1 : usep ∉ id1) (hu2 : usep ∉ id2) :
    ¬ (idxPfx c (str "_id") ++ ('3' :: ':' :: id2) ++ [usep])
      <+: idxKeyRaw c (str "_id") ('3' :: ':' :: id1) id1 := by
  intro h
  rw [show idxKeyRaw c (str "_id") ('3' :: ':' :: id1) id1
      = idxPfx c (str "_id") ++ (('3' :: ':' :: id1) ++ usep :: id1) from by
    rw [idxKeyRaw]
    simp] at h
  rw [show idxPfx c (str "_id") ++ ('3' :: ':' :: id2) ++ [usep]
      = idxPfx c (str "_id") ++ (('3' :: ':' :: id2) ++ [usep]) from by simp] at h
  rw [List.prefix_append_right_inj] at h
  have h4 : ('3' :: ':' :: (id2 ++ [usep])) <+: ('3' :: ':' :: (id1 ++ usep :: id1)) := by
    simpa using h
  have h3 := (List.cons_prefix_cons.mp (List.cons_prefix_cons.mp h4).2).2
  exact h12 (sep_prefix_eq id2 hu2 hu1 h3).1

def idIdxDef : IndexDef := ⟨str "_id_", str "_id", true⟩

def fIdxDef (f : Str) : IndexDef := ⟨f ++ str "_1", f, true⟩

def c3meta (c f : Str) (n : Nat) : Metadata := ⟨c, [idIdxDef, fIdxDef f], n⟩

theorem c3_stage0 {c f : Str} (hval : validateCollectionName c = .ok ())
    (hfid : f ≠ str "_id") :
    dsCreateIndex ⟨[], 0⟩ c f true
      = (⟨[(metaKey c, .metaV (c3meta c f 0))], 0⟩, .ok (f ++ str "_1")) := by
  have hfind : (List.find? (fun idx => idx.field = f) [idIdxDef]) = none := by
    rw [List.find?_cons_of_neg, List.find?_nil]
    simp [idIdxDef]
    exact fun h => hfid h.symm
  have hg : getOrCreateCollection [] c
      = ([(metaKey c, .metaV ⟨c, [idIdxDef], 0⟩)], .ok ⟨c, [idIdxDef], 0⟩) := by
    unfold getOrCreateCollection
    rw [hval]
    rfl
  have hscan : kvScan [(metaKey c, Val.metaV ⟨c, [idIdxDef], 0⟩)]
      ⟨some (docPfx c), Option.map (· ++ ['\x00']) none, none, some 5000⟩ = [] := by
    apply kvScan_pfx_eq_nil (lastOk_docPfx c)
    intro e he
    rw [List.mem_singleton] at he
    rw [he, docPfx_head, metaKey_head]
    exact not_prefix_head (by decide)
  have him : imCreateIndex [(metaKey c, .metaV ⟨c, [idIdxDef], 0⟩)] ⟨c, [idIdxDef], 0⟩ f true
      = ([(metaKey c, .metaV ⟨c, [idIdxDef], 0⟩)], .ok (fIdxDef f)) := by
    unfold imCreateIndex
    rw [hfind]
    dsimp only
    rw [buildIdxLoop]
    rw [hscan]
    rfl
  unfold dsCreateIndex
  rw [hval]
  dsimp only
  rw [hg]
  dsimp only
  rw [hfind]
  dsimp only
  rw [him]
  dsimp only
  rw [show kvPut [(metaKey c, Val.metaV ⟨c, [idIdxDef], 0⟩)] (metaKey c)
        (Val.metaV ⟨c, [idIdxDef] ++ [fIdxDef f], 0⟩)
      = [(metaKey c, Val.metaV ⟨c, [idIdxDef] ++ [fIdxDef f], 0⟩)] from by
    rw [kvPut, if_pos rfl]]
  rfl

theorem kvPut_head_eq {k : Str} {v w : Val} {rest : KV} :
    kvPut ((k, v) :: rest) k w = (k, w) :: rest := by
  rw [kvPut, if_pos rfl]

theorem insChunks_one_nil (c : Str) (meta : Metadata) (S : KV) (seed : Nat)
    (ids : List Str) : insChunks c meta 1 [] S seed ids = ((S, seed), .ok ids) := rfl

theorem c3_stage1 {c f id1 : Str} {d1 : Doc} {v : Value} {ev : Str}
    (hval : validateCollectionName c = .ok ())
    (hf : ':' ∉ f)
    (hs1 : sanitizeDocument d1 = .ok ())
    (hid1 : dGet d1 (str "_id") = some (.vStr id1))
    (hne1 : id1 ≠ [])
    (hlen1 : id1.length ≤ 1024)
    (hv1 : dGet d1 f = some v) (hvn : v ≠ .vNull)
    (hev : encodeValue v = .ok ev)
    (hsz1 : (jsonDoc d1).length ≤ 1048576)
    (hfid : f ≠ str "_id") :
    dsInsert ⟨[(metaKey c, .metaV (c3meta c f 0))], 0⟩ c [d1]
      = (⟨[(metaKey c, .metaV (c3meta c f 1)),
            (idxKeyRaw c (str "_id") ('3' :: ':' :: id1) id1, .oneV),
            (idxKeyRaw c f ev id1, .oneV),
            (encodeDocKey c id1, .docV d1)], 0⟩,
          .ok ⟨some id1, none, 1⟩) := by
  have hK12 : idxKeyRaw c (str "_id") ('3' :: ':' :: id1) id1 ≠ idxKeyRaw c f ev id1 := by
    intro h
    have hpre : idxPfx c (str "_id") <+: idxKeyRaw c f ev id1 := by
      rw [← h]
      exact (idxPfx_prefix_key_iff (show ':' ∉ str "_id" by decide)
        (show ':' ∉ str "_id" by decide)).mpr rfl
    exact hfid
      (((idxPfx_prefix_key_iff (show ':' ∉ str "_id" by decide) hf).mp hpre).symm)
  have hS2ne : ∀ g ev' id', (metaKey c, Val.metaV (c3meta c f 0)).1 ≠ idxKeyRaw c g ev' id' := by
    intro g ev' id'
    rw [metaKey_head, idxKeyRaw_head]
    exact cons_ne_cons_head (by decide)
  have hscan_id : kvScan [(metaKey c, Val.metaV (c3meta c f 0))]
      ⟨some (idxPfx c (str "_id") ++ ('3' :: ':' :: id1) ++ [usep]), none, none, some 2⟩
        = [] := by
    apply kvScan_pfx_eq_nil (by exact lastOk_concat (by decide))
    intro e he
    rw [List.mem_singleton] at he
    rw [he]
    intro hpre
    have := ((List.prefix_append (idxPfx c (str "_id"))
        (('3' :: ':' :: id1) ++ [usep])).trans (by simpa using hpre))
    rw [idxPfx_head, metaKey_head] at this
    obtain ⟨t, ht⟩ := this
    exact absurd ht.symm (cons_ne_cons_head (by decide))
  have hscan_f : kvScan [(metaKey c, Val.metaV (c3meta c f 0))]
      ⟨some (idxPfx c f ++ ev ++ [usep]), none, none, some 2⟩ = [] := by
    apply kvScan_pfx_eq_nil (by exact lastOk_concat (by decide))
    intro e he
    rw [List.mem_singleton] at he
    rw [he]
    intro hpre
    have := ((List.prefix_append (idxPfx c f) (ev ++ [usep])).trans (by simpa using hpre))
    rw [idxPfx_head, metaKey_head] at this
    obtain ⟨t, ht⟩ := this
    exact absurd ht.symm (cons_ne_cons_head (by decide))
  have hekId : encodeIdxKey c (str "_id") (.vStr id1) id1
      = .ok (idxKeyRaw c (str "_id") ('3' :: ':' :: id1) id1) := by
    rw [encodeIdxKey, encodeValue_vStr hlen1]
    rfl
  have hekF : encodeIdxKey c f v id1 = .ok (idxKeyRaw c f ev id1) := by
    rw [encodeIdxKey, hev]
    rfl
  have hph : onInsertPhase1 [(metaKey c, Val.metaV (c3meta c f 0))] c d1 id1
      [idIdxDef, fIdxDef f]
      = .ok [(idxKeyRaw c (str "_id") ('3' :: ':' :: id1) id1, Val.oneV),
          (idxKeyRaw c f ev id1, Val.oneV)] := by
    rw [onInsertPhase1]
    rw [show idIdxDef.field = str "_id" from rfl, hid1]
    dsimp only
    rw [if_neg (by simp)]
    rw [show idIdxDef.unique = true from rfl, if_pos rfl]
    rw [checkUnique_ok (encodeValue_vStr hlen1)
      (by rw [show idIdxDef.field = str "_id" from rfl]; exact hscan_id)]
    rw [hekId]
    rw [onInsertPhase1]
    rw [show (fIdxDef f).field = f from rfl, hv1]
    dsimp only
    rw [if_neg hvn]
    rw [show (fIdxDef f).unique = true from rfl, if_pos rfl]
    rw [checkUnique_ok hev (by rw [show (fIdxDef f).field = f from rfl]; exact hscan_f)]
    rw [hekF]
    rw [onInsertPhase1]
    rfl
  have hOnIns : onInsert [(metaKey c, Val.metaV (c3meta c f 0))] c
      [idIdxDef, fIdxDef f] d1 id1
      = .ok [(metaKey c, Val.metaV (c3meta c f 0)),
          (idxKeyRaw c (str "_id") ('3' :: ':' :: id1) id1, Val.oneV),
          (idxKeyRaw c f ev id1, Val.oneV)] := by
    rw [onInsert, hph]
    show Except.ok (kvPut (kvPut _ _ _) _ _) = _
    rw [show kvPut [(metaKey c, Val.metaV (c3meta c f 0))]
          (idxKeyRaw c (str "_id") ('3' :: ':' :: id1) id1) Val.oneV
        = [(metaKey c, Val.metaV (c3meta c f 0)),
            (idxKeyRaw c (str "_id") ('3' :: ':' :: id1) id1, Val.oneV)] from by
      rw [kvPut_fresh (by
        intro e he
        rw [List.mem_singleton] at he
        rw [he]
        exact hS2ne _ _ _)]
      rfl]
    rw [show kvPut [(metaKey c, Val.metaV (c3meta c f 0)),
          (idxKeyRaw c (str "_id") ('3' :: ':' :: id1) id1, Val.oneV)]
          (idxKeyRaw c f ev id1) Val.oneV
        = [(metaKey c, Val.metaV (c3meta c f 0)),
            (idxKeyRaw c (str "_id") ('3' :: ':' :: id1) id1, Val.oneV),
            (idxKeyRaw c f ev id1, Val.oneV)] from by
      rw [kvPut_fresh (by
        intro e he
        rcases List.mem_cons.mp he with he | he
        · rw [he]
          exact hS2ne _ _ _
        · rw [List.mem_singleton] at he
          rw [he]
          exact hK12)]
      rfl]
  have hdid : docIdOf d1 = id1 := by
    rw [docIdOf, hid1]
    rfl
  have hg1 : getOrCreateCollection [(metaKey c, Val.metaV (c3meta c f 0))] c
      = ([(metaKey c, Val.metaV (c3meta c f 0))], .ok (c3meta c f 0)) := by
    unfold getOrCreateCollection
    rw [hval]
    dsimp only
    rw [kvGet, if_pos rfl]
  have hsl : sanitizeList [d1] = .ok () := by
    rw [sanitizeList, hs1]
    rfl
  unfold dsInsert
  rw [hval]
  dsimp only
  rw [hsl]
  dsimp only
  unfold insertInternal
  rw [hg1]
  dsimp only
  rw [show ([d1] : List Doc).length + 1 = 1 + 1 from rfl]
  rw [insChunks]
  rw [if_neg (by simp)]
  rw [show List.take 5000 [d1] = [d1] from List.take_of_length_le (by simp)]
  rw [insChunkLoop]
  rw [hid1]
  dsimp only
  rw [show jsFalsyOpt (some (Value.vStr id1)) = false from by
    rw [jsFalsyOpt]
    exact isEmpty_false_of_ne_nil hne1]
  rw [if_neg (Bool.false_ne_true), if_neg (Bool.false_ne_true)]
  rw [if_neg (by unfold maxDocumentSize; omega)]
  rw [hdid]
  rw [show (c3meta c f 0).indexes = [idIdxDef, fIdxDef f] from rfl]
  rw [hOnIns]
  dsimp only
  rw [kvPut_fresh (by
    intro e he
    rcases List.mem_cons.mp he with he | he
    · rw [he, metaKey_head, encodeDocKey_head]
      exact cons_ne_cons_head (by decide)
    · rcases List.mem_cons.mp he with he | he
      · rw [he, idxKeyRaw_head, encodeDocKey_head]
        exact cons_ne_cons_head (by decide)
      · rw [List.mem_singleton] at he
        rw [he, idxKeyRaw_head, encodeDocKey_head]
        exact cons_ne_cons_head (by decide))]
  rw [insChunkLoop]
  dsimp only
  rw [show List.drop 5000 [d1] = ([] : List Doc) from List.drop_eq_nil_of_le (by simp)]
  rw [insChunks_one_nil]
  dsimp only
  rw [show (c3meta c f 0).name = c from rfl]
  rw [List.cons_append, kvPut_head_eq]
  rfl

theorem c3_stage2 {c f id1 id2 : Str} {d1 d2 : Doc} {v : Value} {ev : Str}
    (hval : validateCollectionName c = .ok ())
    (hf : ':' ∉ f)
    (hs2 : sanitizeDocument d2 = .ok ())
    (hid2 : dGet d2 (str "_id") = some (.vStr id2))
    (hne2 : id2 ≠ [])
    (hlen2 : id2.length ≤ 1024)
    (hu1 : usep ∉ id1) (hu2 : usep ∉ id2) (h12 : id2 ≠ id1)
    (hv2 : dGet d2 f = some v) (hvn : v ≠ .vNull)
    (hev : encodeValue v = .ok ev)
    (hsz2 : (jsonDoc d2).length ≤ 1048576)
    (hfid : f ≠ str "_id") :
    dsInsert ⟨[(metaKey c, .metaV (c3meta c f 1)),
        (idxKeyRaw c (str "_id") ('3' :: ':' :: id1) id1, .oneV),
        (idxKeyRaw c f ev id1, .oneV),
        (encodeDocKey c id1, .docV d1)], 0⟩ c [d2]
      = (⟨[(metaKey c, .metaV (c3meta c f 1)),
            (idxKeyRaw c (str "_id") ('3' :: ':' :: id1) id1, .oneV),
            (idxKeyRaw c f ev id1, .oneV),
            (encodeDocKey c id1, .docV d1)], 0⟩,
          .error errDupKey) := by
  have hscan_id2 : kvScan [(metaKey c, Val.metaV (c3meta c f 1)),
      (idxKeyRaw c (str "_id") ('3' :: ':' :: id1) id1, Val.oneV),
      (idxKeyRaw c f ev id1, Val.oneV),
      (encodeDocKey c id1, Val.docV d1)]
      ⟨some (idxPfx c (str "_id") ++ ('3' :: ':' :: id2) ++ [usep]), none, none, some 2⟩
        = [] := by
    apply kvScan_pfx_eq_nil (by exact lastOk_concat (by decide))
    intro e he
    rcases List.mem_cons.mp he with he | he
    · rw [he]
      intro hpre
      have := ((List.prefix_append (idxPfx c (str "_id"))
          (('3' :: ':' :: id2) ++ [usep])).trans (by simpa using hpre))
      rw [idxPfx_head, metaKey_head] at this
      obtain ⟨t, ht⟩ := this
      exact absurd ht.symm (cons_ne_cons_head (by decide))
    rcases List.mem_cons.mp he with he | he
    · rw [he]
      exact idpfx_id_disjoint h12 hu1 hu2
    rcases List.mem_cons.mp he with he | he
    · rw [he]
      intro hpre
      have hpre' : (idxPfx c (str "_id") ++ (('3' :: ':' :: id2) ++ [usep]))
          <+: idxKeyRaw c f ev id1 := by simpa using hpre
      exact idxPfx_app_not_prefix_key (show ':' ∉ str "_id" by decide) hf
        (fun h => hfid h.symm) _ hpre'
    · rw [List.mem_singleton] at he
      rw [he]
      intro hpre
      have := ((List.prefix_append (idxPfx c (str "_id"))
          (('3' :: ':' :: id2) ++ [usep])).trans (by simpa using hpre))
      rw [idxPfx_head, encodeDocKey_head] at this
      obtain ⟨t, ht⟩ := this
      exact absurd ht.symm (cons_ne_cons_head (by decide))
  have hscan_f2 : kvScan [(metaKey c, Val.metaV (c3meta c f 1)),
      (idxKeyRaw c (str "_id") ('3' :: ':' :: id1) id1, Val.oneV),
      (idxKeyRaw c f ev id1, Val.oneV),
      (encodeDocKey c id1, Val.docV d1)]
      ⟨some (idxPfx c f ++ ev ++ [usep]), none, none, some 2⟩ ≠ [] := by
    refine kvScan_pfx_ne_nil (by exact lastOk_concat (by decide)) (by omega)
      (show (idxKeyRaw c f ev id1, Val.oneV) ∈ _ by simp) ?_
    show (idxPfx c f ++ ev ++ [usep]) <+: idxKeyRaw c f ev id1
    refine ⟨id1, ?_⟩
    rw [idxKeyRaw]
    simp
  have hekId2 : encodeIdxKey c (str "_id") (.vStr id2) id2
      = .ok (idxKeyRaw c (str "_id") ('3' :: ':' :: id2) id2) := by
    rw [encodeIdxKey, encodeValue_vStr hlen2]
    rfl
  have hph2 : onInsertPhase1 [(metaKey c, Val.metaV (c3meta c f 1)),
      (idxKeyRaw c (str "_id") ('3' :: ':' :: id1) id1, Val.oneV),
      (idxKeyRaw c f ev id1, Val.oneV),
      (encodeDocKey c id1, Val.docV d1)] c d2 id2 [idIdxDef, fIdxDef f]
      = .error errDupKey := by
    rw [onInsertPhase1]
    rw [show idIdxDef.field = str "_id" from rfl, hid2]
    dsimp only
    rw [if_neg (by simp)]
    rw [show idIdxDef.unique = true from rfl, if_pos rfl]
    rw [checkUnique_ok (encodeValue_vStr hlen2)
      (by rw [show idIdxDef.field = str "_id" from rfl]; exact hscan_id2)]
    rw [hekId2]
    rw [onInsertPhase1]
    rw [show (fIdxDef f).field = f from rfl, hv2]
    dsimp only
    rw [if_neg hvn]
    rw [show (fIdxDef f).unique = true from rfl, if_pos rfl]
    rw [checkUnique_err hev (by rw [show (fIdxDef f).field = f from rfl]; exact hscan_f2)]
    rfl
  have hOnIns2 : onInsert [(metaKey c, Val.metaV (c3meta c f 1)),
      (idxKeyRaw c (str "_id") ('3' :: ':' :: id1) id1, Val.oneV),
      (idxKeyRaw c f ev id1, Val.oneV),
      (encodeDocKey c id1, Val.docV d1)] c [idIdxDef, fIdxDef f] d2 id2
      = .error errDupKey := by
    rw [onInsert, hph2]
    rfl
  have hdid2 : docIdOf d2 = id2 := by
    rw [docIdOf, hid2]
    rfl
  have hg2 : getOrCreateCollection [(metaKey c, Val.metaV (c3meta c f 1)),
      (idxKeyRaw c (str "_id") ('3' :: ':' :: id1) id1, Val.oneV),
      (idxKeyRaw c f ev id1, Val.oneV),
      (encodeDocKey c id1, Val.docV d1)] c
      = ([(metaKey c, Val.metaV (c3meta c f 1)),
          (idxKeyRaw c (str "_id") ('3' :: ':' :: id1) id1, Val.oneV),
          (idxKeyRaw c f ev id1, Val.oneV),
          (encodeDocKey c id1, Val.docV d1)], .ok (c3meta c f 1)) := by
    unfold getOrCreateCollection
    rw [hval]
    dsimp only
    rw [kvGet, if_pos rfl]
  have hsl2 : sanitizeList [d2] = .ok () := by
    rw [sanitizeList, hs2]
    rfl
  unfold dsInsert
  rw [hval]
  dsimp only
  rw [hsl2]
  dsimp only
  unfold insertInternal
  rw [hg2]
  dsimp only
  rw [show ([d2] : List Doc).length + 1 = 1 + 1 from rfl]
  rw [insChunks]
  rw [if_neg (by simp)]
  rw [show List.take 5000 [d2] = [d2] from List.take_of_length_le (by simp)]
  rw [insChunkLoop]
  rw [hid2]
  dsimp only
  rw [show jsFalsyOpt (some (Value.vStr id2)) = false from by
    rw [jsFalsyOpt]
    exact isEmpty_false_of_ne_nil hne2]
  rw [if_neg (Bool.false_ne_true), if_neg (Bool.false_ne_true)]
  rw [if_neg (by unfold maxDocumentSize; omega)]
  rw [hdid2]
  rw [show (c3meta c f 1).indexes = [idIdxDef, fIdxDef f] from rfl]
  rw [hOnIns2]
  dsimp only
  rw [show commitCountIfAny [(metaKey c, Val.metaV (c3meta c f 1)),
      (idxKeyRaw c (str "_id") ('3' :: ':' :: id1) id1, Val.oneV),
      (idxKeyRaw c f ev id1, Val.oneV),
      (encodeDocKey c id1, Val.docV d1)] (c3meta c f 1) []
    = [(metaKey c, Val.metaV (c3meta c f 1)),
        (idxKeyRaw c (str "_id") ('3' :: ':' :: id1) id1, Val.oneV),
        (idxKeyRaw c f ev id1, Val.oneV),
        (encodeDocKey c id1, Val.docV d1)] from by
    rw [commitCountIfAny, if_neg (by simp)]]

/-- **C3.** With a unique index on field `f` of collection `c`, after one document `d1`
with value `v` at `f` has been inserted, a second `insert` call of another document `d2`
carrying the same value `v` at `f` fails with a DuplicateKey error of code 11000, the
store state is unchanged by the failing call (in particular the second document is not
stored and exactly one document with that value survives), and the collection's persisted
`documentCount` remains 1. -/
theorem c3_unique_insert {c f id1 id2 : Str} {d1 d2 : Doc} {v : Value} {ev : Str}
    (hval : validateCollectionName c = .ok ()) (hf : ':' ∉ f) (hfid : f ≠ str "_id")
    (hs1 : sanitizeDocument d1 = .ok ()) (hs2 : sanitizeDocument d2 = .ok ())
    (hid1 : dGet d1 (str "_id") = some (.vStr id1))
    (hid2 : dGet d2 (str "_id") = some (.vStr id2))
    (hne1 : id1 ≠ []) (hne2 : id2 ≠ [])
    (hlen1 : id1.length ≤ 1024) (hlen2 : id2.length ≤ 1024)
    (hu1 : usep ∉ id1) (hu2 : usep ∉ id2) (h12 : id2 ≠ id1)
    (hv1 : dGet d1 f = some v) (hv2 : dGet d2 f = some v)
    (hvn : v ≠ .vNull) (hev : encodeValue v = .ok ev)
    (hsz1 : (jsonDoc d1).length ≤ 1048576) (hsz2 : (jsonDoc d2).length ≤ 1048576) :
    (dsCreateIndex ⟨[], 0⟩ c f true).2 = .ok (f ++ str "_1") ∧
    (dsInsert (dsCreateIndex ⟨[], 0⟩ c f true).1 c [d1]).2 = .ok ⟨some id1, none, 1⟩ ∧
    dsInsert (dsInsert (dsCreateIndex ⟨[], 0⟩ c f true).1 c [d1]).1 c [d2]
      = ((dsInsert (dsCreateIndex ⟨[], 0⟩ c f true).1 c [d1]).1, .error errDupKey) ∧
    errDupKey.code = 11000 ∧
    kvGet (dsInsert (dsCreateIndex ⟨[], 0⟩ c f true).1 c [d1]).1.kv (metaKey c)
      = some (.metaV ⟨c, [idIdxDef, fIdxDef f], 1⟩) ∧
    kvGet (dsInsert (dsCreateIndex ⟨[], 0⟩ c f true).1 c [d1]).1.kv (encodeDocKey c id1)
      = some (.docV d1) ∧
    kvGet (dsInsert (dsCreateIndex ⟨[], 0⟩ c f true).1 c [d1]).1.kv (encodeDocKey c id2)
      = none := by
  have h0 := c3_stage0 hval hfid
  have h1 := c3_stage1 hval hf hs1 hid1 hne1 hlen1 hv1 hvn hev hsz1 hfid
  have h2 := @c3_stage2 c f id1 id2 d1 d2 v ev hval hf hs2 hid2 hne2 hlen2
    hu1 hu2 h12 hv2 hvn hev hsz2 hfid
  rw [h0]
  dsimp only
  rw [h1]
  dsimp only
  refine ⟨rfl, rfl, h2, rfl, ?_, ?_, ?_⟩
  · rw [kvGet, if_pos rfl]
    rfl
  · rw [kvGet, if_neg (by
      rw [metaKey_head, encodeDocKey_head]
      exact cons_ne_cons_head (by decide))]
    rw [kvGet, if_neg (by
      rw [idxKeyRaw_head, encodeDocKey_head]
      exact cons_ne_cons_head (by decide))]
    rw [kvGet, if_neg (by
      rw [idxKeyRaw_head, encodeDocKey_head]
      exact cons_ne_cons_head (by decide))]
    rw [kvGet, if_pos rfl]
  · rw [kvGet, if_neg (by
      rw [metaKey_head, encodeDocKey_head]
      exact cons_ne_cons_head (by decide))]
    rw [kvGet, if_neg (by
      rw [idxKeyRaw_head, encodeDocKey_head]
      exact cons_ne_cons_head (by decide))]
    rw [kvGet, if_neg (by
      rw [idxKeyRaw_head, encodeDocKey_head]
      exact cons_ne_cons_head (by decide))]
    rw [kvGet, if_neg (show ¬ encodeDocKey c id1 = encodeDocKey c id2 from by
      intro hc
      rw [encodeDocKey, encodeDocKey] at hc
      have ha := List.append_cancel_left hc
      injection ha with _ hb
      exact h12 hb.symm)]
    rw [kvGet]

theorem c3_unique_insert_witness :
    (dsCreateIndex ⟨[], 0⟩ (str "users") (str "email") true).2
        = .ok (str "email" ++ str "_1") ∧
    (dsInsert (dsCreateIndex ⟨[], 0⟩ (str "users") (str "email") true).1 (str "users")
        [[(str "_id", Value.vStr (str "u1")), (str "email", Value.vStr (str "ax"))]]).2
      = .ok ⟨some (str "u1"), none, 1⟩ ∧
    dsInsert
        (dsInsert (dsCreateIndex ⟨[], 0⟩ (str "users") (str "email") true).1 (str "users")
          [[(str "_id", Value.vStr (str "u1")), (str "email", Value.vStr (str "ax"))]]).1
        (str "users")
        [[(str "_id", Value.vStr (str "u2")), (str "email", Value.vStr (str "ax"))]]
      = ((dsInsert (dsCreateIndex ⟨[], 0⟩ (str "users") (str "email") true).1 (str "users")
          [[(str "_id", Value.vStr (str "u1")), (str "email", Value.vStr (str "ax"))]]).1,
         .error errDupKey) ∧
    errDupKey.code = 11000 ∧
    kvGet (dsInsert (dsCreateIndex ⟨[], 0⟩ (str "users") (str "email") true).1 (str "users")
        [[(str "_id", Value.vStr (str "u1")), (str "email", Value.vStr (str "ax"))]]).1.kv
        (metaKey (str "users"))
      = some (.metaV ⟨str "users", [idIdxDef, fIdxDef (str "email")], 1⟩) ∧
    kvGet (dsInsert (dsCreateIndex ⟨[], 0⟩ (str "users") (str "email") true).1 (str "users")
        [[(str "_id", Value.vStr (str "u1")), (str "email", Value.vStr (str "ax"))]]).1.kv
        (encodeDocKey (str "users") (str "u1"))
      = some (.docV [(str "_id", Value.vStr (str "u1")), (str "email", Value.vStr (str "ax"))]) ∧
    kvGet (dsInsert (dsCreateIndex ⟨[], 0⟩ (str "users") (str "email") true).1 (str "users")
        [[(str "_id", Value.vStr (str "u1")), (str "email", Value.vStr (str "ax"))]]).1.kv
        (encodeDocKey (str "users") (str "u2"))
      = none :=
  @c3_unique_insert (str "users") (str "email") (str "u1") (str "u2")
    [(str "_id", Value.vStr (str "u1")), (str "email", Value.vStr (str "ax"))]
    [(str "_id", Value.vStr (str "u2")), (str "email", Value.vStr (str "ax"))]
    (Value.vStr (str "ax")) (str "3:ax")
    (by decide) (by decide) (by decide) (by decide) (by decide) (by decide) (by decide)
    (by decide) (by decide) (by decide) (by decide) (by decide) (by decide) (by decide)
    (by decide) (by decide) (by decide) (by decide) (by decide) (by decide)
